import Mathlib

/-!
Posts and threaded comments: the in-process store.

A shallow embedding of `storage/memory/memory.go` (type `InMemoryStorage` and its
seven contract operations) and of the pieces of `storage/postgres/postgres.go`
that the verified properties talk about.

Modelling conventions

* A Go `map[string]V` is a function `String → Option V`; the store never ranges
  over a map, so lookup and assignment are the only operations.
* A slice is a `List`; `append` adds at the end.  The store never writes to an
  element of a slice it has published, so sharing of backing arrays is not
  observable.
* A `*model.Comment` is an address: an index into `heap`, the list of comment
  objects in allocation order.  A `*model.Post` is the index of the object in
  `posts` (every post object is appended to `posts` exactly once and the slice is
  never reordered).  A `chan *model.Comment` is an index into `chans`.
* `uuid.New().String()` and `time.Now().Format(time.RFC3339)` are inputs of the
  operations that call them (`newID`, `now`).
* `int32` arguments are integers; the one place where the source does 32-bit
  arithmetic (`offset + limit` in `GetCommentsTree`) wraps explicitly.
* The mutex makes every operation atomic, so an operation is a function from
  states to states; a run-time panic is an explicit outcome.
-/

namespace OzonTest

/-! ## Data model -/

/-- Modelled from the spec: `model.Post` of the generated package `graph/model`
(not part of the sources); the fields are the ones the store reads and writes. -/
structure Post where
  id : String
  text : String
  commentsEnabled : Bool
  createdAt : String
deriving DecidableEq, Repr

/-- Modelled from the spec: `model.Comment` of the generated package `graph/model`
(not part of the sources).  `parentID` is the `*string` field (`none` is `nil`),
`replies` is the `[]*model.Comment` field as a list of addresses (`[]` is `nil`). -/
structure Comment where
  id : String
  postID : String
  parentID : Option String
  text : String
  createdAt : String
  replies : List Nat
deriving DecidableEq, Repr

/-- A buffered Go channel of comment pointers: capacity, queued addresses (oldest
first) and the closed flag. -/
structure Chan where
  cap : Nat
  buf : List Nat
  closed : Bool
deriving DecidableEq, Repr

/-- The errors the store builds with `fmt.Errorf`, by message. -/
inductive Failure where
  /-- Message "post with ID %s not found". -/
  | postNotFound (postID : String)
  /-- Message "comments are disabled for this post". -/
  | commentsDisabled
  /-- Message "parent comment with ID %s not found". -/
  | parentNotFound (parentID : String)
  /-- Message "post with ID %s not found or comments are disabled" (durable store). -/
  | postNotFoundOrDisabled (postID : String)
  /-- Message "failed to insert comment: ..." (durable store, the insert was refused). -/
  | insertFailed
deriving DecidableEq, Repr

/-- Result of a call: a value with a `nil` error, a non-`nil` error, or a run-time
panic (index or slice bounds out of range, send on or close of a closed channel). -/
inductive Outcome (α : Type) where
  | ok (v : α)
  | fail (e : Failure)
  | panic
deriving DecidableEq, Repr

/-- A Go `map[string]V`. -/
abbrev GoMap (α : Type) := String → Option α

/-- The value of `make(map[string]V)`. -/
def GoMap.empty {α : Type} : GoMap α := fun _ => none

/-- The map after `m[k] = v`. -/
def GoMap.insert {α : Type} (m : GoMap α) (k : String) (v : α) : GoMap α :=
  fun k' => if k' = k then some v else m k'

/-- The struct `InMemoryStorage` (the mutex apart) together with the objects its
pointers refer to: `heap` for comments and `chans` for channels. -/
structure InMemoryStorage where
  posts : List Post
  postsCommentsEnable : GoMap Bool
  postSearch : GoMap Nat
  commentsAvaliability : GoMap Bool
  commentsByPostAndParent : GoMap (GoMap (List Nat))
  subscribers : GoMap (List Nat)
  heap : List Comment
  chans : List Chan

/-- The constructor `New`. -/
def New : InMemoryStorage where
  posts := []
  postsCommentsEnable := GoMap.empty
  postSearch := GoMap.empty
  commentsAvaliability := GoMap.empty
  commentsByPostAndParent := GoMap.empty
  subscribers := GoMap.empty
  heap := []
  chans := []

/-- The constant `rootKey`: parent key of the comments made directly on a post. -/
def rootKey : String := "root"

/-! ## Operations -/

/-- `NewPost`: appends the post object and records it in both maps. -/
def NewPost (s : InMemoryStorage) (text : String) (commentsEnabled : Bool)
    (newID now : String) : Outcome Post × InMemoryStorage :=
  let post : Post :=
    { id := newID, text := text, commentsEnabled := commentsEnabled, createdAt := now }
  (Outcome.ok post,
    { s with
      posts := s.posts ++ [post]
      postsCommentsEnable := s.postsCommentsEnable.insert post.id commentsEnabled
      postSearch := s.postSearch.insert post.id s.posts.length })

/-- `GetPost`: lookup in `postSearch`; the result is the object as it is now. -/
def GetPost (s : InMemoryStorage) (postID : String) : Outcome Post :=
  match s.postSearch postID with
  | none => Outcome.fail (Failure.postNotFound postID)
  | some i =>
    match s.posts[i]? with
    | some post => Outcome.ok post
    | none => Outcome.panic

/-- The fan-out loop of `AddComment`: a non-blocking send of `comment` to every
channel of `subs`, in order.  The flag is `false` when a send hit a closed channel
(a panic); the channels are returned as they are when the loop stops. -/
def notify (comment : Nat) : List Nat → List Chan → Bool × List Chan
  | [], cs => (true, cs)
  | ch :: rest, cs =>
    match cs[ch]? with
    | none => (false, cs)
    | some c =>
      if c.closed then (false, cs)
      else if c.buf.length < c.cap then
        notify comment rest (cs.set ch { c with buf := c.buf ++ [comment] })
      else notify comment rest cs

/-- The second half of `AddComment`, after both checks: the comment object is
allocated, appended to the bucket `(postID, parentKey)`, marked as existing and sent
to the subscribers of the post. -/
def storeComment (s : InMemoryStorage) (postID : String) (parentID : Option String)
    (parentKey : String) (text : String) (newID now : String) :
    Outcome Comment × InMemoryStorage :=
  let comment : Comment :=
    { id := newID, postID := postID, parentID := parentID, text := text,
      createdAt := now, replies := [] }
  let addr := s.heap.length
  let inner : GoMap (List Nat) :=
    match s.commentsByPostAndParent postID with
    | none => GoMap.empty
    | some m => m
  let inner1 := inner.insert parentKey ((inner parentKey).getD [] ++ [addr])
  let s1 : InMemoryStorage :=
    { s with
      heap := s.heap ++ [comment]
      commentsByPostAndParent := s.commentsByPostAndParent.insert postID inner1
      commentsAvaliability := s.commentsAvaliability.insert comment.id true }
  match s1.subscribers postID with
  | none => (Outcome.ok comment, s1)
  | some subscribers =>
    match notify addr subscribers s1.chans with
    | (true, cs) => (Outcome.ok comment, { s1 with chans := cs })
    | (false, cs) => (Outcome.panic, { s1 with chans := cs })

/-- `AddComment`.  The returned comment is the stored object as it is on return. -/
def AddComment (s : InMemoryStorage) (postID : String) (parentID : Option String)
    (text : String) (newID now : String) : Outcome Comment × InMemoryStorage :=
  match s.postsCommentsEnable postID with
  | none => (Outcome.fail (Failure.postNotFound postID), s)
  | some comentsEnable =>
    if !comentsEnable then (Outcome.fail Failure.commentsDisabled, s)
    else
      match parentID with
      | none => storeComment s postID parentID rootKey text newID now
      | some pid =>
        match s.commentsAvaliability pid with
        | none => (Outcome.fail (Failure.parentNotFound pid), s)
        | some _ => storeComment s postID parentID pid text newID now

/-- The element `s.posts[j]` for an `int` index; `none` is an index out of range. -/
def indexPosts (posts : List Post) (j : Int) : Option Post :=
  if 0 ≤ j then posts[j.toNat]? else none

/-- The value of `int32(x)` for an `int` `x`: reduction into the signed 32-bit range. -/
def wrap32 (x : Int) : Int := (x + 2147483648) % 4294967296 - 2147483648

/-- The loop of `GetPosts`: `count` iterations from `i`, newest post first; `none`
is an index out of range. -/
def collectPosts (posts : List Post) (totalPosts : Int) : Nat → Int → Option (List Post)
  | 0, _ => some []
  | count + 1, i =>
    match indexPosts posts (totalPosts - 1 - i) with
    | none => none
    | some post =>
      match collectPosts posts totalPosts count (i + 1) with
      | none => none
      | some rest => some (post :: rest)

/-- `GetPosts` (a read: the state is not changed). -/
def GetPosts (s : InMemoryStorage) (limit offset : Int) : Outcome (List Post) :=
  let totalPosts : Int := s.posts.length
  if offset ≥ totalPosts then Outcome.ok []
  else
    let maxPosts := totalPosts - offset
    let limit := if limit > maxPosts then wrap32 maxPosts else limit
    if limit < 0 then Outcome.panic
    else
      match collectPosts s.posts totalPosts limit.toNat offset with
      | none => Outcome.panic
      | some result => Outcome.ok result

/-- `SubscribeToComments`: a new channel of capacity 1 appended to the post's
subscriber list.  The value is the channel and the cancellation handle, a closure
over `postID` and the channel, given as that pair. -/
def SubscribeToComments (s : InMemoryStorage) (postID : String) :
    Outcome (Nat × (String × Nat)) × InMemoryStorage :=
  match s.postsCommentsEnable postID with
  | none => (Outcome.fail (Failure.postNotFound postID), s)
  | some _ =>
    let ch := s.chans.length
    let subs := (s.subscribers postID).getD []
    (Outcome.ok (ch, (postID, ch)),
      { s with
        chans := s.chans ++ [{ cap := 1, buf := [], closed := false }]
        subscribers := s.subscribers.insert postID (subs ++ [ch]) })

/-- The closure `rmSubscription` for the captured `postID` and `ch`: the first
occurrence of `ch` leaves the post's list, then the channel is closed; closing a
closed channel panics. -/
def rmSubscription (s : InMemoryStorage) (postID : String) (ch : Nat) :
    Outcome Unit × InMemoryStorage :=
  let subs := (s.subscribers postID).getD []
  let s1 : InMemoryStorage :=
    if ch ∈ subs then { s with subscribers := s.subscribers.insert postID (subs.erase ch) }
    else s
  match s1.chans[ch]? with
  | none => (Outcome.panic, s1)
  | some c =>
    if c.closed then (Outcome.panic, s1)
    else (Outcome.ok (), { s1 with chans := s1.chans.set ch { c with closed := true } })

/-- `SetCommentsEnabled`: the first post of the list with the id is updated. -/
def SetCommentsEnabled (s : InMemoryStorage) (postID : String) (enabled : Bool) :
    Outcome Post × InMemoryStorage :=
  match s.posts.findIdx? (fun post => post.id == postID) with
  | none => (Outcome.fail (Failure.postNotFound postID), s)
  | some i =>
    match s.posts[i]? with
    | none => (Outcome.panic, s)
    | some post =>
      let post1 : Post := { post with commentsEnabled := enabled }
      (Outcome.ok post1,
        { s with
          posts := s.posts.set i post1
          postsCommentsEnable := s.postsCommentsEnable.insert postID enabled })

/-- The closure `attachChildren` of `GetCommentsTree` applied to the object at
address `comment`, over the post's index `postComments`.  The first argument bounds
the depth of the recursion; `none` means the bound was reached (or an address
refers to no object). -/
def attachChildren (postComments : GoMap (List Nat)) :
    Nat → List Comment → Nat → Option (List Comment)
  | 0, _, _ => none
  | fuel + 1, heap, comment =>
    match heap[comment]? with
    | none => none
    | some c =>
      match postComments c.id with
      | none => some heap
      | some children =>
        children.foldlM (fun h child => attachChildren postComments fuel h child)
          (heap.set comment { c with replies := children })

/-- The result loop of `GetCommentsTree` over the selected roots.  Each iteration
allocates the copy `result[i]` at the first free address, runs `attachChildren` on
it, and hands the object over to the result. -/
def copyRoots (postComments : GoMap (List Nat)) (fuel : Nat) :
    List Nat → List Comment → Option (List Comment × List Comment)
  | [], heap => some ([], heap)
  | root :: rest, heap =>
    match heap[root]? with
    | none => none
    | some r =>
      let fresh : Comment :=
        { id := r.id, postID := r.postID, parentID := r.parentID, text := r.text,
          createdAt := r.createdAt, replies := [] }
      match attachChildren postComments fuel (heap ++ [fresh]) heap.length with
      | none => none
      | some h1 =>
        match h1[heap.length]? with
        | none => none
        | some copy =>
          match copyRoots postComments fuel rest (h1.take heap.length) with
          | none => none
          | some (result, h2) => some (copy :: result, h2)

/-- `GetCommentsTree`.  The value is the list of the fresh root objects; their
`replies` (and those of every node below) are addresses of stored objects in the
heap of the returned state.  `none` means the recursion bound `fuel` was reached. -/
def GetCommentsTree (s : InMemoryStorage) (postID : String) (limit offset : Int)
    (fuel : Nat) : Option (Outcome (List Comment) × InMemoryStorage) :=
  match s.postsCommentsEnable postID with
  | none => some (Outcome.fail (Failure.postNotFound postID), s)
  | some _ =>
    match s.commentsByPostAndParent postID with
    | none => some (Outcome.ok [], s)
    | some postComments =>
      let rootComments := (postComments rootKey).getD []
      if offset ≥ (rootComments.length : Int) then some (Outcome.ok [], s)
      else
        let end0 := wrap32 (offset + limit)
        let end1 := if end0 > (rootComments.length : Int) then (rootComments.length : Int) else end0
        if 0 ≤ offset ∧ offset ≤ end1 then
          let currentRootComments :=
            (rootComments.drop offset.toNat).take (end1.toNat - offset.toNat)
          match copyRoots postComments fuel currentRootComments s.heap with
          | none => none
          | some (result, heap1) => some (Outcome.ok result, { s with heap := heap1 })
        else some (Outcome.panic, s)

/-- A consumer receives from channel `ch` (the `<-ch` of the subscriber): the oldest
queued comment leaves the buffer. -/
def receive (s : InMemoryStorage) (ch : Nat) : InMemoryStorage :=
  match s.chans[ch]? with
  | none => s
  | some c => { s with chans := s.chans.set ch { c with buf := c.buf.tail } }

/-! ## Durable store: the cancellation signal -/

/-- The cancellation handle `unsubscribe` of the durable store
(`PostgresStorage.SubscribeToComments`): `close(done)` on the signal channel the
polling goroutine watches; closing a closed channel panics. -/
def unsubscribe (done : Chan) : Outcome Unit × Chan :=
  if done.closed then (Outcome.panic, done)
  else (Outcome.ok (), { done with closed := true })

/-! ## Durable store: tree assembly -/

/-- One row of the query `SELECT id, post_id, parent_id, text, created_at FROM
comments WHERE post_id = $1 ORDER BY created_at`; `createdAt` is the timestamp as
`GetCommentsTree` formats it. -/
structure Row where
  id : String
  postID : String
  parentID : Option String
  text : String
  createdAt : String
deriving DecidableEq, Repr

/-- The stored fields of a comment as a row. -/
def Comment.row (c : Comment) : Row :=
  { id := c.id, postID := c.postID, parentID := c.parentID, text := c.text,
    createdAt := c.createdAt }

/-- The object `c` that `rows.Scan` fills from a row; its `Replies` is `nil`. -/
def Row.scan (r : Row) : Comment :=
  { id := r.id, postID := r.postID, parentID := r.parentID, text := r.text,
    createdAt := r.createdAt, replies := [] }

namespace Postgres

/-- The loop `for rows.Next()` of `PostgresStorage.GetCommentsTree`: the object of
the row at position `addr` is filed under its parent in `repliesnMap` or appended
to `rootComments`.  The map `allComments` is written and never read. -/
def scanRows : List Row → Nat → GoMap (List Nat) → List Nat → GoMap (List Nat) × List Nat
  | [], _, repliesnMap, rootComments => (repliesnMap, rootComments)
  | r :: rest, addr, repliesnMap, rootComments =>
    match r.parentID with
    | some parent =>
      scanRows rest (addr + 1)
        (repliesnMap.insert parent ((repliesnMap parent).getD [] ++ [addr])) rootComments
    | none => scanRows rest (addr + 1) repliesnMap (rootComments ++ [addr])

/-- `PostgresStorage.GetCommentsTree` after its two queries: `postExists` is the
answer of the existence query, `rows` the rows of the comment query in the order
delivered.  The objects scanned from the rows live at the addresses `0, 1, ...` of a
heap of their own; the value is the list of the addresses of the selected roots
together with that heap.  `none` means the recursion bound `fuel` was reached. -/
def GetCommentsTree (postExists : Bool) (postID : String) (rows : List Row)
    (limit offset : Int) (fuel : Nat) : Option (Outcome (List Nat) × List Comment) :=
  let heap := rows.map Row.scan
  if !postExists then some (Outcome.fail (Failure.postNotFound postID), heap)
  else
    let repliesnMap := (scanRows rows 0 GoMap.empty []).1
    let rootComments := (scanRows rows 0 GoMap.empty []).2
    if offset ≥ (rootComments.length : Int) then some (Outcome.ok [], heap)
    else
      let end0 := wrap32 (offset + limit)
      let end1 := if end0 > (rootComments.length : Int) then (rootComments.length : Int) else end0
      if 0 ≤ offset ∧ offset ≤ end1 then
        let paginatedRoots :=
          (rootComments.drop offset.toNat).take (end1.toNat - offset.toNat)
        match paginatedRoots.foldlM
            (fun h root => attachChildren repliesnMap fuel h root) heap with
        | none => none
        | some heap1 => some (Outcome.ok paginatedRoots, heap1)
      else some (Outcome.panic, heap)

end Postgres

/-- The rows the comment query of the durable store delivers for post `postID` when
the store holds the comments of the state `s`: the comments of the post in creation
order. -/
def rowsOf (s : InMemoryStorage) (postID : String) : List Row :=
  (s.heap.filter (fun c => c.postID == postID)).map Comment.row

/-! ## Durable store: comments and the change feed -/

namespace Postgres

/-- A row of table `comments`.  `createdAt` is the column `created_at`, a point in
time in nanoseconds since the epoch. -/
structure CommentRow where
  id : String
  postID : String
  parentID : Option String
  text : String
  createdAt : Nat
deriving DecidableEq, Repr

/-- The tables `posts` and `comments`, rows in insertion order. -/
structure DB where
  posts : List Post
  comments : List CommentRow
deriving DecidableEq, Repr

/-- The instant the string `t.Format(time.RFC3339)` denotes: the layout has no
fraction of a second, so `t` is cut to its whole second. -/
def second (t : Nat) : Nat := t / 1000000000 * 1000000000

/-- `PostgresStorage.AddComment` as one transaction on the tables: the combined
existence-and-flag query on `posts`, the existence query for the parent, the insert
(refused by the primary key when the id is taken) with `created_at` given as the
RFC3339 string of `now`.  The value carries the fields of the inserted row.  Failures
of the connection (begin, commit) are not modelled. -/
def AddComment (db : DB) (postID : String) (parentID : Option String) (text : String)
    (newID : String) (now : Nat) : Outcome CommentRow × DB :=
  if !db.posts.any (fun p => p.id == postID && p.commentsEnabled) then
    (Outcome.fail (Failure.postNotFoundOrDisabled postID), db)
  else
    let comment : CommentRow :=
      { id := newID, postID := postID, parentID := parentID, text := text,
        createdAt := second now }
    let insert : Outcome CommentRow × DB :=
      if db.comments.any (fun r => r.id == newID) then (Outcome.fail Failure.insertFailed, db)
      else (Outcome.ok comment, { db with comments := db.comments ++ [comment] })
    match parentID with
    | none => insert
    | some pid =>
      if !db.comments.any (fun r => r.id == pid) then
        (Outcome.fail (Failure.parentNotFound pid), db)
      else insert

/-- A subscription of the durable store as its polling goroutine sees it: the tables,
the watermark `lastCheck` and the comments sent on the event channel so far. -/
structure Feed where
  db : DB
  lastCheck : Nat
  pushed : List CommentRow
deriving DecidableEq, Repr

/-- `PostgresStorage.SubscribeToComments` up to the start of the goroutine: the
existence query, then `lastCheck := time.Now()`. -/
def SubscribeToComments (db : DB) (postID : String) (now : Nat) : Outcome Feed :=
  if !db.posts.any (fun p => p.id == postID) then
    Outcome.fail (Failure.postNotFound postID)
  else Outcome.ok { db := db, lastCheck := now, pushed := [] }

/-- The rows the polling query selects: `post_id = $1 AND created_at > $2` with `$2`
the RFC3339 string of the watermark. -/
def selected (db : DB) (postID : String) (lastCheck : Nat) : List CommentRow :=
  db.comments.filter (fun r => r.postID == postID && decide (second lastCheck < r.createdAt))

/-- An answer of the polling query: the selected rows in an order that is
non-decreasing in `created_at` (`ORDER BY created_at` leaves the order of rows with
equal `created_at` open). -/
def IsAnswer (db : DB) (postID : String) (lastCheck : Nat) (rows : List CommentRow) : Prop :=
  rows.Perm (selected db postID lastCheck) ∧
    rows.Pairwise (fun a b => a.createdAt ≤ b.createdAt)

instance (db : DB) (postID : String) (lastCheck : Nat) (rows : List CommentRow) :
    Decidable (IsAnswer db postID lastCheck rows) := by
  unfold IsAnswer; exact inferInstance

/-- The loop `for rows.Next()` of one polling tick over the rows of the answer.  A row
whose scan fails (`scanFails`) is skipped; every other row is sent on the event
channel and becomes the watermark.  `budget` is the number of sends that complete
before the cancellation signal wins the `select` (`none`: no cancellation).  The
value is the list of the comments sent and the watermark after the loop. -/
def pollRows (scanFails : CommentRow → Bool) :
    Option Nat → List CommentRow → Nat → List CommentRow × Nat
  | _, [], lastCheck => ([], lastCheck)
  | budget, r :: rest, lastCheck =>
    if scanFails r then pollRows scanFails budget rest lastCheck
    else
      match budget with
      | some 0 => ([], lastCheck)
      | some (n + 1) =>
        ((r :: (pollRows scanFails (some n) rest r.createdAt).1),
          (pollRows scanFails (some n) rest r.createdAt).2)
      | none =>
        ((r :: (pollRows scanFails none rest r.createdAt).1),
          (pollRows scanFails none rest r.createdAt).2)

/-- One polling tick without cancellation and without scan failure. -/
def tick (rows : List CommentRow) (lastCheck : Nat) : List CommentRow × Nat :=
  pollRows (fun _ => false) none rows lastCheck

/-- What can happen while a subscription to `postID` runs: the table `posts` changes
(`NewPost`, `SetCommentsEnabled`), `AddComment` is called, or the ticker fires and the
query is answered with `rows` (a tick whose query fails changes nothing). -/
inductive Step (postID : String) : Feed → Feed → Prop where
  | posts (f : Feed) (ps : List Post) :
      Step postID f { f with db := { f.db with posts := ps } }
  | addComment (f : Feed) (pid : String) (parentID : Option String) (text newID : String)
      (now : Nat) :
      Step postID f { f with db := (AddComment f.db pid parentID text newID now).2 }
  | tick (f : Feed) (rows : List CommentRow) (scanFails : CommentRow → Bool)
      (budget : Option Nat) : IsAnswer f.db postID f.lastCheck rows →
      Step postID f
        { f with
          lastCheck := (pollRows scanFails budget rows f.lastCheck).2
          pushed := f.pushed ++ (pollRows scanFails budget rows f.lastCheck).1 }

/-- The states a subscription reaches from `f0`. -/
inductive Run (postID : String) (f0 : Feed) : Feed → Prop where
  | start : Run postID f0 f0
  | step {f f1 : Feed} : Run postID f0 f → Step postID f f1 → Run postID f0 f1

/-- What the primary key and `AddComment` keep true of table `comments`: ids are
unique and every `created_at` is a whole second. -/
def Valid (db : DB) : Prop :=
  (db.comments.map (fun r => r.id)).Nodup ∧ ∀ r ∈ db.comments, second r.createdAt = r.createdAt

/-- The tables the operations build from empty tables. -/
inductive Built : DB → Prop where
  | empty : Built { posts := [], comments := [] }
  | posts {db : DB} (ps : List Post) : Built db → Built { db with posts := ps }
  | addComment {db : DB} (pid : String) (parentID : Option String) (text newID : String)
      (now : Nat) : Built db → Built (AddComment db pid parentID text newID now).2

end Postgres

/-! ## Reading a returned forest -/

/-- A comment with its replies nested: what a caller sees when it follows the
`Replies` pointers of a returned node. -/
inductive Tree where
  | node (id postID : String) (parentID : Option String) (text createdAt : String)
      (replies : List Tree)

/-- The tree below the object `c`, read through the heap to depth `fuel`. -/
def readTree (heap : List Comment) : Nat → Comment → Option Tree
  | 0, _ => none
  | fuel + 1, c =>
    match c.replies.mapM (fun a =>
        match heap[a]? with
        | none => none
        | some child => readTree heap fuel child) with
    | none => none
    | some trees => some (Tree.node c.id c.postID c.parentID c.text c.createdAt trees)

/-- The forest below the returned root objects. -/
def readForest (heap : List Comment) (fuel : Nat) (roots : List Comment) :
    Option (List Tree) :=
  roots.mapM (readTree heap fuel)

/-- The forest a flat list of rows prescribes below the row `r`, to depth `n`: the
replies of a node are the rows whose parent is the node, in the order of the list. -/
def rowTree (rows : List Row) : Nat → Row → Tree
  | 0, r => Tree.node r.id r.postID r.parentID r.text r.createdAt []
  | n + 1, r =>
    Tree.node r.id r.postID r.parentID r.text r.createdAt
      ((rows.filter (fun x => x.parentID == some r.id)).map (rowTree rows n))

/-- The object at an address, as a row (the row of an object with empty fields when
the address is free). -/
def rowAt (heap : List Comment) (a : Nat) : Row :=
  ((heap[a]?).getD ⟨"", "", none, "", "", []⟩).row

/-! ## Reachable states -/

/-- The signed 32-bit range of the `int32` arguments. -/
def IsInt32 (x : Int) : Prop := -2147483648 ≤ x ∧ x ≤ 2147483647

instance (x : Int) : Decidable (IsInt32 x) := by
  unfold IsInt32; exact inferInstance

/-- The handles issued so far after a call of `SubscribeToComments`. -/
def issued (r : Outcome (Nat × (String × Nat))) (handles : List (String × Nat)) :
    List (String × Nat) :=
  match r with
  | Outcome.ok (_, h) => h :: handles
  | _ => handles

/-- States the store reaches from `New` by calls of its operations, with the
cancellation handles handed out so far.  Generated ids are fresh: a post id is not
the id of a stored post, a comment id is not the id of a stored comment and is not
the root marker (a UUID string never is).  Only a handle that was handed out can
be called.  `GetPost` and `GetPosts` change nothing and need no rule. -/
inductive ReachableWith : InMemoryStorage → List (String × Nat) → Prop where
  | init : ReachableWith New []
  | newPost {s : InMemoryStorage} {handles : List (String × Nat)}
      (text : String) (commentsEnabled : Bool) (newID now : String) :
      ReachableWith s handles → s.postsCommentsEnable newID = none →
      ReachableWith (NewPost s text commentsEnabled newID now).2 handles
  | addComment {s : InMemoryStorage} {handles : List (String × Nat)}
      (postID : String) (parentID : Option String) (text newID now : String) :
      ReachableWith s handles → newID ≠ rootKey → s.commentsAvaliability newID = none →
      ReachableWith (AddComment s postID parentID text newID now).2 handles
  | setCommentsEnabled {s : InMemoryStorage} {handles : List (String × Nat)}
      (postID : String) (enabled : Bool) :
      ReachableWith s handles →
      ReachableWith (SetCommentsEnabled s postID enabled).2 handles
  | subscribe {s : InMemoryStorage} {handles : List (String × Nat)} (postID : String) :
      ReachableWith s handles →
      ReachableWith (SubscribeToComments s postID).2
        (issued (SubscribeToComments s postID).1 handles)
  | cancel {s : InMemoryStorage} {handles : List (String × Nat)}
      (postID : String) (ch : Nat) :
      ReachableWith s handles → (postID, ch) ∈ handles →
      ReachableWith (rmSubscription s postID ch).2 handles
  | getCommentsTree {s s1 : InMemoryStorage} {handles : List (String × Nat)}
      (postID : String) (limit offset : Int) (fuel : Nat)
      (r : Outcome (List Comment)) :
      ReachableWith s handles → IsInt32 limit → IsInt32 offset →
      GetCommentsTree s postID limit offset fuel = some (r, s1) →
      ReachableWith s1 handles
  | receive {s : InMemoryStorage} {handles : List (String × Nat)} (ch : Nat) :
      ReachableWith s handles → ReachableWith (receive s ch) handles

/-- A state of the store reachable from `New`. -/
def Reachable (s : InMemoryStorage) : Prop := ∃ handles, ReachableWith s handles

/-! ## Invariants of the reachable states -/

/-- The stored fields of a comment, the transient `replies` apart. -/
def Comment.skeleton (c : Comment) : String × String × Option String × String × String :=
  (c.id, c.postID, c.parentID, c.text, c.createdAt)

/-- Capacity and closed flag of a channel: what a send or a receive leaves alone. -/
def Chan.frame (c : Chan) : Nat × Bool := (c.cap, c.closed)

/-- The post list and the comments-enabled map agree, and post ids are unique. -/
structure PostsInv (s : InMemoryStorage) : Prop where
  flag : ∀ p ∈ s.posts, s.postsCommentsEnable p.id = some p.commentsEnabled
  known : ∀ id b, s.postsCommentsEnable id = some b → ∃ p ∈ s.posts, p.id = id
  nodup : (s.posts.map (fun p => p.id)).Nodup

/-- The existence set holds exactly the ids of the stored comments, and the parent
of a stored comment is a comment that was stored before it. -/
structure CommentsInv (s : InMemoryStorage) : Prop where
  avail : ∀ id, s.commentsAvaliability id ≠ none ↔ ∃ c ∈ s.heap, c.id = id
  parent : ∀ (a : Nat) (c : Comment) (pid : String), s.heap[a]? = some c →
    c.parentID = some pid → ∃ (b : Nat) (c0 : Comment), b < a ∧ s.heap[b]? = some c0 ∧ c0.id = pid

/-- Every subscribed channel exists and is open, occurs once, and is subscribed to
the post its cancellation handle was made for; handles refer to existing channels. -/
structure ChanInv (s : InMemoryStorage) (handles : List (String × Nat)) : Prop where
  isOpen : ∀ p subs ch, s.subscribers p = some subs → ch ∈ subs →
    ∃ c, s.chans[ch]? = some c ∧ c.closed = false
  nodup : ∀ p subs, s.subscribers p = some subs → subs.Nodup
  owner : ∀ p subs ch q, s.subscribers p = some subs → ch ∈ subs → (q, ch) ∈ handles → q = p
  bound : ∀ q ch, (q, ch) ∈ handles → ch < s.chans.length


/-- The bucket `(postID, key)` of the comment index; a missing entry is the empty
slice. -/
def bucket (s : InMemoryStorage) (postID key : String) : List Nat :=
  match s.commentsByPostAndParent postID with
  | none => []
  | some postComments => (postComments key).getD []

/-- The key `AddComment` files a comment under: the root marker or the parent id. -/
def Comment.parentKey (c : Comment) : String := c.parentID.getD rootKey

/-- The addresses of the comments of post `postID` with parent key `key`, in
creation order. -/
def filed (heap : List Comment) (postID key : String) : List Nat :=
  (List.range heap.length).filter (fun a =>
    match heap[a]? with
    | some c => c.postID == postID && c.parentKey == key
    | none => false)

/-- The stored top-level comments of a post (no parent), in creation order. -/
def topLevel (s : InMemoryStorage) (postID : String) : List Nat :=
  (List.range s.heap.length).filter (fun a =>
    match s.heap[a]? with
    | some c => c.postID == postID && c.parentID == none
    | none => false)

/-- The stored comments of post `postID` whose parent is the comment `id`, in
creation order. -/
def repliesTo (s : InMemoryStorage) (postID id : String) : List Nat :=
  (List.range s.heap.length).filter (fun a =>
    match s.heap[a]? with
    | some c => c.postID == postID && c.parentID == some id
    | none => false)

/-- The comment index mirrors the heap: ids are unique and never the root marker,
every bucket lists exactly the comments filed under it in creation order, and a
stored comment without replies in the index has an empty `replies`. -/
structure TreeInv (s : InMemoryStorage) : Prop where
  uniq : ∀ (a b : Nat) (ca cb : Comment), s.heap[a]? = some ca → s.heap[b]? = some cb →
    ca.id = cb.id → a = b
  notRoot : ∀ c ∈ s.heap, c.id ≠ rootKey
  buckets : ∀ p k, bucket s p k = filed s.heap p k
  clean : ∀ (a : Nat) (c : Comment), s.heap[a]? = some c → bucket s c.postID c.id = [] →
    c.replies = []

/-- The lookup map `postSearch` points at the post objects of the list, by id. -/
structure SearchInv (s : InMemoryStorage) : Prop where
  found : ∀ (i : Nat) (p : Post), s.posts[i]? = some p → s.postSearch p.id = some i
  valid : ∀ (id : String) (i : Nat), s.postSearch id = some i →
    ∃ p, s.posts[i]? = some p ∧ p.id = id

/-- Every queue has capacity 1 and holds at most one comment, and every subscribed
channel has its cancellation handle among the handles handed out. -/
structure QueueInv (s : InMemoryStorage) (handles : List (String × Nat)) : Prop where
  cap : ∀ (ch : Nat) (c : Chan), s.chans[ch]? = some c → c.cap = 1 ∧ c.buf.length ≤ 1
  handle : ∀ p subs ch, s.subscribers p = some subs → ch ∈ subs → (p, ch) ∈ handles

/-- The effect of one non-blocking send of `comment` on an open channel: queued when
the buffer has room, dropped otherwise. -/
def trySend (comment : Nat) (c : Chan) : Chan :=
  if c.buf.length < c.cap then { c with buf := c.buf ++ [comment] } else c

/-- The address of the parent of the comment at address `a`: the first stored comment
whose id is its `parentID`; `none` for a top-level comment. -/
def parentAddr (s : InMemoryStorage) (a : Nat) : Option Nat :=
  match s.heap[a]? with
  | none => none
  | some c =>
    match c.parentID with
    | none => none
    | some pid => s.heap.findIdx? (fun c0 => c0.id == pid)

/-- The address reached from `a` by following the parent link `n` times. -/
def climb (s : InMemoryStorage) : Nat → Nat → Option Nat
  | 0, a => some a
  | n + 1, a =>
    match parentAddr s a with
    | none => none
    | some b => climb s n b

/-- Every comment held in a queue belongs to the post the queue's cancellation
handle was made for. -/
def BufInv (s : InMemoryStorage) (handles : List (String × Nat)) : Prop :=
  ∀ (q : String) (ch : Nat), (q, ch) ∈ handles → ∀ c, s.chans[ch]? = some c →
    ∀ a ∈ c.buf, ∃ cm, s.heap[a]? = some cm ∧ cm.postID = q

/-! ## The forest of a post, level by level -/

/-- The stored replies, within post `postID`, to the comment at address `a`, in
creation order. -/
def kids (s : InMemoryStorage) (postID : String) (a : Nat) : List Nat :=
  match s.heap[a]? with
  | none => []
  | some c => repliesTo s postID c.id

/-- The comments of post `postID` at depth `k` of its forest: the top-level comments
at depth 0, the replies to the comments of depth `k` at depth `k + 1`. -/
def level (s : InMemoryStorage) (postID : String) : Nat → List Nat
  | 0 => topLevel s postID
  | k + 1 => (level s postID k).flatMap (kids s postID)

/-- The comments of the forest of post `postID`, depth by depth. -/
def forestNodes (s : InMemoryStorage) (postID : String) : List Nat :=
  (List.range s.heap.length).flatMap (level s postID)

/-- The reply pointers of the object at address `a`. -/
def repliesAt (heap : List Comment) (a : Nat) : List Nat :=
  match heap[a]? with
  | none => []
  | some c => c.replies

/-- The addresses a caller reaches from the addresses `l` by following `replies`
pointers `k` times. -/
def depthNodes (heap : List Comment) : Nat → List Nat → List Nat
  | 0, l => l
  | k + 1, l => depthNodes heap k (l.flatMap (repliesAt heap))

/-- A comment of post `postID` that is top-level or a reply to such a comment of the
post, directly or through a chain of replies within the post. -/
inductive Anchored (s : InMemoryStorage) (postID : String) : Nat → Prop where
  | top {a : Nat} {c : Comment} : s.heap[a]? = some c → c.postID = postID →
      c.parentID = none → Anchored s postID a
  | reply {a b : Nat} {c cb : Comment} : Anchored s postID b → s.heap[b]? = some cb →
      s.heap[a]? = some c → c.postID = postID → c.parentID = some cb.id →
      Anchored s postID a

/-! ## The walk of `attachChildren` -/

/-- The reply list the index prescribes for an object: the bucket under its id. -/
def indexed (postComments : GoMap (List Nat)) (c : Comment) : List Nat :=
  (postComments c.id).getD []

/-- The object at address `b`, if any, carries the reply list the index prescribes. -/
def GoodAt (postComments : GoMap (List Nat)) (heap : List Comment) (b : Nat) : Prop :=
  ∀ c, heap[b]? = some c → c.replies = indexed postComments c

/-- Every object of `h1` is the object of `h` at the same address or carries the
reply list the index prescribes. -/
def SameOrGood (postComments : GoMap (List Nat)) (h h1 : List Comment) : Prop :=
  ∀ (b : Nat) (c1 : Comment), h1[b]? = some c1 → h[b]? = some c1 ∨ c1.replies = indexed postComments c1

/-- Address `b` is `a` or lies below `a` in the index, ids read through `ids`. -/
inductive Below (postComments : GoMap (List Nat)) (ids : Nat → Option String) :
    Nat → Nat → Prop where
  | here (a : Nat) : Below postComments ids a a
  | step {a x b : Nat} {i : String} : ids a = some i → x ∈ (postComments i).getD [] →
      Below postComments ids x b → Below postComments ids a b

/-- What the walk over the index of post `postID` relies on in a heap: the indexed
addresses hold comments of the post with the ids `ids` gives, the rank drops from an
object to the addresses indexed under its id, and an object of the post that has no
entry in the index has no replies. -/
structure Walk (postComments : GoMap (List Nat)) (postID : String)
    (ids : Nat → Option String) (rank : Nat → Nat) (heap : List Comment) : Prop where
  agree : ∀ (k : String) (x : Nat), x ∈ (postComments k).getD [] →
    ∃ cx, heap[x]? = some cx ∧ ids x = some cx.id ∧ cx.postID = postID
  drops : ∀ (b : Nat) (cb : Comment), heap[b]? = some cb →
    ∀ x ∈ (postComments cb.id).getD [], rank x < rank b
  clean : ∀ (b : Nat) (c : Comment), heap[b]? = some c → c.postID = postID →
    postComments c.id = none → c.replies = []

/-- The nodes of a returned forest: the root objects and every object reached from
one of them through `replies`. -/
inductive InForest (heap : List Comment) (roots : List Comment) : Comment → Prop where
  | root {c : Comment} : c ∈ roots → InForest heap roots c
  | reply {c child : Comment} {a : Nat} : InForest heap roots c → a ∈ c.replies →
      heap[a]? = some child → InForest heap roots child

/-- What the tree assembly of the durable store relies on in the rows of one post:
they belong to the post, no row names a later row as its parent, and no row names
itself. -/
structure RowsInv (postID : String) (rows : List Row) : Prop where
  post : ∀ r ∈ rows, r.postID = postID
  order : rows.Pairwise (fun earlier later => earlier.parentID ≠ some later.id)
  self : ∀ r ∈ rows, r.parentID ≠ some r.id

/-! ## Example states -/

/-- A store with one post that does not accept comments. -/
def closedPostState : InMemoryStorage :=
  (NewPost New "Post without comments" false "p1" "t0").2

/-- A store with two posts open for comments and one top-level comment on the first. -/
def twoPostsState : InMemoryStorage :=
  (AddComment
    (NewPost (NewPost New "first" true "p1" "t0").2 "second" true "p2" "t1").2
    "p1" none "on the first post" "c1" "t2").2

/-- A store with one post and one subscriber to it. -/
def subscribedState : InMemoryStorage :=
  (SubscribeToComments (NewPost New "post" true "p1" "t0").2 "p1").2

/-- A store with one post and two top-level comments. -/
def twoRootsState : InMemoryStorage :=
  (AddComment (AddComment (NewPost New "post" true "p1" "t0").2
    "p1" none "first" "c1" "t1").2 "p1" none "second" "c2" "t2").2

/-- A store with one post and a chain of three comments: `c1` top-level, `c2` a
reply to `c1`, `c3` a reply to `c2`. -/
def chainState : InMemoryStorage :=
  (AddComment (AddComment (AddComment (NewPost New "post" true "p1" "t0").2
    "p1" none "top" "c1" "t1").2 "p1" (some "c1") "reply" "c2" "t2").2
    "p1" (some "c2") "reply to the reply" "c3" "t3").2

/-- The store of the round-trip scenario: top-level comments `A`, `B` and replies
`R1`, `R2` to `A`, created in the order A, B, R1, R2. -/
def threadState : InMemoryStorage :=
  (AddComment (AddComment (AddComment (AddComment (NewPost New "Test post" true "p1" "t0").2
    "p1" none "Comment 1" "A" "t1").2 "p1" none "Comment 2" "B" "t2").2
    "p1" (some "A") "Reply 1" "R1" "t3").2 "p1" (some "A") "Reply 2" "R2" "t4").2

/-- The store of `twoPostsState` after a reply on post `p2` to the comment `c1` of
post `p1`. -/
def crossPostState : InMemoryStorage :=
  (AddComment twoPostsState "p2" (some "c1") "reply" "c2" "t3").2

/-- The store of `twoPostsState` after a subscription to post `p2` and then a reply on
post `p2` to the comment `c1` of post `p1`: the subscriber's queue holds the reply. -/
def crossNotifiedState : InMemoryStorage :=
  (AddComment (SubscribeToComments twoPostsState "p2").2 "p2" (some "c1") "reply" "c2" "t3").2

namespace Postgres

/-- Tables with no post. -/
def noPostDB : DB := { posts := [], comments := [] }

/-- Tables with the post `p1`, closed for comments. -/
def closedPostDB : DB :=
  { posts := [⟨"p1", "Post without comments", false, "t0"⟩], comments := [] }

/-- Tables with the post `p1`, open for comments. -/
def openPostDB : DB := { posts := [⟨"p1", "post", true, "t0"⟩], comments := [] }

/-- A subscription to `p1` started 5.3 s after the epoch, and a comment on `p1` added
0.4 s later, in the same second. -/
def sameSecondFeed : Feed :=
  { db := (AddComment openPostDB "p1" none "hello" "c1" 5700000000).2
    lastCheck := 5300000000
    pushed := [] }

/-- Tables with two comments on `p1`, created in the seconds 6 and 7. -/
def twoCommentsDB : DB :=
  (AddComment (AddComment openPostDB "p1" none "one" "c1" 6200000000).2
    "p1" none "two" "c2" 7100000000).2

end Postgres

/-- A store with two posts, two subscribers to `p1` (channels 0 and 1) and one
subscriber to `p2` (channel 2). -/
def threeSubscribersState : InMemoryStorage :=
  (SubscribeToComments (SubscribeToComments (SubscribeToComments
    (NewPost (NewPost New "first" true "p1" "t0").2 "second" true "p2" "t1").2
    "p1").2 "p1").2 "p2").2

/-! # Theorems -/

/-! ## Maps and lists -/

@[simp] theorem goMap_empty_apply {α : Type} (k : String) : (GoMap.empty : GoMap α) k = none := rfl

@[simp] theorem goMap_insert_same {α : Type} (m : GoMap α) (k : String) (v : α) :
    m.insert k v k = some v := by
  simp [GoMap.insert]

theorem goMap_insert_other {α : Type} (m : GoMap α) {k k' : String} (v : α) (h : k' ≠ k) :
    m.insert k v k' = m k' := by
  simp [GoMap.insert, h]

theorem goMap_insert_apply {α : Type} (m : GoMap α) (k k' : String) (v : α) :
    m.insert k v k' = if k' = k then some v else m k' := rfl

/-- A property kept by every step of a fallible left fold is kept by the fold. -/
theorem foldlM_option_keeps {α β : Type} (f : β → α → Option β) (P : β → Prop)
    (hf : ∀ b a b', P b → f b a = some b' → P b') :
    ∀ (l : List α) (b b' : β), P b → l.foldlM f b = some b' → P b' := by
  intro l
  induction l with
  | nil =>
    intro b b' hb h
    simp [List.foldlM] at h
    subst h; exact hb
  | cons a l ih =>
    intro b b' hb h
    rw [List.foldlM_cons] at h
    cases hfa : f b a with
    | none => rw [hfa] at h; simp at h
    | some b1 =>
      rw [hfa] at h
      exact ih b1 b' (hf b a b1 hb hfa) h

/-! ## What the operations leave alone -/

theorem map_skeleton_set (heap : List Comment) (a : Nat) (c c1 : Comment)
    (ha : heap[a]? = some c) (hc : c1.skeleton = c.skeleton) :
    (heap.set a c1).map Comment.skeleton = heap.map Comment.skeleton := by
  apply List.ext_getElem?
  intro i
  rw [List.getElem?_map, List.getElem?_map, List.getElem?_set]
  by_cases hia : a = i
  · subst hia
    have hlt : a < heap.length := by
      rcases List.getElem?_eq_some.1 ha with ⟨h, _⟩; exact h
    simp [hlt, ha, hc]
  · simp [hia]

theorem attachChildren_skeleton (postComments : GoMap (List Nat)) :
    ∀ (fuel : Nat) (heap : List Comment) (a : Nat) (h1 : List Comment),
      attachChildren postComments fuel heap a = some h1 →
      h1.map Comment.skeleton = heap.map Comment.skeleton := by
  intro fuel
  induction fuel with
  | zero => intro heap a h1 h; simp [attachChildren] at h
  | succ n ih =>
    intro heap a h1 h
    unfold attachChildren at h
    cases hc : heap[a]? with
    | none => simp [hc] at h
    | some c =>
      simp only [hc] at h
      cases hp : postComments c.id with
      | none => simp [hp] at h; subst h; rfl
      | some children =>
        simp only [hp] at h
        refine foldlM_option_keeps _
          (fun h => h.map Comment.skeleton = heap.map Comment.skeleton) ?_ children _ h1 ?_ h
        · intro b x b' hb hx
          rw [ih b x b' hx]; exact hb
        · exact map_skeleton_set heap a c _ hc rfl

theorem copyRoots_skeleton (postComments : GoMap (List Nat)) (fuel : Nat) :
    ∀ (roots : List Nat) (heap : List Comment) (result h2 : List Comment),
      copyRoots postComments fuel roots heap = some (result, h2) →
      h2.map Comment.skeleton = heap.map Comment.skeleton := by
  intro roots
  induction roots with
  | nil => intro heap result h2 h; simp [copyRoots] at h; rw [h.2]
  | cons root rest ih =>
    intro heap result h2 h
    unfold copyRoots at h
    cases hr : heap[root]? with
    | none => simp [hr] at h
    | some r =>
      simp only [hr] at h
      split at h
      · simp at h
      · rename_i h1 hat
        split at h
        · simp at h
        · rename_i copy hcopy
          split at h
          · simp at h
          · rename_i res h3 hrec
            simp at h
            rw [← h.2, ih _ _ _ hrec, List.map_take, attachChildren_skeleton _ _ _ _ _ hat]
            simp


theorem skeleton_getElem? {h h0 : List Comment}
    (hs : h.map Comment.skeleton = h0.map Comment.skeleton) {a : Nat} {c : Comment}
    (hc : h[a]? = some c) : ∃ c0, h0[a]? = some c0 ∧ c0.skeleton = c.skeleton := by
  have h1 : (h.map Comment.skeleton)[a]? = some c.skeleton := by
    rw [List.getElem?_map, hc]; rfl
  rw [hs, List.getElem?_map] at h1
  cases h0a : h0[a]? with
  | none => rw [h0a] at h1; simp at h1
  | some c0 =>
    rw [h0a] at h1
    simp at h1
    exact ⟨c0, rfl, h1⟩

theorem skeleton_length {h h0 : List Comment}
    (hs : h.map Comment.skeleton = h0.map Comment.skeleton) : h.length = h0.length := by
  have := congrArg List.length hs
  simpa using this

theorem GetCommentsTree_state {s s1 : InMemoryStorage} {postID : String} {limit offset : Int}
    {fuel : Nat} {r : Outcome (List Comment)}
    (h : GetCommentsTree s postID limit offset fuel = some (r, s1)) :
    ∃ heap1, s1 = { s with heap := heap1 } ∧
      heap1.map Comment.skeleton = s.heap.map Comment.skeleton := by
  unfold GetCommentsTree at h
  split at h
  · simp at h; exact ⟨s.heap, h.2.symm, rfl⟩
  · split at h
    · simp at h; exact ⟨s.heap, h.2.symm, rfl⟩
    · rename_i pc hpc
      simp only at h
      split at h
      · simp at h; exact ⟨s.heap, h.2.symm, rfl⟩
      · split at h <;>
        · split at h
          · split at h
            · simp at h
            · rename_i res heap1 hcr
              simp at h
              exact ⟨heap1, h.2.symm, copyRoots_skeleton _ _ _ _ _ _ hcr⟩
          · simp at h; exact ⟨s.heap, h.2.symm, rfl⟩

theorem map_frame_set (cs : List Chan) (a : Nat) (c c1 : Chan)
    (ha : cs[a]? = some c) (hc : c1.frame = c.frame) :
    (cs.set a c1).map Chan.frame = cs.map Chan.frame := by
  apply List.ext_getElem?
  intro i
  rw [List.getElem?_map, List.getElem?_map, List.getElem?_set]
  by_cases hia : a = i
  · subst hia
    have hlt : a < cs.length := by
      rcases List.getElem?_eq_some.1 ha with ⟨h, _⟩; exact h
    simp [hlt, ha, hc]
  · simp [hia]

theorem frame_getElem? {cs cs0 : List Chan}
    (hs : cs.map Chan.frame = cs0.map Chan.frame) {a : Nat} {c : Chan}
    (hc : cs[a]? = some c) : ∃ c0, cs0[a]? = some c0 ∧ c0.frame = c.frame := by
  have h1 : (cs.map Chan.frame)[a]? = some c.frame := by
    rw [List.getElem?_map, hc]; rfl
  rw [hs, List.getElem?_map] at h1
  cases h0a : cs0[a]? with
  | none => rw [h0a] at h1; simp at h1
  | some c0 =>
    rw [h0a] at h1
    simp at h1
    exact ⟨c0, rfl, h1⟩

theorem notify_frame (comment : Nat) :
    ∀ (subs : List Nat) (cs : List Chan),
      (notify comment subs cs).2.map Chan.frame = cs.map Chan.frame := by
  intro subs
  induction subs with
  | nil => intro cs; rfl
  | cons ch rest ih =>
    intro cs
    unfold notify
    cases hc : cs[ch]? with
    | none => rfl
    | some c =>
      simp only
      split
      · rfl
      · split
        · rw [ih]; exact map_frame_set cs ch c _ hc rfl
        · exact ih cs

/-- The loop `notify` completes when every channel of the list exists and is open. -/
theorem notify_completes (comment : Nat) :
    ∀ (subs : List Nat) (cs : List Chan),
      (∀ ch ∈ subs, ∃ c, cs[ch]? = some c ∧ c.closed = false) →
      (notify comment subs cs).1 = true := by
  intro subs
  induction subs with
  | nil => intro cs _; rfl
  | cons ch rest ih =>
    intro cs hopen
    unfold notify
    obtain ⟨c, hc, hcl⟩ := hopen ch (List.mem_cons_self _ _)
    simp only [hc, hcl]
    have hrest : ∀ cs1 : List Chan, cs1.map Chan.frame = cs.map Chan.frame →
        ∀ x ∈ rest, ∃ c, cs1[x]? = some c ∧ c.closed = false := by
      intro cs1 hfr x hx
      obtain ⟨c0, hc0, hcl0⟩ := hopen x (List.mem_cons_of_mem _ hx)
      obtain ⟨c1, hc1, hfr1⟩ := frame_getElem? hfr.symm hc0
      refine ⟨c1, hc1, ?_⟩
      have := congrArg Prod.snd hfr1
      simp [Chan.frame] at this
      rw [this, hcl0]
    split
    · rename_i hft; exact absurd hft (by simp)
    · split
      · exact ih _ (hrest _ (map_frame_set cs ch c _ hc (by simp [Chan.frame, hcl])))
      · exact ih _ (hrest _ rfl)

theorem storeComment_state (s : InMemoryStorage) (postID : String) (parentID : Option String)
    (parentKey text newID now : String) :
    ∃ cs, cs.map Chan.frame = s.chans.map Chan.frame ∧
      (storeComment s postID parentID parentKey text newID now).2 =
        { s with
          heap := s.heap ++ [{ id := newID, postID := postID, parentID := parentID,
                               text := text, createdAt := now, replies := [] }]
          commentsByPostAndParent := s.commentsByPostAndParent.insert postID
            (GoMap.insert ((s.commentsByPostAndParent postID).getD GoMap.empty) parentKey
              (((s.commentsByPostAndParent postID).getD GoMap.empty parentKey).getD []
                ++ [s.heap.length]))
          commentsAvaliability := s.commentsAvaliability.insert newID true
          chans := cs } := by
  have hinner : (match s.commentsByPostAndParent postID with
      | none => (GoMap.empty : GoMap (List Nat))
      | some m => m) = (s.commentsByPostAndParent postID).getD GoMap.empty := by
    cases s.commentsByPostAndParent postID <;> rfl
  unfold storeComment
  simp only [hinner]
  split
  · exact ⟨s.chans, rfl, rfl⟩
  · rename_i subs hsubs
    have hfr := notify_frame s.heap.length subs s.chans
    split
    · rename_i cs hn
      rw [hn] at hfr
      exact ⟨cs, hfr, rfl⟩
    · rename_i cs hn
      rw [hn] at hfr
      exact ⟨cs, hfr, rfl⟩

/-- The three ways `AddComment` ends: a failure with the state untouched, or the
second half run with the checked parent key. -/
theorem AddComment_cases (s : InMemoryStorage) (postID : String) (parentID : Option String)
    (text newID now : String) :
    (∃ e, AddComment s postID parentID text newID now = (Outcome.fail e, s)) ∨
    (∃ parentKey, s.postsCommentsEnable postID = some true ∧
      (parentID = none ∧ parentKey = rootKey ∨
        parentID = some parentKey ∧ s.commentsAvaliability parentKey ≠ none) ∧
      AddComment s postID parentID text newID now =
        storeComment s postID parentID parentKey text newID now) := by
  unfold AddComment
  cases hp : s.postsCommentsEnable postID with
  | none => exact Or.inl ⟨_, rfl⟩
  | some b =>
    cases b with
    | false => exact Or.inl ⟨_, rfl⟩
    | true =>
      cases parentID with
      | none => exact Or.inr ⟨rootKey, rfl, Or.inl ⟨rfl, rfl⟩, rfl⟩
      | some pid =>
        cases ha : s.commentsAvaliability pid with
        | none => simp only [ha]; exact Or.inl ⟨_, rfl⟩
        | some v =>
          refine Or.inr ⟨pid, rfl, Or.inr ⟨rfl, by rw [ha]; simp⟩, ?_⟩
          simp only [ha]
          rfl



theorem postsInv_of_eq {s s1 : InMemoryStorage} (h : PostsInv s)
    (hp : s1.posts = s.posts) (he : s1.postsCommentsEnable = s.postsCommentsEnable) :
    PostsInv s1 := by
  constructor
  · rw [hp, he]; exact h.flag
  · rw [hp, he]; exact h.known
  · rw [hp]; exact h.nodup

theorem commentsInv_of_eq {s s1 : InMemoryStorage} (h : CommentsInv s)
    (hh : s1.heap.map Comment.skeleton = s.heap.map Comment.skeleton)
    (ha : s1.commentsAvaliability = s.commentsAvaliability) : CommentsInv s1 := by
  constructor
  · intro id
    rw [ha, h.avail id]
    constructor
    · rintro ⟨c, hc, hid⟩
      obtain ⟨a, hca1⟩ := List.getElem?_of_mem hc
      obtain ⟨c1, hc1, hsk⟩ := skeleton_getElem? hh.symm hca1
      refine ⟨c1, List.getElem?_mem hc1, ?_⟩
      have := congrArg Prod.fst hsk
      simp only [Comment.skeleton] at this
      rw [this, hid]
    · rintro ⟨c, hc, hid⟩
      obtain ⟨a, hca1⟩ := List.getElem?_of_mem hc
      obtain ⟨c1, hc1, hsk⟩ := skeleton_getElem? hh hca1
      refine ⟨c1, List.getElem?_mem hc1, ?_⟩
      have := congrArg Prod.fst hsk
      simp only [Comment.skeleton] at this
      rw [this, hid]
  · intro a c pid hc hpar
    obtain ⟨c0, hc0, hsk⟩ := skeleton_getElem? hh hc
    have hpar0 : c0.parentID = some pid := by
      have := congrArg (fun x => x.2.2.1) hsk
      simp only [Comment.skeleton] at this
      rw [this, hpar]
    obtain ⟨b, cb, hlt, hcb, hid⟩ := h.parent a c0 pid hc0 hpar0
    obtain ⟨cb1, hcb1, hsk1⟩ := skeleton_getElem? hh.symm hcb
    refine ⟨b, cb1, hlt, hcb1, ?_⟩
    have := congrArg Prod.fst hsk1
    simp only [Comment.skeleton] at this
    rw [this, hid]

theorem chanInv_of_eq {s s1 : InMemoryStorage} {handles : List (String × Nat)}
    (h : ChanInv s handles) (hs : s1.subscribers = s.subscribers)
    (hc : s1.chans.map Chan.frame = s.chans.map Chan.frame) : ChanInv s1 handles := by
  constructor
  · intro p subs ch hp hch
    rw [hs] at hp
    obtain ⟨c, hc0, hcl⟩ := h.isOpen p subs ch hp hch
    obtain ⟨c1, hc1, hfr⟩ := frame_getElem? hc.symm hc0
    refine ⟨c1, hc1, ?_⟩
    have := congrArg Prod.snd hfr
    simp only [Chan.frame] at this
    rw [this, hcl]
  · rw [hs]; exact h.nodup
  · rw [hs]; exact h.owner
  · intro q ch hq
    have hlen : s1.chans.length = s.chans.length := by
      have := congrArg List.length hc
      simpa using this
    rw [hlen]; exact h.bound q ch hq

theorem postsInv_init : PostsInv New := by
  constructor
  · intro p hp; simp [New] at hp
  · intro id b h; simp [New] at h
  · simp [New]

theorem commentsInv_init : CommentsInv New := by
  constructor
  · intro id; simp [New]
  · intro a c pid hc; simp [New] at hc

theorem chanInv_init : ChanInv New [] := by
  constructor
  · intro p subs ch hp; simp [New] at hp
  · intro p subs hp; simp [New] at hp
  · intro p subs ch q hp; simp [New] at hp
  · intro q ch h; simp at h

theorem postsInv_newPost {s : InMemoryStorage} (h : PostsInv s) (text : String)
    (commentsEnabled : Bool) (newID now : String) (hfresh : s.postsCommentsEnable newID = none) :
    PostsInv (NewPost s text commentsEnabled newID now).2 := by
  have hne : ∀ p ∈ s.posts, p.id ≠ newID := by
    intro p hp heq
    have := h.flag p hp
    rw [heq, hfresh] at this
    simp at this
  constructor
  · intro p hp
    simp only [NewPost, List.mem_append, List.mem_singleton] at hp ⊢
    rcases hp with hp | hp
    · rw [goMap_insert_other _ _ (hne p hp)]; exact h.flag p hp
    · subst hp; simp
  · intro id b hb
    simp only [NewPost] at hb ⊢
    by_cases hid : id = newID
    · exact ⟨{ id := newID, text := text, commentsEnabled := commentsEnabled,
                createdAt := now }, by simp, hid.symm⟩
    · rw [goMap_insert_other _ _ hid] at hb
      obtain ⟨p, hp, hpid⟩ := h.known id b hb
      exact ⟨p, by simp [hp], hpid⟩
  · simp only [NewPost, List.map_append, List.map_cons, List.map_nil]
    rw [List.nodup_append]
    refine ⟨h.nodup, by simp, ?_⟩
    intro x hx hx1
    simp only [List.mem_singleton] at hx1
    subst hx1
    obtain ⟨p, hp, hpid⟩ := List.mem_map.1 hx
    exact hne p hp hpid

theorem map_id_set (posts : List Post) (i : Nat) (p p1 : Post)
    (hi : posts[i]? = some p) (hid : p1.id = p.id) :
    (posts.set i p1).map (fun p => p.id) = posts.map (fun p => p.id) := by
  apply List.ext_getElem?
  intro j
  rw [List.getElem?_map, List.getElem?_map, List.getElem?_set]
  by_cases hij : i = j
  · subst hij
    have hlt : i < posts.length := by
      rcases List.getElem?_eq_some.1 hi with ⟨h, _⟩; exact h
    simp [hlt, hi, hid]
  · simp [hij]

theorem postsInv_setCommentsEnabled {s : InMemoryStorage} (h : PostsInv s) (postID : String)
    (enabled : Bool) : PostsInv (SetCommentsEnabled s postID enabled).2 := by
  unfold SetCommentsEnabled
  cases hf : s.posts.findIdx? (fun post => post.id == postID) with
  | none => exact h
  | some i =>
    simp only
    cases hi : s.posts[i]? with
    | none => exact h
    | some post =>
      simp only
      have hpid : post.id = postID := by
        have := List.findIdx?_of_eq_some hf
        rw [hi] at this
        simpa using this
      have hlt : i < s.posts.length := by
        rcases List.getElem?_eq_some.1 hi with ⟨h, _⟩; exact h
      have hids := map_id_set s.posts i post { post with commentsEnabled := enabled } hi rfl
      constructor
      · intro p hp
        simp only at hp ⊢
        obtain ⟨j, hj, hpj⟩ := List.getElem_of_mem hp
        rw [List.length_set] at hj
        rw [List.getElem_set] at hpj
        by_cases hij : i = j
        · rw [if_pos hij] at hpj
          subst hpj
          simp [hpid]
        · rw [if_neg hij] at hpj
          have hpm : p ∈ s.posts := by rw [← hpj]; exact List.getElem_mem _
          have hne : p.id ≠ postID := by
            intro heq
            have hnd := h.nodup
            rw [List.nodup_iff_injective_get] at hnd
            have hi1 : i < (s.posts.map (fun p => p.id)).length := by simpa using hlt
            have hj1 : j < (s.posts.map (fun p => p.id)).length := by simpa using hj
            have := @hnd ⟨i, hi1⟩ ⟨j, hj1⟩ (by
              simp only [List.get_eq_getElem, List.getElem_map]
              rw [hpj, heq]
              have : s.posts[i] = post := by
                have := List.getElem?_eq_getElem hlt
                rw [hi] at this
                exact (Option.some.inj this).symm
              rw [this, hpid])
            exact hij (Fin.mk.inj this)
          rw [goMap_insert_other _ _ hne]
          exact h.flag p hpm
      · intro id b hb
        simp only at hb ⊢
        have hmem : ∀ q ∈ s.posts, ∃ p ∈ s.posts.set i { post with commentsEnabled := enabled },
            p.id = q.id := by
          intro q hq
          have hq1 : q.id ∈ s.posts.map (fun p => p.id) := List.mem_map.2 ⟨q, hq, rfl⟩
          rw [← hids] at hq1
          obtain ⟨p, hp, hpq⟩ := List.mem_map.1 hq1
          exact ⟨p, hp, hpq⟩
        by_cases hid : id = postID
        · obtain ⟨p, hp, hpq⟩ := hmem post (List.getElem?_mem hi)
          exact ⟨p, hp, by rw [hpq, hpid, hid]⟩
        · rw [goMap_insert_other _ _ hid] at hb
          obtain ⟨q, hq, hqid⟩ := h.known id b hb
          obtain ⟨p, hp, hpq⟩ := hmem q hq
          exact ⟨p, hp, by rw [hpq, hqid]⟩
      · simp only
        rw [hids]; exact h.nodup


theorem AddComment_frame (s : InMemoryStorage) (postID : String) (parentID : Option String)
    (text newID now : String) :
    (AddComment s postID parentID text newID now).2.posts = s.posts ∧
    (AddComment s postID parentID text newID now).2.postsCommentsEnable
      = s.postsCommentsEnable ∧
    (AddComment s postID parentID text newID now).2.postSearch = s.postSearch ∧
    (AddComment s postID parentID text newID now).2.subscribers = s.subscribers ∧
    (AddComment s postID parentID text newID now).2.chans.map Chan.frame
      = s.chans.map Chan.frame := by
  rcases AddComment_cases s postID parentID text newID now with ⟨e, he⟩ | ⟨k, _, _, hk⟩
  · rw [he]; exact ⟨rfl, rfl, rfl, rfl, rfl⟩
  · obtain ⟨cs, hcs, hst⟩ := storeComment_state s postID parentID k text newID now
    rw [hk, hst]
    exact ⟨rfl, rfl, rfl, rfl, hcs⟩

theorem commentsInv_addComment {s : InMemoryStorage} (h : CommentsInv s) (postID : String)
    (parentID : Option String) (text newID now : String) :
    CommentsInv (AddComment s postID parentID text newID now).2 := by
  rcases AddComment_cases s postID parentID text newID now with ⟨e, he⟩ | ⟨k, _, hpar, hk⟩
  · rw [he]; exact h
  · obtain ⟨cs, _, hst⟩ := storeComment_state s postID parentID k text newID now
    rw [hk, hst]
    constructor
    · intro id
      simp only [List.mem_append, List.mem_singleton]
      by_cases hid : id = newID
      · subst hid
        simp only [goMap_insert_same, ne_eq, not_false_eq_true, true_iff, reduceCtorEq]
        exact ⟨_, Or.inr rfl, rfl⟩
      · rw [goMap_insert_other _ _ hid, h.avail id]
        constructor
        · rintro ⟨c, hc, hcid⟩; exact ⟨c, Or.inl hc, hcid⟩
        · rintro ⟨c, hc | hc, hcid⟩
          · exact ⟨c, hc, hcid⟩
          · subst hc; exact absurd hcid.symm hid
    · intro a c pid hc hcp
      simp only at hc
      by_cases ha : a < s.heap.length
      · rw [List.getElem?_append_left ha] at hc
        obtain ⟨b, c0, hb, hc0, hid⟩ := h.parent a c pid hc hcp
        refine ⟨b, c0, hb, ?_, hid⟩
        simp only
        rw [List.getElem?_append_left (Nat.lt_trans hb ha)]; exact hc0
      · have hlen : a = s.heap.length := by
          have := (List.getElem?_eq_some.1 hc).1
          simp at this
          omega
        subst hlen
        simp at hc
        subst hc
        simp only at hcp
        rcases hpar with ⟨hn, _⟩ | ⟨hs, hav⟩
        · rw [hn] at hcp; simp at hcp
        · rw [hs] at hcp
          have hkp : k = pid := Option.some.inj hcp
          subst hkp
          obtain ⟨c0, hc0, hid⟩ := (h.avail k).1 hav
          obtain ⟨b, hb⟩ := List.getElem?_of_mem hc0
          have hblt : b < s.heap.length := (List.getElem?_eq_some.1 hb).1
          refine ⟨b, c0, hblt, ?_, hid⟩
          simp only
          rw [List.getElem?_append_left hblt]; exact hb

theorem SubscribeToComments_frame (s : InMemoryStorage) (postID : String) :
    (SubscribeToComments s postID).2.posts = s.posts ∧
    (SubscribeToComments s postID).2.postsCommentsEnable = s.postsCommentsEnable ∧
    (SubscribeToComments s postID).2.postSearch = s.postSearch ∧
    (SubscribeToComments s postID).2.commentsAvaliability = s.commentsAvaliability ∧
    (SubscribeToComments s postID).2.commentsByPostAndParent = s.commentsByPostAndParent ∧
    (SubscribeToComments s postID).2.heap = s.heap := by
  unfold SubscribeToComments
  cases s.postsCommentsEnable postID <;> exact ⟨rfl, rfl, rfl, rfl, rfl, rfl⟩

theorem rmSubscription_frame (s : InMemoryStorage) (postID : String) (ch : Nat) :
    (rmSubscription s postID ch).2.posts = s.posts ∧
    (rmSubscription s postID ch).2.postsCommentsEnable = s.postsCommentsEnable ∧
    (rmSubscription s postID ch).2.postSearch = s.postSearch ∧
    (rmSubscription s postID ch).2.commentsAvaliability = s.commentsAvaliability ∧
    (rmSubscription s postID ch).2.commentsByPostAndParent = s.commentsByPostAndParent ∧
    (rmSubscription s postID ch).2.heap = s.heap := by
  unfold rmSubscription
  simp only
  split <;> split <;> (try split) <;> exact ⟨rfl, rfl, rfl, rfl, rfl, rfl⟩

theorem SetCommentsEnabled_frame (s : InMemoryStorage) (postID : String) (enabled : Bool) :
    (SetCommentsEnabled s postID enabled).2.postSearch = s.postSearch ∧
    (SetCommentsEnabled s postID enabled).2.commentsAvaliability = s.commentsAvaliability ∧
    (SetCommentsEnabled s postID enabled).2.commentsByPostAndParent
      = s.commentsByPostAndParent ∧
    (SetCommentsEnabled s postID enabled).2.subscribers = s.subscribers ∧
    (SetCommentsEnabled s postID enabled).2.heap = s.heap ∧
    (SetCommentsEnabled s postID enabled).2.chans = s.chans := by
  unfold SetCommentsEnabled
  split
  · exact ⟨rfl, rfl, rfl, rfl, rfl, rfl⟩
  · split <;> exact ⟨rfl, rfl, rfl, rfl, rfl, rfl⟩

theorem receive_frame (s : InMemoryStorage) (ch : Nat) :
    (receive s ch).posts = s.posts ∧
    (receive s ch).postsCommentsEnable = s.postsCommentsEnable ∧
    (receive s ch).postSearch = s.postSearch ∧
    (receive s ch).commentsAvaliability = s.commentsAvaliability ∧
    (receive s ch).commentsByPostAndParent = s.commentsByPostAndParent ∧
    (receive s ch).subscribers = s.subscribers ∧
    (receive s ch).heap = s.heap ∧
    (receive s ch).chans.map Chan.frame = s.chans.map Chan.frame := by
  unfold receive
  cases hc : s.chans[ch]? with
  | none => exact ⟨rfl, rfl, rfl, rfl, rfl, rfl, rfl, rfl⟩
  | some c => exact ⟨rfl, rfl, rfl, rfl, rfl, rfl, rfl, map_frame_set s.chans ch c _ hc rfl⟩

theorem chanInv_subscribe {s : InMemoryStorage} {handles : List (String × Nat)}
    (h : ChanInv s handles) (postID : String) :
    ChanInv (SubscribeToComments s postID).2
      (issued (SubscribeToComments s postID).1 handles) := by
  unfold SubscribeToComments
  cases hp : s.postsCommentsEnable postID with
  | none => exact h
  | some b =>
    simp only [issued]
    have hold : ∀ p subs ch, s.subscribers p = some subs → ch ∈ subs → ch < s.chans.length := by
      intro p subs ch hps hch
      obtain ⟨c, hc, _⟩ := h.isOpen p subs ch hps hch
      exact (List.getElem?_eq_some.1 hc).1
    have hsubs : ∀ p subs, (s.subscribers.insert postID
          ((s.subscribers postID).getD [] ++ [s.chans.length])) p = some subs →
        (p = postID ∧ subs = (s.subscribers postID).getD [] ++ [s.chans.length]) ∨
        (p ≠ postID ∧ s.subscribers p = some subs) := by
      intro p subs hps
      by_cases hpp : p = postID
      · subst hpp
        simp at hps
        exact Or.inl ⟨rfl, hps.symm⟩
      · rw [goMap_insert_other _ _ hpp] at hps
        exact Or.inr ⟨hpp, hps⟩
    have hgetD : ∀ ch ∈ (s.subscribers postID).getD [],
        ∃ subs, s.subscribers postID = some subs ∧ ch ∈ subs := by
      intro ch hch
      cases hsp : s.subscribers postID with
      | none => rw [hsp] at hch; simp at hch
      | some subs => rw [hsp] at hch; exact ⟨subs, rfl, hch⟩
    constructor
    · intro p subs ch hps hch
      simp only at hps ⊢
      rcases hsubs p subs hps with ⟨_, hsub⟩ | ⟨_, hsub⟩
      · subst hsub
        rcases List.mem_append.1 hch with hch | hch
        · obtain ⟨subs0, hs0, hch0⟩ := hgetD ch hch
          obtain ⟨c, hc, hcl⟩ := h.isOpen _ subs0 ch hs0 hch0
          refine ⟨c, ?_, hcl⟩
          rw [List.getElem?_append_left (List.getElem?_eq_some.1 hc).1]; exact hc
        · simp only [List.mem_singleton] at hch
          subst hch
          exact ⟨{ cap := 1, buf := [], closed := false }, by simp, rfl⟩
      · obtain ⟨c, hc, hcl⟩ := h.isOpen p subs ch hsub hch
        refine ⟨c, ?_, hcl⟩
        rw [List.getElem?_append_left (List.getElem?_eq_some.1 hc).1]; exact hc
    · intro p subs hps
      simp only at hps
      rcases hsubs p subs hps with ⟨_, hsub⟩ | ⟨_, hsub⟩
      · subst hsub
        rw [List.nodup_append]
        refine ⟨?_, by simp, ?_⟩
        · cases hsp : s.subscribers postID with
          | none => simp
          | some subs0 => exact h.nodup _ subs0 hsp
        · intro x hx hx1
          simp only [List.mem_singleton] at hx1
          subst hx1
          obtain ⟨subs0, hs0, hch0⟩ := hgetD _ hx
          exact Nat.lt_irrefl _ (hold _ subs0 _ hs0 hch0)
      · exact h.nodup p subs hsub
    · intro p subs ch q hps hch hq
      simp only at hps
      simp only [List.mem_cons] at hq
      rcases hsubs p subs hps with ⟨hpp, hsub⟩ | ⟨hpp, hsub⟩
      · subst hsub
        rcases hq with hq | hq
        · rw [hpp]; exact (Prod.mk.inj hq).1
        · rcases List.mem_append.1 hch with hch | hch
          · obtain ⟨subs0, hs0, hch0⟩ := hgetD ch hch
            rw [hpp]; exact h.owner _ subs0 ch q hs0 hch0 hq
          · simp only [List.mem_singleton] at hch
            subst hch
            exact absurd (h.bound q _ hq) (Nat.lt_irrefl _)
      · rcases hq with hq | hq
        · have hch1 : ch = s.chans.length := (Prod.mk.inj hq).2
          subst hch1
          exact absurd (hold p subs _ hsub hch) (Nat.lt_irrefl _)
        · exact h.owner p subs ch q hsub hch hq
    · intro q ch hq
      simp only [List.mem_cons] at hq
      simp only [List.length_append, List.length_singleton]
      rcases hq with hq | hq
      · have := (Prod.mk.inj hq).2
        omega
      · have := h.bound q ch hq
        omega


/-- The subscriber lists after `rmSubscription`: the list of the post without the
first occurrence of the channel, every other list as before. -/
theorem rmSubscription_subscribers (s : InMemoryStorage) (postID : String) (ch : Nat) :
    (rmSubscription s postID ch).2.subscribers =
      if ch ∈ (s.subscribers postID).getD [] then
        s.subscribers.insert postID (((s.subscribers postID).getD []).erase ch)
      else s.subscribers := by
  unfold rmSubscription
  simp only
  by_cases hmem : ch ∈ (s.subscribers postID).getD []
  · simp only [if_pos hmem]
    split
    · rfl
    · split <;> rfl
  · simp only [if_neg hmem]
    split
    · rfl
    · split <;> rfl

/-- The channels after `rmSubscription`: at most the channel of the handle changes. -/
theorem rmSubscription_chans (s : InMemoryStorage) (postID : String) (ch : Nat) :
    ∀ i, i ≠ ch → (rmSubscription s postID ch).2.chans[i]? = s.chans[i]? := by
  intro i hi
  unfold rmSubscription
  simp only
  by_cases hmem : ch ∈ (s.subscribers postID).getD []
  · simp only [if_pos hmem]
    split
    · rfl
    · split
      · rfl
      · simp only
        rw [List.getElem?_set_ne (Ne.symm hi)]
  · simp only [if_neg hmem]
    split
    · rfl
    · split
      · rfl
      · simp only
        rw [List.getElem?_set_ne (Ne.symm hi)]

theorem rmSubscription_length (s : InMemoryStorage) (postID : String) (ch : Nat) :
    (rmSubscription s postID ch).2.chans.length = s.chans.length := by
  unfold rmSubscription
  simp only
  by_cases hmem : ch ∈ (s.subscribers postID).getD []
  · simp only [if_pos hmem]
    split
    · rfl
    · split
      · rfl
      · simp
  · simp only [if_neg hmem]
    split
    · rfl
    · split
      · rfl
      · simp

theorem chanInv_cancel {s : InMemoryStorage} {handles : List (String × Nat)}
    (h : ChanInv s handles) (postID : String) (ch : Nat) (hh : (postID, ch) ∈ handles) :
    ChanInv (rmSubscription s postID ch).2 handles := by
  have hsubs : ∀ p subs, (rmSubscription s postID ch).2.subscribers p = some subs →
      ∃ subs0, s.subscribers p = some subs0 ∧ subs.Nodup ∧ (∀ x ∈ subs, x ∈ subs0) ∧
        ch ∉ subs := by
    intro p subs hps
    rw [rmSubscription_subscribers] at hps
    have hother : ∀ subs0, p ≠ postID → s.subscribers p = some subs0 → ch ∉ subs0 := by
      intro subs0 hne hs0 hmem
      exact hne (h.owner p subs0 ch postID hs0 hmem hh).symm
    by_cases hmem : ch ∈ (s.subscribers postID).getD []
    · rw [if_pos hmem] at hps
      by_cases hpp : p = postID
      · subst hpp
        simp only [goMap_insert_same, Option.some.injEq] at hps
        cases hsp : s.subscribers p with
        | none => rw [hsp] at hmem; simp at hmem
        | some subs0 =>
          rw [hsp] at hps
          simp only [Option.getD_some] at hps
          have hnd := h.nodup p subs0 hsp
          subst hps
          refine ⟨subs0, rfl, hnd.erase ch, ?_, ?_⟩
          · intro x hx; exact List.mem_of_mem_erase hx
          · intro hx
            exact ((List.Nodup.mem_erase_iff hnd).1 hx).1 rfl
      · rw [goMap_insert_other _ _ hpp] at hps
        exact ⟨subs, hps, h.nodup p subs hps, fun x hx => hx, hother subs hpp hps⟩
    · rw [if_neg hmem] at hps
      refine ⟨subs, hps, h.nodup p subs hps, fun x hx => hx, ?_⟩
      by_cases hpp : p = postID
      · subst hpp
        rw [hps] at hmem
        exact hmem
      · exact hother subs hpp hps
  constructor
  · intro p subs x hps hx
    obtain ⟨subs0, hs0, _, hsub, hnot⟩ := hsubs p subs hps
    have hne : x ≠ ch := by
      intro heq; subst heq; exact hnot hx
    rw [rmSubscription_chans s postID ch x hne]
    exact h.isOpen p subs0 x hs0 (hsub x hx)
  · intro p subs hps
    exact (hsubs p subs hps).choose_spec.2.1
  · intro p subs x q hps hx hq
    obtain ⟨subs0, hs0, _, hsub, _⟩ := hsubs p subs hps
    exact h.owner p subs0 x q hs0 (hsub x hx) hq
  · intro q x hq
    rw [rmSubscription_length]
    exact h.bound q x hq

/-- The invariants hold in every state reachable from `New`. -/
theorem reachable_invariants {s : InMemoryStorage} {handles : List (String × Nat)}
    (h : ReachableWith s handles) : PostsInv s ∧ CommentsInv s ∧ ChanInv s handles := by
  induction h with
  | init => exact ⟨postsInv_init, commentsInv_init, chanInv_init⟩
  | newPost text commentsEnabled newID now _ hfresh ih =>
    exact ⟨postsInv_newPost ih.1 text commentsEnabled newID now hfresh,
      commentsInv_of_eq ih.2.1 rfl rfl, chanInv_of_eq ih.2.2 rfl rfl⟩
  | @addComment s0 _ postID parentID text newID now _ _ _ ih =>
    have hf := AddComment_frame s0 postID parentID text newID now
    exact ⟨postsInv_of_eq ih.1 hf.1 hf.2.1,
      commentsInv_addComment ih.2.1 postID parentID text newID now,
      chanInv_of_eq ih.2.2 hf.2.2.2.1 hf.2.2.2.2⟩
  | @setCommentsEnabled s0 _ postID enabled _ ih =>
    have hf := SetCommentsEnabled_frame s0 postID enabled
    exact ⟨postsInv_setCommentsEnabled ih.1 postID enabled,
      commentsInv_of_eq ih.2.1 (by rw [hf.2.2.2.2.1]) hf.2.1,
      chanInv_of_eq ih.2.2 hf.2.2.2.1 (by rw [hf.2.2.2.2.2])⟩
  | @subscribe s0 _ postID _ ih =>
    have hf := SubscribeToComments_frame s0 postID
    exact ⟨postsInv_of_eq ih.1 hf.1 hf.2.1,
      commentsInv_of_eq ih.2.1 (by rw [hf.2.2.2.2.2]) hf.2.2.2.1,
      chanInv_subscribe ih.2.2 postID⟩
  | @cancel s0 _ postID ch _ hh ih =>
    have hf := rmSubscription_frame s0 postID ch
    exact ⟨postsInv_of_eq ih.1 hf.1 hf.2.1,
      commentsInv_of_eq ih.2.1 (by rw [hf.2.2.2.2.2]) hf.2.2.2.1,
      chanInv_cancel ih.2.2 postID ch hh⟩
  | getCommentsTree postID limit offset fuel r _ _ _ hg ih =>
    obtain ⟨heap1, hs1, hsk⟩ := GetCommentsTree_state hg
    subst hs1
    exact ⟨postsInv_of_eq ih.1 rfl rfl, commentsInv_of_eq ih.2.1 hsk rfl,
      chanInv_of_eq ih.2.2 rfl rfl⟩
  | @receive s0 _ ch _ ih =>
    have hf := receive_frame s0 ch
    exact ⟨postsInv_of_eq ih.1 hf.1 hf.2.1,
      commentsInv_of_eq ih.2.1 (by rw [hf.2.2.2.2.2.2.1]) hf.2.2.2.1,
      chanInv_of_eq ih.2.2 hf.2.2.2.2.2.1 hf.2.2.2.2.2.2.2⟩

/-! ## AddComment: failures and the parent check -/

theorem storeComment_ok {s : InMemoryStorage} {handles : List (String × Nat)}
    (h : ChanInv s handles) (postID : String) (parentID : Option String)
    (parentKey text newID now : String) :
    (storeComment s postID parentID parentKey text newID now).1 =
      Outcome.ok { id := newID, postID := postID, parentID := parentID, text := text,
                   createdAt := now, replies := [] } := by
  unfold storeComment
  simp only
  split
  · rfl
  · rename_i subs hsubs
    have hc := notify_completes s.heap.length subs s.chans
      (fun ch hch => h.isOpen postID subs ch hsubs hch)
    split
    · rfl
    · rename_i cs hn
      rw [hn] at hc
      simp at hc

theorem closedPostState_reachable : Reachable closedPostState :=
  ⟨[], ReachableWith.newPost "Post without comments" false "p1" "t0" ReachableWith.init rfl⟩

theorem twoPostsState_reachable : Reachable twoPostsState :=
  ⟨[], ReachableWith.addComment "p1" none "on the first post" "c1" "t2"
    (ReachableWith.newPost "second" true "p2" "t1"
      (ReachableWith.newPost "first" true "p1" "t0" ReachableWith.init rfl) rfl)
    (by decide) rfl⟩

/-- C1: in a reachable state, `AddComment` on a stored post whose `commentsEnabled`
is false fails with `CommentsDisabled` for every parent id and every text, and the
whole state (so the set of stored comments) is the one before the call. -/
theorem addComment_disabled {s : InMemoryStorage} (hs : Reachable s) {p : Post}
    (hp : p ∈ s.posts) (hd : p.commentsEnabled = false) (parentID : Option String)
    (text newID now : String) :
    AddComment s p.id parentID text newID now = (Outcome.fail Failure.commentsDisabled, s) := by
  obtain ⟨handles, hr⟩ := hs
  have hflag := (reachable_invariants hr).1.flag p hp
  rw [hd] at hflag
  unfold AddComment
  rw [hflag]
  rfl

theorem addComment_disabled_witness :
    Reachable closedPostState ∧
    (⟨"p1", "Post without comments", false, "t0"⟩ : Post) ∈ closedPostState.posts ∧
    AddComment closedPostState "p1" (some "nobody") "Test comment" "c1" "t1"
      = (Outcome.fail Failure.commentsDisabled, closedPostState) :=
  ⟨closedPostState_reachable, by decide,
    addComment_disabled closedPostState_reachable
      (p := ⟨"p1", "Post without comments", false, "t0"⟩) (by decide) rfl
      (some "nobody") "Test comment" "c1" "t1"⟩

/-- C2: in a reachable state `AddComment` succeeds exactly when the post is stored
with comments enabled and the parent id is absent or the id of a stored comment;
otherwise the failure is `NotFound` (post) when no post has the id, else
`CommentsDisabled` when the post has the flag false, else `NotFound` (parent) when
the parent id names no stored comment. -/
theorem addComment_outcome {s : InMemoryStorage} (hs : Reachable s) (postID : String)
    (parentID : Option String) (text newID now : String) :
    ((∃ c, (AddComment s postID parentID text newID now).1 = Outcome.ok c) ↔
      (∃ p ∈ s.posts, p.id = postID ∧ p.commentsEnabled = true) ∧
      (parentID = none ∨ ∃ pid, parentID = some pid ∧ ∃ c ∈ s.heap, c.id = pid)) ∧
    ((¬ ∃ p ∈ s.posts, p.id = postID) →
      (AddComment s postID parentID text newID now).1
        = Outcome.fail (Failure.postNotFound postID)) ∧
    ((∃ p ∈ s.posts, p.id = postID ∧ p.commentsEnabled = false) →
      (AddComment s postID parentID text newID now).1
        = Outcome.fail Failure.commentsDisabled) ∧
    (∀ pid, (∃ p ∈ s.posts, p.id = postID ∧ p.commentsEnabled = true) →
      parentID = some pid → (¬ ∃ c ∈ s.heap, c.id = pid) →
      (AddComment s postID parentID text newID now).1
        = Outcome.fail (Failure.parentNotFound pid)) := by
  obtain ⟨handles, hr⟩ := hs
  obtain ⟨hposts, hcomments, hchans⟩ := (reachable_invariants hr)
  -- the lookup in the comments-enabled map, read on the post list
  have hlook : ∀ b, s.postsCommentsEnable postID = some b ↔
      ∃ p ∈ s.posts, p.id = postID ∧ p.commentsEnabled = b := by
    intro b
    constructor
    · intro hb
      obtain ⟨p, hp, hid⟩ := hposts.known postID b hb
      have := hposts.flag p hp
      rw [hid, hb] at this
      exact ⟨p, hp, hid, (Option.some.inj this).symm⟩
    · rintro ⟨p, hp, hid, hb⟩
      rw [← hid, ← hb]; exact hposts.flag p hp
  have hnone : s.postsCommentsEnable postID = none ↔ ¬ ∃ p ∈ s.posts, p.id = postID := by
    constructor
    · rintro hn ⟨p, hp, hid⟩
      have := hposts.flag p hp
      rw [hid, hn] at this
      simp at this
    · intro hno
      cases hb : s.postsCommentsEnable postID with
      | none => rfl
      | some b =>
        obtain ⟨p, hp, hid⟩ := hposts.known postID b hb
        exact absurd ⟨p, hp, hid⟩ hno
  have hstore := fun k => storeComment_ok hchans postID parentID k text newID now
  unfold AddComment
  cases hb : s.postsCommentsEnable postID with
  | none =>
    have hno := hnone.1 hb
    refine ⟨⟨?_, ?_⟩, fun _ => rfl, ?_, ?_⟩
    · rintro ⟨c, hc⟩; simp at hc
    · rintro ⟨⟨p, hp, hid, _⟩, _⟩; exact absurd ⟨p, hp, hid⟩ hno
    · rintro ⟨p, hp, hid, _⟩; exact absurd ⟨p, hp, hid⟩ hno
    · rintro pid ⟨p, hp, hid, _⟩; exact absurd ⟨p, hp, hid⟩ hno
  | some b =>
    have hex := (hlook b).1 hb
    have hflagOf : ∀ b1, (∃ p ∈ s.posts, p.id = postID ∧ p.commentsEnabled = b1) → b1 = b := by
      intro b1 h1
      have := (hlook b1).2 h1
      rw [hb] at this
      exact (Option.some.inj this).symm
    have hyes : ¬ ¬ ∃ p ∈ s.posts, p.id = postID := by
      intro hno
      obtain ⟨p, hp, hid, _⟩ := hex
      exact hno ⟨p, hp, hid⟩
    cases b with
    | false =>
      refine ⟨⟨?_, ?_⟩, fun hno => absurd hno hyes, fun _ => rfl, ?_⟩
      · rintro ⟨c, hc⟩; simp at hc
      · rintro ⟨h1, _⟩; exact absurd (hflagOf true h1) (by simp)
      · intro pid h1; exact absurd (hflagOf true h1) (by simp)
    | true =>
      have hdis : ¬ ∃ p ∈ s.posts, p.id = postID ∧ p.commentsEnabled = false := by
        intro h1; exact absurd (hflagOf false h1) (by simp)
      cases parentID with
      | none =>
        simp only [Bool.not_true, Bool.false_eq_true, if_false]
        rw [hstore rootKey]
        refine ⟨⟨fun _ => ⟨hex, Or.inl (by trivial)⟩, fun _ => ⟨_, rfl⟩⟩,
          fun hno => absurd hno hyes, fun h1 => absurd h1 hdis, ?_⟩
        intro pid _ hpar; simp at hpar
      | some pid =>
        simp only [Bool.not_true, Bool.false_eq_true, if_false]
        cases ha : s.commentsAvaliability pid with
        | none =>
          have hnot : ¬ ∃ c ∈ s.heap, c.id = pid := by
            intro hc
            exact (hcomments.avail pid).2 hc ha
          refine ⟨⟨?_, ?_⟩, fun hno => absurd hno hyes, fun h1 => absurd h1 hdis, ?_⟩
          · rintro ⟨c, hc⟩; simp at hc
          · rintro ⟨_, h2⟩
            rcases h2 with h2 | ⟨pid1, h2, h3⟩
            · simp at h2
            · rw [← Option.some.inj h2] at h3; exact absurd h3 hnot
          · intro pid1 _ h2 _
            rw [Option.some.inj h2]
        | some v =>
          have hin : ∃ c ∈ s.heap, c.id = pid :=
            (hcomments.avail pid).1 (by rw [ha]; simp)
          simp only
          rw [hstore pid]
          refine ⟨⟨fun _ => ⟨hex, Or.inr ⟨pid, rfl, hin⟩⟩, fun _ => ⟨_, rfl⟩⟩,
            fun hno => absurd hno hyes, fun h1 => absurd h1 hdis, ?_⟩
          intro pid1 _ h2 h3
          rw [← Option.some.inj h2] at h3
          exact absurd hin h3

theorem addComment_outcome_witness :
    Reachable twoPostsState ∧
    (∃ c, (AddComment twoPostsState "p1" (some "c1") "reply" "c2" "t3").1 = Outcome.ok c) ∧
    (AddComment twoPostsState "p3" (some "c1") "reply" "c2" "t3").1
      = Outcome.fail (Failure.postNotFound "p3") ∧
    (AddComment twoPostsState "p1" (some "c9") "reply" "c2" "t3").1
      = Outcome.fail (Failure.parentNotFound "c9") :=
  ⟨twoPostsState_reachable,
    (addComment_outcome twoPostsState_reachable "p1" (some "c1") "reply" "c2" "t3").1.2
      ⟨⟨⟨"p1", "first", true, "t0"⟩, by decide, rfl, rfl⟩,
        Or.inr ⟨"c1", rfl, ⟨"c1", "p1", none, "on the first post", "t2", []⟩, by decide, rfl⟩⟩,
    (addComment_outcome twoPostsState_reachable "p3" (some "c1") "reply" "c2" "t3").2.1
      (by decide),
    (addComment_outcome twoPostsState_reachable "p1" (some "c9") "reply" "c2" "t3").2.2.2 "c9"
      ⟨⟨"p1", "first", true, "t0"⟩, by decide, rfl, rfl⟩ rfl (by decide)⟩

/-- C3, as the store behaves: in a reachable state the parent of every stored comment
that has one is a comment stored before it (of whichever post), and `AddComment` is
rejected, with the state untouched, whenever the parent id names no stored comment. -/
theorem parent_is_stored {s : InMemoryStorage} (hs : Reachable s) :
    (∀ (a : Nat) (c : Comment) (pid : String), s.heap[a]? = some c → c.parentID = some pid →
      ∃ (b : Nat) (c0 : Comment), b < a ∧ s.heap[b]? = some c0 ∧ c0.id = pid) ∧
    (∀ (postID pid text newID now : String), (¬ ∃ c ∈ s.heap, c.id = pid) →
      ∃ e, AddComment s postID (some pid) text newID now = (Outcome.fail e, s)) := by
  obtain ⟨handles, hr⟩ := hs
  obtain ⟨_, hcomments, _⟩ := (reachable_invariants hr)
  refine ⟨hcomments.parent, ?_⟩
  intro postID pid text newID now hno
  rcases AddComment_cases s postID (some pid) text newID now with he | ⟨k, _, hk, _⟩
  · exact he
  · rcases hk with ⟨h1, _⟩ | ⟨h1, h2⟩
    · simp at h1
    · rw [← Option.some.inj h1] at h2
      exact absurd ((hcomments.avail pid).1 h2) hno

theorem parent_is_stored_witness :
    Reachable twoPostsState ∧
    ∃ e, AddComment twoPostsState "p2" (some "c7") "reply" "c2" "t3"
      = (Outcome.fail e, twoPostsState) :=
  ⟨twoPostsState_reachable,
    (parent_is_stored twoPostsState_reachable).2 "p2" "c7" "reply" "c2" "t3" (by decide)⟩

/-- C3 fails as stated: the comment `c1` belongs to post `p1`, yet `AddComment` on post
`p2` with parent `c1` is accepted, and the reachable state it leaves holds a comment of
`p2` whose parent is a comment of `p1`. -/
theorem cross_post_parent_accepted :
    Reachable twoPostsState ∧
    twoPostsState.heap = [⟨"c1", "p1", none, "on the first post", "t2", []⟩] ∧
    (AddComment twoPostsState "p2" (some "c1") "reply" "c2" "t3").1
      = Outcome.ok ⟨"c2", "p2", some "c1", "reply", "t3", []⟩ ∧
    Reachable (AddComment twoPostsState "p2" (some "c1") "reply" "c2" "t3").2 ∧
    (AddComment twoPostsState "p2" (some "c1") "reply" "c2" "t3").2.heap
      = [⟨"c1", "p1", none, "on the first post", "t2", []⟩,
         ⟨"c2", "p2", some "c1", "reply", "t3", []⟩] := by
  refine ⟨twoPostsState_reachable, by decide, by decide, ?_, by decide⟩
  obtain ⟨handles, hr⟩ := twoPostsState_reachable
  exact ⟨handles, ReachableWith.addComment "p2" (some "c1") "reply" "c2" "t3" hr
    (by decide) (by decide)⟩

/-! ## GetPosts -/

theorem collectPosts_eq (posts : List Post) :
    ∀ (count i : Nat), i + count ≤ posts.length →
      collectPosts posts (posts.length : Int) count (i : Int)
        = some ((posts.reverse.drop i).take count) := by
  intro count
  induction count with
  | zero => intro i _; simp [collectPosts]
  | succ n ih =>
    intro i hi
    have hlt : i < posts.reverse.length := by simp; omega
    have hidx : indexPosts posts ((posts.length : Int) - 1 - (i : Int))
        = some posts.reverse[i] := by
      unfold indexPosts
      have h0 : (0 : Int) ≤ (posts.length : Int) - 1 - (i : Int) := by omega
      rw [if_pos h0]
      have hnat : ((posts.length : Int) - 1 - (i : Int)).toNat = posts.length - 1 - i := by
        omega
      rw [hnat, ← List.getElem?_reverse (by omega), List.getElem?_eq_getElem hlt]
    unfold collectPosts
    rw [hidx]
    simp only
    have hnext := ih (i + 1) (by omega)
    rw [Nat.cast_add, Nat.cast_one] at hnext
    rw [hnext]
    simp only
    rw [List.drop_eq_getElem_cons hlt, List.take_succ_cons]

/-- The value of `GetPosts` for non-negative `int32` arguments: the posts newest
first, `offset` of them dropped, at most `limit` kept. -/
theorem getPosts_eq (s : InMemoryStorage) (limit offset : Int) (hl : 0 ≤ limit)
    (hl32 : limit ≤ 2147483647) (ho : 0 ≤ offset) :
    GetPosts s limit offset
      = Outcome.ok ((s.posts.reverse.drop offset.toNat).take limit.toNat) := by
  obtain ⟨n, rfl⟩ := Int.eq_ofNat_of_zero_le hl
  obtain ⟨m, rfl⟩ := Int.eq_ofNat_of_zero_le ho
  simp only [Int.toNat_ofNat]
  unfold GetPosts
  simp only
  by_cases hge : (m : Int) ≥ (s.posts.length : Int)
  · rw [if_pos hge]
    have : s.posts.reverse.length ≤ m := by simp; omega
    rw [List.drop_of_length_le this]
    simp
  · rw [if_neg hge]
    have hm : m < s.posts.length := by omega
    by_cases hgt : (n : Int) > (s.posts.length : Int) - (m : Int)
    · rw [if_pos hgt]
      have hw : wrap32 ((s.posts.length : Int) - (m : Int))
          = ((s.posts.length - m : Nat) : Int) := by
        unfold wrap32; omega
      rw [hw]
      have hnn : ¬ (((s.posts.length - m : Nat) : Int) < 0) := by omega
      rw [if_neg hnn, Int.toNat_ofNat, collectPosts_eq s.posts (s.posts.length - m) m (by omega)]
      have hlen : (s.posts.reverse.drop m).length = s.posts.length - m := by simp
      rw [List.take_of_length_le (by omega), List.take_of_length_le (by omega)]
    · rw [if_neg hgt]
      have hnn : ¬ ((n : Int) < 0) := by omega
      rw [if_neg hnn, Int.toNat_ofNat, collectPosts_eq s.posts n m (by omega)]

/-- C6: for non-negative `int32` `limit` and `offset`, `GetPosts` returns without
error the posts newest first with `offset` dropped and at most `limit` kept; the
length is `min limit (n - offset)` when `offset < n`; the result is sorted by
descending `createdAt` when the posts were created in non-decreasing `createdAt`
order; with five posts, `GetPosts 3 0` is posts 5, 4, 3 and `GetPosts 3 3` is
posts 2, 1. -/
theorem getPosts_newest_first (s : InMemoryStorage) (limit offset : Int) (hl : 0 ≤ limit)
    (hl32 : limit ≤ 2147483647) (ho : 0 ≤ offset) :
    GetPosts s limit offset
      = Outcome.ok ((s.posts.reverse.drop offset.toNat).take limit.toNat) ∧
    (offset < (s.posts.length : Int) →
      ((((s.posts.reverse.drop offset.toNat).take limit.toNat).length : Nat) : Int)
        = min limit ((s.posts.length : Int) - offset)) ∧
    (s.posts.Pairwise (fun a b => a.createdAt ≤ b.createdAt) →
      ((s.posts.reverse.drop offset.toNat).take limit.toNat).Pairwise
        (fun a b => b.createdAt ≤ a.createdAt)) ∧
    (∀ p1 p2 p3 p4 p5 : Post, s.posts = [p1, p2, p3, p4, p5] →
      GetPosts s 3 0 = Outcome.ok [p5, p4, p3] ∧ GetPosts s 3 3 = Outcome.ok [p2, p1]) := by
  refine ⟨getPosts_eq s limit offset hl hl32 ho, ?_, ?_, ?_⟩
  · intro hlt
    simp only [List.length_take, List.length_drop, List.length_reverse]
    omega
  · intro hsorted
    have hrev : s.posts.reverse.Pairwise (fun a b => b.createdAt ≤ a.createdAt) :=
      List.pairwise_reverse.2 hsorted
    exact (hrev.sublist (List.drop_sublist _ _)).sublist (List.take_sublist _ _)
  · intro p1 p2 p3 p4 p5 h5
    rw [getPosts_eq s 3 0 (by decide) (by decide) (by decide),
      getPosts_eq s 3 3 (by decide) (by decide) (by decide), h5]
    exact ⟨rfl, rfl⟩

theorem getPosts_newest_first_witness :
    (0 : Int) ≤ 1 ∧ (1 : Int) ≤ 2147483647 ∧ (0 : Int) ≤ 1 ∧
    GetPosts twoPostsState 1 1 = Outcome.ok [⟨"p1", "first", true, "t0"⟩] :=
  ⟨by decide, by decide, by decide,
    (getPosts_newest_first twoPostsState 1 1 (by decide) (by decide) (by decide)).1⟩

/-- C7: consecutive pages of `GetPosts` neither overlap nor leave a gap: for
non-negative `a` and `b` whose sum fits in 32 bits, the page `GetPosts a 0` followed
by the page `GetPosts b a` is `GetPosts (a + b) 0`. -/
theorem getPosts_pages (s : InMemoryStorage) (a b : Int) (ha : 0 ≤ a) (hb : 0 ≤ b)
    (hab : a + b ≤ 2147483647) :
    ∃ first second, GetPosts s a 0 = Outcome.ok first ∧
      GetPosts s b a = Outcome.ok second ∧
      GetPosts s (a + b) 0 = Outcome.ok (first ++ second) := by
  refine ⟨_, _, getPosts_eq s a 0 ha (by omega) (by decide),
    getPosts_eq s b a hb (by omega) ha, ?_⟩
  rw [getPosts_eq s (a + b) 0 (by omega) hab (by decide)]
  congr 1
  simp only [Int.toNat_zero, List.drop_zero]
  rw [Int.toNat_add ha hb, List.take_add]

theorem getPosts_pages_witness :
    (0 : Int) ≤ 1 ∧ (0 : Int) ≤ 3 ∧ (1 : Int) + 3 ≤ 2147483647 ∧
    ∃ first second, GetPosts twoPostsState 1 0 = Outcome.ok first ∧
      GetPosts twoPostsState 3 1 = Outcome.ok second ∧
      GetPosts twoPostsState (1 + 3) 0 = Outcome.ok (first ++ second) :=
  ⟨by decide, by decide, by decide,
    getPosts_pages twoPostsState 1 3 (by decide) (by decide) (by decide)⟩

/-! ## The cancellation handle -/

theorem rmSubscription_closed (s : InMemoryStorage) (postID : String) (ch : Nat)
    (hlt : ch < s.chans.length) :
    ∃ c, (rmSubscription s postID ch).2.chans[ch]? = some c ∧ c.closed = true := by
  have hget : s.chans[ch]? = some s.chans[ch] := List.getElem?_eq_getElem hlt
  unfold rmSubscription
  simp only
  by_cases hmem : ch ∈ (s.subscribers postID).getD []
  · simp only [if_pos hmem, hget]
    by_cases hcl : s.chans[ch].closed = true
    · rw [if_pos hcl]; exact ⟨_, hget, hcl⟩
    · rw [if_neg hcl]
      exact ⟨{ s.chans[ch] with closed := true }, by simp [hlt], rfl⟩
  · simp only [if_neg hmem, hget]
    by_cases hcl : s.chans[ch].closed = true
    · rw [if_pos hcl]; exact ⟨_, hget, hcl⟩
    · rw [if_neg hcl]
      exact ⟨{ s.chans[ch] with closed := true }, by simp [hlt], rfl⟩

theorem subscribedState_reachable : ReachableWith subscribedState [("p1", 0)] :=
  ReachableWith.subscribe "p1"
    (ReachableWith.newPost "post" true "p1" "t0" ReachableWith.init rfl)

/-- C9, as the store behaves: the cancellation handle is single-use.  For every
handle issued in a reachable state, the call after the first one panics (close of a
closed channel) with the state, so the subscriber lists and every queue, left as
the first call left them; the handle of the durable store panics on its second call
as well. -/
theorem cancel_again_panics {s : InMemoryStorage} {handles : List (String × Nat)}
    (hr : ReachableWith s handles) (postID : String) (ch : Nat)
    (hh : (postID, ch) ∈ handles) :
    rmSubscription (rmSubscription s postID ch).2 postID ch
      = (Outcome.panic, (rmSubscription s postID ch).2) ∧
    ∀ done : Chan, unsubscribe (unsubscribe done).2 = (Outcome.panic, (unsubscribe done).2) := by
  constructor
  · have hinv := (reachable_invariants hr).2.2
    have hinv1 := chanInv_cancel hinv postID ch hh
    obtain ⟨c, hc, hcl⟩ := rmSubscription_closed s postID ch (hinv.bound postID ch hh)
    generalize (rmSubscription s postID ch).2 = s1 at hinv1 hc
    have hnot : ch ∉ (s1.subscribers postID).getD [] := by
      intro hmem
      cases hsp : s1.subscribers postID with
      | none => rw [hsp] at hmem; simp at hmem
      | some subs =>
        rw [hsp] at hmem
        obtain ⟨c1, hc1, hopen⟩ := hinv1.isOpen postID subs ch hsp hmem
        rw [hc] at hc1
        rw [← Option.some.inj hc1, hcl] at hopen
        simp at hopen
    unfold rmSubscription
    simp only [if_neg hnot, hc, hcl, if_true]
  · intro done
    unfold unsubscribe
    by_cases hcl : done.closed = true
    · simp [hcl]
    · simp [hcl]

theorem cancel_again_panics_witness :
    ReachableWith subscribedState [("p1", 0)] ∧ ("p1", 0) ∈ [(("p1" : String), (0 : Nat))] ∧
    rmSubscription (rmSubscription subscribedState "p1" 0).2 "p1" 0
      = (Outcome.panic, (rmSubscription subscribedState "p1" 0).2) :=
  ⟨subscribedState_reachable, by decide,
    (cancel_again_panics subscribedState_reachable "p1" 0 (by decide)).1⟩

/-- C9 fails as stated: after `SubscribeToComments` on a stored post the first call
of the handle succeeds and the second one panics, in the in-process store and in
the durable store alike. -/
theorem cancel_twice_counterexample :
    (SubscribeToComments (NewPost New "post" true "p1" "t0").2 "p1").1
      = Outcome.ok (0, ("p1", 0)) ∧
    (rmSubscription subscribedState "p1" 0).1 = Outcome.ok () ∧
    (rmSubscription (rmSubscription subscribedState "p1" 0).2 "p1" 0).1 = Outcome.panic ∧
    (unsubscribe ⟨0, [], false⟩).1 = Outcome.ok () ∧
    (unsubscribe (unsubscribe ⟨0, [], false⟩).2).1 = Outcome.panic := by
  decide

/-! ## GetCommentsTree at concrete inputs -/

theorem twoRootsState_reachable : Reachable twoRootsState :=
  ⟨[], ReachableWith.addComment "p1" none "second" "c2" "t2"
    (ReachableWith.addComment "p1" none "first" "c1" "t1"
      (ReachableWith.newPost "post" true "p1" "t0" ReachableWith.init rfl)
      (by decide) rfl)
    (by decide) (by decide)⟩

theorem chainState_reachable : Reachable chainState :=
  ⟨[], ReachableWith.addComment "p1" (some "c2") "reply to the reply" "c3" "t3"
    (ReachableWith.addComment "p1" (some "c1") "reply" "c2" "t2"
      (ReachableWith.addComment "p1" none "top" "c1" "t1"
        (ReachableWith.newPost "post" true "p1" "t0" ReachableWith.init rfl)
        (by decide) rfl)
      (by decide) (by decide))
    (by decide) (by decide)⟩

theorem threadState_reachable : Reachable threadState :=
  ⟨[], ReachableWith.addComment "p1" (some "A") "Reply 2" "R2" "t4"
    (ReachableWith.addComment "p1" (some "A") "Reply 1" "R1" "t3"
      (ReachableWith.addComment "p1" none "Comment 2" "B" "t2"
        (ReachableWith.addComment "p1" none "Comment 1" "A" "t1"
          (ReachableWith.newPost "Test post" true "p1" "t0" ReachableWith.init rfl)
          (by decide) rfl)
        (by decide) (by decide))
      (by decide) (by decide))
    (by decide) (by decide)⟩

/-- C5 at the failing input: a stored post with two top-level comments, `offset = 1`
and `limit = 2147483647`.  Both are non-negative `int32` values and `offset < 2`, yet
`offset + limit` wraps to a negative `end` and the slice expression panics, whatever
the recursion bound. -/
theorem getCommentsTree_limit_overflow :
    Reachable twoRootsState ∧ IsInt32 2147483647 ∧ IsInt32 1 ∧
    twoRootsState.commentsByPostAndParent "p1" >>= (fun pc => pc rootKey) = some [0, 1] ∧
    wrap32 (1 + 2147483647) = -2147483648 ∧
    ∀ fuel, GetCommentsTree twoRootsState "p1" 2147483647 1 fuel
      = some (Outcome.panic, twoRootsState) :=
  ⟨twoRootsState_reachable, by decide, by decide, by decide, by decide, fun _ => rfl⟩

/-- C10 at the failing input: on the chain `c1`, `c2`, `c3` the call
`GetCommentsTree "p1" 10 0` returns a copy of `c1` whose reply list holds the address
of the stored `c2`, and it writes the reply list `[c3]` into that stored object, whose
`replies` was empty before the call. -/
theorem getCommentsTree_writes_stored :
    Reachable chainState ∧
    chainState.heap[1]? = some ⟨"c2", "p1", some "c1", "reply", "t2", []⟩ ∧
    (GetCommentsTree chainState "p1" 10 0 3).map (fun r => (r.1, r.2.heap[1]?))
      = some (Outcome.ok [⟨"c1", "p1", none, "top", "t1", [1]⟩],
              some ⟨"c2", "p1", some "c1", "reply", "t2", [2]⟩) :=
  ⟨chainState_reachable, by decide, by decide⟩

/-- C4 at the failing input: in the round-trip scenario (top-level `A`, `B`, replies
`R1`, `R2` to `A`) the call with `limit = 10`, `offset = 0` returns the forest
`[A{replies:[R1,R2]}, B{replies:[]}]`, but the call with the non-negative arguments
`limit = 2147483647`, `offset = 1`, which should return `[B{replies:[]}]`, panics. -/
theorem getCommentsTree_thread :
    Reachable threadState ∧
    (match GetCommentsTree threadState "p1" 10 0 2 with
      | some (Outcome.ok roots, s1) => readForest s1.heap 3 roots
      | _ => none)
      = some [Tree.node "A" "p1" none "Comment 1" "t1"
                [Tree.node "R1" "p1" (some "A") "Reply 1" "t3" [],
                 Tree.node "R2" "p1" (some "A") "Reply 2" "t4" []],
              Tree.node "B" "p1" none "Comment 2" "t2" []] ∧
    ∀ fuel, GetCommentsTree threadState "p1" 2147483647 1 fuel
      = some (Outcome.panic, threadState) :=
  ⟨threadState_reachable, rfl, fun _ => rfl⟩

/-! ## The comment index mirrors the heap -/

/-- A property kept by every step of a fallible left fold over the elements of the
list is kept by the fold. -/
theorem foldlM_option_keeps_mem {α β : Type} (f : β → α → Option β) (P : β → Prop) :
    ∀ (l : List α), (∀ b a b', a ∈ l → P b → f b a = some b' → P b') →
      ∀ (b b' : β), P b → l.foldlM f b = some b' → P b' := by
  intro l
  induction l with
  | nil =>
    intro _ b b' hb h
    simp [List.foldlM] at h
    subst h; exact hb
  | cons a l ih =>
    intro hf b b' hb h
    rw [List.foldlM_cons] at h
    cases hfa : f b a with
    | none => rw [hfa] at h; simp at h
    | some b1 =>
      rw [hfa] at h
      exact ih (fun b2 x b3 hx => hf b2 x b3 (List.mem_cons_of_mem _ hx)) b1 b'
        (hf b a b1 (List.mem_cons_self _ _) hb hfa) h

theorem filed_skeleton {h h0 : List Comment}
    (hs : h.map Comment.skeleton = h0.map Comment.skeleton) (p k : String) :
    filed h p k = filed h0 p k := by
  unfold filed
  rw [skeleton_length hs]
  apply List.filter_congr
  intro a _
  cases ha : h[a]? with
  | none =>
    cases ha0 : h0[a]? with
    | none => rfl
    | some c0 =>
      obtain ⟨c, hc, _⟩ := skeleton_getElem? hs.symm ha0
      rw [ha] at hc; simp at hc
  | some c =>
    obtain ⟨c0, hc0, hsk⟩ := skeleton_getElem? hs ha
    rw [hc0]
    simp only [Comment.skeleton, Prod.mk.injEq] at hsk
    simp only [Comment.parentKey, hsk.2.1, hsk.2.2.1]

theorem filed_append (heap : List Comment) (c : Comment) (p k : String) :
    filed (heap ++ [c]) p k
      = filed heap p k ++ (if c.postID = p ∧ c.parentKey = k then [heap.length] else []) := by
  unfold filed
  rw [List.length_append, List.length_singleton, List.range_succ, List.filter_append]
  congr 1
  · apply List.filter_congr
    intro a ha
    rw [List.getElem?_append_left (List.mem_range.1 ha)]
  · simp only [List.filter_cons, List.filter_nil]
    rw [List.getElem?_append_right (Nat.le_refl _)]
    simp only [Nat.sub_self, List.getElem?_cons_zero, Bool.and_eq_true, beq_iff_eq]

theorem mem_filed {heap : List Comment} {p k : String} {a : Nat} :
    a ∈ filed heap p k ↔ ∃ c, heap[a]? = some c ∧ c.postID = p ∧ c.parentKey = k := by
  unfold filed
  rw [List.mem_filter, List.mem_range]
  constructor
  · rintro ⟨_, h⟩
    cases hc : heap[a]? with
    | none => rw [hc] at h; simp at h
    | some c =>
      rw [hc] at h
      simp only [Bool.and_eq_true, beq_iff_eq] at h
      exact ⟨c, rfl, h⟩
  · rintro ⟨c, hc, hp, hk⟩
    refine ⟨(List.getElem?_eq_some.1 hc).1, ?_⟩
    rw [hc]
    simp [hp, hk]

theorem bucket_storeComment (s : InMemoryStorage) (postID : String)
    (parentID : Option String) (parentKey text newID now : String) (p k : String) :
    bucket (storeComment s postID parentID parentKey text newID now).2 p k
      = bucket s p k ++ (if postID = p ∧ parentKey = k then [s.heap.length] else []) := by
  obtain ⟨cs, _, hst⟩ := storeComment_state s postID parentID parentKey text newID now
  rw [hst]
  unfold bucket
  simp only
  by_cases hp : p = postID
  · subst hp
    simp only [goMap_insert_same, true_and]
    by_cases hk : k = parentKey
    · subst hk
      simp only [goMap_insert_same, Option.getD_some, if_true]
      cases s.commentsByPostAndParent p <;> rfl
    · rw [goMap_insert_other _ _ hk, if_neg (Ne.symm hk), List.append_nil]
      cases s.commentsByPostAndParent p <;> rfl
  · rw [goMap_insert_other _ _ hp]
    have : ¬ (postID = p ∧ parentKey = k) := fun h => hp h.1.symm
    rw [if_neg this, List.append_nil]

theorem attachChildren_replies (postComments : GoMap (List Nat)) :
    ∀ (fuel : Nat) (heap : List Comment) (a : Nat) (h1 : List Comment),
      attachChildren postComments fuel heap a = some h1 →
      ∀ (b : Nat) (c1 : Comment), h1[b]? = some c1 →
        heap[b]? = some c1 ∨
        (postComments c1.id = some c1.replies ∧
          (b = a ∨ ∃ k l, postComments k = some l ∧ b ∈ l)) := by
  intro fuel
  induction fuel with
  | zero => intro heap a h1 h; simp [attachChildren] at h
  | succ n ih =>
    intro heap a h1 h
    unfold attachChildren at h
    cases hc : heap[a]? with
    | none => simp [hc] at h
    | some c =>
      simp only [hc] at h
      cases hp : postComments c.id with
      | none =>
        simp [hp] at h; subst h
        intro b c1 hb; exact Or.inl hb
      | some children =>
        simp only [hp] at h
        refine foldlM_option_keeps_mem _
          (fun h2 => ∀ (b : Nat) (c1 : Comment), h2[b]? = some c1 →
            heap[b]? = some c1 ∨
            (postComments c1.id = some c1.replies ∧
              (b = a ∨ ∃ k l, postComments k = some l ∧ b ∈ l))) children ?_ _ h1 ?_ h
        · intro h2 x h3 hx hP hstep b c1 hb
          rcases ih h2 x h3 hstep b c1 hb with hsame | ⟨hrep, hwhere⟩
          · exact hP b c1 hsame
          · refine Or.inr ⟨hrep, ?_⟩
            rcases hwhere with hbx | hex
            · exact Or.inr ⟨c.id, children, hp, by rw [hbx]; exact hx⟩
            · exact Or.inr hex
        · intro b c1 hb
          rw [List.getElem?_set] at hb
          by_cases hab : a = b
          · subst hab
            have hlt : a < heap.length := (List.getElem?_eq_some.1 hc).1
            simp only [hlt, if_true] at hb
            have hc1 := Option.some.inj hb
            subst hc1
            exact Or.inr ⟨hp, Or.inl rfl⟩
          · rw [if_neg hab] at hb
            exact Or.inl hb

theorem copyRoots_replies (postComments : GoMap (List Nat)) (fuel : Nat) :
    ∀ (roots : List Nat) (heap : List Comment) (result h2 : List Comment),
      copyRoots postComments fuel roots heap = some (result, h2) →
      ∀ (b : Nat) (c1 : Comment), h2[b]? = some c1 →
        heap[b]? = some c1 ∨
        (postComments c1.id = some c1.replies ∧ ∃ k l, postComments k = some l ∧ b ∈ l) := by
  intro roots
  induction roots with
  | nil =>
    intro heap result h2 h b c1 hb
    simp [copyRoots] at h
    rw [← h.2] at hb; exact Or.inl hb
  | cons root rest ih =>
    intro heap result h2 h b c1 hb
    unfold copyRoots at h
    cases hr : heap[root]? with
    | none => simp [hr] at h
    | some r =>
      simp only [hr] at h
      split at h
      · simp at h
      · rename_i h1 hat
        split at h
        · simp at h
        · rename_i copy hcopy
          split at h
          · simp at h
          · rename_i res h3 hrec
            simp at h
            rw [← h.2] at hb
            rcases ih _ _ _ hrec b c1 hb with hsame | hvis
            · rw [List.getElem?_take] at hsame
              split at hsame
              · rename_i hlt
                rcases attachChildren_replies _ _ _ _ _ hat b c1 hsame with hs | ⟨hrep, hw⟩
                · rw [List.getElem?_append_left hlt] at hs
                  exact Or.inl hs
                · rcases hw with hbl | hex
                  · omega
                  · exact Or.inr ⟨hrep, hex⟩
              · simp at hsame
            · exact Or.inr hvis

/-- What a call of `GetCommentsTree` that returns does to the state: nothing, or
the heap written by the result loop over the index of the post. -/
theorem GetCommentsTree_cases {s s1 : InMemoryStorage} {postID : String} {limit offset : Int}
    {fuel : Nat} {r : Outcome (List Comment)}
    (h : GetCommentsTree s postID limit offset fuel = some (r, s1)) :
    s1 = s ∨ ∃ postComments roots result heap1,
      s.commentsByPostAndParent postID = some postComments ∧
      copyRoots postComments fuel roots s.heap = some (result, heap1) ∧
      s1 = { s with heap := heap1 } ∧ r = Outcome.ok result := by
  unfold GetCommentsTree at h
  split at h
  · simp at h; exact Or.inl h.2.symm
  · split at h
    · simp at h; exact Or.inl h.2.symm
    · rename_i pc hpc
      simp only at h
      split at h
      · simp at h; exact Or.inl h.2.symm
      · split at h <;>
        · split at h
          · split at h
            · simp at h
            · rename_i res heap1 hcr
              simp at h
              exact Or.inr ⟨pc, _, res, heap1, hpc, hcr, h.2.symm, h.1.symm⟩
          · simp at h; exact Or.inl h.2.symm

theorem bucket_congr {s s1 : InMemoryStorage}
    (hb : s1.commentsByPostAndParent = s.commentsByPostAndParent) (p k : String) :
    bucket s1 p k = bucket s p k := by
  unfold bucket; rw [hb]

theorem treeInv_of_eq {s s1 : InMemoryStorage} (h : TreeInv s) (hh : s1.heap = s.heap)
    (hb : s1.commentsByPostAndParent = s.commentsByPostAndParent) : TreeInv s1 := by
  constructor
  · rw [hh]; exact h.uniq
  · rw [hh]; exact h.notRoot
  · intro p k; rw [hh, bucket_congr hb]; exact h.buckets p k
  · intro a c hc hbk
    rw [hh] at hc
    rw [bucket_congr hb] at hbk
    exact h.clean a c hc hbk

theorem treeInv_init : TreeInv New := by
  constructor
  · intro a b ca cb ha; simp [New] at ha
  · intro c hc; simp [New] at hc
  · intro p k; simp [bucket, filed, New]
  · intro a c hc; simp [New] at hc

theorem getElem?_append_singleton {α : Type} (l : List α) (x : α) (a : Nat) (c : α)
    (h : (l ++ [x])[a]? = some c) : l[a]? = some c ∨ (a = l.length ∧ c = x) := by
  by_cases ha : a < l.length
  · rw [List.getElem?_append_left ha] at h; exact Or.inl h
  · have hlen : a = l.length := by
      have := (List.getElem?_eq_some.1 h).1
      simp at this
      omega
    subst hlen
    simp at h
    exact Or.inr ⟨rfl, h.symm⟩

theorem treeInv_addComment {s : InMemoryStorage} (h : TreeInv s) (hc : CommentsInv s)
    (postID : String) (parentID : Option String) (text newID now : String)
    (hnr : newID ≠ rootKey) (hfresh : s.commentsAvaliability newID = none) :
    TreeInv (AddComment s postID parentID text newID now).2 := by
  rcases AddComment_cases s postID parentID text newID now with ⟨e, he⟩ | ⟨k, _, hpar, hk⟩
  · rw [he]; exact h
  · have hbk := bucket_storeComment s postID parentID k text newID now
    obtain ⟨cs, _, hst⟩ := storeComment_state s postID parentID k text newID now
    rw [hk]
    have hheap : (storeComment s postID parentID k text newID now).2.heap
        = s.heap ++ [{ id := newID, postID := postID, parentID := parentID, text := text,
                       createdAt := now, replies := [] }] := by
      rw [hst]
    have hnew : ∀ c ∈ s.heap, c.id ≠ newID := by
      intro c hcm hid
      exact (hc.avail newID).2 ⟨c, hcm, hid⟩ hfresh
    have hkey : Comment.parentKey
        { id := newID, postID := postID, parentID := parentID, text := text,
          createdAt := now, replies := [] } = k := by
      rcases hpar with ⟨h1, h2⟩ | ⟨h1, _⟩
      · simp [Comment.parentKey, h1, h2]
      · simp [Comment.parentKey, h1]
    have hget := fun (a : Nat) (c : Comment) => getElem?_append_singleton s.heap
      { id := newID, postID := postID, parentID := parentID, text := text,
        createdAt := now, replies := [] } a c
    constructor
    · intro a b ca cb ha hb hid
      rw [hheap] at ha hb
      rcases hget a ca ha with ha | ⟨ha, hca⟩ <;> rcases hget b cb hb with hb | ⟨hb, hcb⟩
      · exact h.uniq a b ca cb ha hb hid
      · subst hcb
        exact absurd hid (hnew ca (List.getElem?_mem ha))
      · subst hca
        exact absurd hid.symm (hnew cb (List.getElem?_mem hb))
      · rw [ha, hb]
    · intro c hcm
      rw [hheap, List.mem_append, List.mem_singleton] at hcm
      rcases hcm with hcm | hcm
      · exact h.notRoot c hcm
      · subst hcm; exact hnr
    · intro p q
      rw [hbk, hheap, filed_append, h.buckets p q, hkey]
    · intro a c hac hempty
      rw [hheap] at hac
      rw [hbk] at hempty
      rcases hget a c hac with hac | ⟨_, hcc⟩
      · exact h.clean a c hac (List.append_eq_nil.1 hempty).1
      · subst hcc; rfl

theorem treeInv_getCommentsTree {s s1 : InMemoryStorage} (h : TreeInv s) {postID : String}
    {limit offset : Int} {fuel : Nat} {r : Outcome (List Comment)}
    (hg : GetCommentsTree s postID limit offset fuel = some (r, s1)) : TreeInv s1 := by
  rcases GetCommentsTree_cases hg with hs | ⟨pc, roots, result, heap1, hpc, hcr, hs1, _⟩
  · rw [hs]; exact h
  · have hsk := copyRoots_skeleton _ _ _ _ _ _ hcr
    have hrep := copyRoots_replies _ _ _ _ _ _ hcr
    subst hs1
    have hid : ∀ (a : Nat) (c1 : Comment), heap1[a]? = some c1 →
        ∃ c, s.heap[a]? = some c ∧ c.id = c1.id ∧ c.postID = c1.postID := by
      intro a c1 hc1
      obtain ⟨c, hc, hskc⟩ := skeleton_getElem? hsk hc1
      simp only [Comment.skeleton, Prod.mk.injEq] at hskc
      exact ⟨c, hc, hskc.1, hskc.2.1⟩
    constructor
    · intro a b ca cb ha hb hab
      obtain ⟨ca0, ha0, hia, _⟩ := hid a ca ha
      obtain ⟨cb0, hb0, hib, _⟩ := hid b cb hb
      exact h.uniq a b ca0 cb0 ha0 hb0 (by rw [hia, hib, hab])
    · intro c hcm
      obtain ⟨a, ha⟩ := List.getElem?_of_mem hcm
      obtain ⟨c0, hc0, hi0, _⟩ := hid a c ha
      rw [← hi0]
      exact h.notRoot c0 (List.getElem?_mem hc0)
    · intro p k
      show bucket s p k = filed heap1 p k
      rw [filed_skeleton hsk, h.buckets p k]
    · intro a c1 hc1 hempty
      have hempty0 : bucket s c1.postID c1.id = [] := hempty
      rcases hrep a c1 hc1 with hsame | ⟨hpcrep, k, l, hkl, hal⟩
      · exact h.clean a c1 hsame hempty0
      · have hmem : a ∈ bucket s postID k := by
          simp only [bucket, hpc, hkl, Option.getD_some]; exact hal
        rw [h.buckets postID k] at hmem
        obtain ⟨c0, hc0, hp0, _⟩ := mem_filed.1 hmem
        obtain ⟨c0', hc0', _, hpp⟩ := hid a c1 hc1
        rw [hc0] at hc0'
        have hpost : c1.postID = postID := by
          rw [← hpp, ← Option.some.inj hc0', hp0]
        rw [hpost] at hempty0
        simp only [bucket, hpc, hpcrep, Option.getD_some] at hempty0
        exact hempty0

/-- The index invariant holds in every state reachable from `New`. -/
theorem reachable_treeInv {s : InMemoryStorage} {handles : List (String × Nat)}
    (h : ReachableWith s handles) : TreeInv s := by
  induction h with
  | init => exact treeInv_init
  | newPost text commentsEnabled newID now _ _ ih => exact treeInv_of_eq ih rfl rfl
  | @addComment s0 _ postID parentID text newID now hr hnr hfresh ih =>
    exact treeInv_addComment ih (reachable_invariants hr).2.1 postID parentID text newID now
      hnr hfresh
  | @setCommentsEnabled s0 _ postID enabled _ ih =>
    have hf := SetCommentsEnabled_frame s0 postID enabled
    exact treeInv_of_eq ih hf.2.2.2.2.1 hf.2.2.1
  | @subscribe s0 _ postID _ ih =>
    have hf := SubscribeToComments_frame s0 postID
    exact treeInv_of_eq ih hf.2.2.2.2.2 hf.2.2.2.2.1
  | @cancel s0 _ postID ch _ _ ih =>
    have hf := rmSubscription_frame s0 postID ch
    exact treeInv_of_eq ih hf.2.2.2.2.2 hf.2.2.2.2.1
  | getCommentsTree postID limit offset fuel r _ _ _ hg ih =>
    exact treeInv_getCommentsTree ih hg
  | @receive s0 _ ch _ ih =>
    have hf := receive_frame s0 ch
    exact treeInv_of_eq ih hf.2.2.2.2.2.2.1 hf.2.2.2.2.1

/-! ## The walk of `attachChildren` terminates and fills in the indexed replies -/

theorem sameOrGood_refl (pc : GoMap (List Nat)) (h : List Comment) : SameOrGood pc h h :=
  fun _ _ hb => Or.inl hb

theorem sameOrGood_trans {pc : GoMap (List Nat)} {h h1 h2 : List Comment}
    (h01 : SameOrGood pc h h1) (h12 : SameOrGood pc h1 h2) : SameOrGood pc h h2 := by
  intro b c2 hb
  rcases h12 b c2 hb with hs | hg
  · exact h01 b c2 hs
  · exact Or.inr hg

theorem goodAt_of_sameOrGood {pc : GoMap (List Nat)} {h h1 : List Comment} {b : Nat}
    (hg : GoodAt pc h b) (hs : SameOrGood pc h h1) : GoodAt pc h1 b := by
  intro c1 hc1
  rcases hs b c1 hc1 with hsame | hgood
  · exact hg c1 hsame
  · exact hgood

theorem walk_transport {pc : GoMap (List Nat)} {p : String} {ids : Nat → Option String}
    {rank : Nat → Nat} {h h1 : List Comment} (hw : Walk pc p ids rank h)
    (hsk : h1.map Comment.skeleton = h.map Comment.skeleton) (hs : SameOrGood pc h h1) :
    Walk pc p ids rank h1 := by
  constructor
  · intro k x hx
    obtain ⟨cx, hcx, hid, hp⟩ := hw.agree k x hx
    obtain ⟨c1, hc1, hsk1⟩ := skeleton_getElem? hsk.symm hcx
    simp only [Comment.skeleton, Prod.mk.injEq] at hsk1
    exact ⟨c1, hc1, by rw [hsk1.1]; exact hid, by rw [hsk1.2.1]; exact hp⟩
  · intro b cb hcb x hx
    obtain ⟨c0, hc0, hsk0⟩ := skeleton_getElem? hsk hcb
    simp only [Comment.skeleton, Prod.mk.injEq] at hsk0
    rw [← hsk0.1] at hx
    exact hw.drops b c0 hc0 x hx
  · intro b c hc hp hnone
    rcases hs b c hc with hsame | hgood
    · exact hw.clean b c hsame hp hnone
    · rw [hgood]; simp [indexed, hnone]

theorem below_of_children {pc : GoMap (List Nat)} {ids : Nat → Option String}
    {heap : List Comment} {x : Nat} {i : String} (hid : ids x = some i)
    (hx : GoodAt pc heap x)
    (hch : ∀ y ∈ (pc i).getD [], ∀ b, Below pc ids y b → GoodAt pc heap b) :
    ∀ b, Below pc ids x b → GoodAt pc heap b := by
  intro b hb
  cases hb with
  | here => exact hx
  | step hid1 hy hrest =>
    rw [hid] at hid1
    rw [← Option.some.inj hid1] at hy
    exact hch _ hy b hrest

/-- The loop over the children, given the walk from each object at depth `n`. -/
theorem attachChildren_loop (pc : GoMap (List Nat)) (p : String) (ids : Nat → Option String)
    (rank : Nat → Nat) (n : Nat)
    (hA : ∀ (h : List Comment) (a : Nat) (ca : Comment), Walk pc p ids rank h →
      h[a]? = some ca → ca.postID = p → rank a < n →
      ∃ h1, attachChildren pc n h a = some h1 ∧
        h1.map Comment.skeleton = h.map Comment.skeleton ∧ SameOrGood pc h h1 ∧
        GoodAt pc h1 a ∧
        ∀ x ∈ (pc ca.id).getD [], ∀ b, Below pc ids x b → GoodAt pc h1 b) :
    ∀ (l : List Nat) (k : String) (h2 : List Comment), Walk pc p ids rank h2 →
      (∀ x ∈ l, x ∈ (pc k).getD [] ∧ rank x < n) →
      ∃ h3, l.foldlM (fun h child => attachChildren pc n h child) h2 = some h3 ∧
        h3.map Comment.skeleton = h2.map Comment.skeleton ∧ SameOrGood pc h2 h3 ∧
        ∀ x ∈ l, ∀ b, Below pc ids x b → GoodAt pc h3 b := by
  intro l
  induction l with
  | nil =>
    intro k h2 _ _
    exact ⟨h2, rfl, rfl, sameOrGood_refl pc h2, by simp⟩
  | cons x l ih =>
    intro k h2 hw hl
    obtain ⟨hxk, hxr⟩ := hl x (List.mem_cons_self _ _)
    obtain ⟨cx, hcx, hidx, hpx⟩ := hw.agree k x hxk
    obtain ⟨h2a, hrun, hsk, hsg, hgx, hbelow⟩ := hA h2 x cx hw hcx hpx hxr
    have hw2 := walk_transport hw hsk hsg
    obtain ⟨h3, hrun3, hsk3, hsg3, hrest⟩ := ih k h2a hw2
      (fun y hy => hl y (List.mem_cons_of_mem _ hy))
    refine ⟨h3, ?_, hsk3.trans hsk, sameOrGood_trans hsg hsg3, ?_⟩
    · rw [List.foldlM_cons, hrun]; exact hrun3
    · intro y hy b hb
      rcases List.mem_cons.1 hy with hyx | hyl
      · subst hyx
        exact goodAt_of_sameOrGood (below_of_children hidx hgx hbelow b hb) hsg3
      · exact hrest y hyl b hb

/-- The walk from an object of the post: with more fuel than its rank
`attachChildren` returns, changes no stored field, and leaves the object and
everything below it in the index with the reply list the index prescribes. -/
theorem attachChildren_walk (pc : GoMap (List Nat)) (p : String) (ids : Nat → Option String)
    (rank : Nat → Nat) :
    ∀ (fuel : Nat) (h : List Comment) (a : Nat) (ca : Comment), Walk pc p ids rank h →
      h[a]? = some ca → ca.postID = p → rank a < fuel →
      ∃ h1, attachChildren pc fuel h a = some h1 ∧
        h1.map Comment.skeleton = h.map Comment.skeleton ∧ SameOrGood pc h h1 ∧
        GoodAt pc h1 a ∧
        ∀ x ∈ (pc ca.id).getD [], ∀ b, Below pc ids x b → GoodAt pc h1 b := by
  intro fuel
  induction fuel with
  | zero => intro h a ca _ _ _ hr; omega
  | succ n ih =>
    intro h a ca hw hca hp hr
    unfold attachChildren
    simp only [hca]
    cases hpc : pc ca.id with
    | none =>
      refine ⟨h, rfl, rfl, sameOrGood_refl pc h, ?_, by simp⟩
      intro c hc
      rw [hca] at hc
      rw [← Option.some.inj hc, hw.clean a ca hca hp hpc]
      simp [indexed, hpc]
    | some children =>
      simp only
      have hlt : a < h.length := (List.getElem?_eq_some.1 hca).1
      have hsk0 : (h.set a { ca with replies := children }).map Comment.skeleton
          = h.map Comment.skeleton := map_skeleton_set h a ca _ hca rfl
      have hsg0 : SameOrGood pc h (h.set a { ca with replies := children }) := by
        intro b c1 hb
        rw [List.getElem?_set] at hb
        by_cases hab : a = b
        · subst hab
          simp only [hlt, if_true] at hb
          rw [← Option.some.inj hb]
          exact Or.inr (by simp [indexed, hpc])
        · rw [if_neg hab] at hb; exact Or.inl hb
      have hg0 : GoodAt pc (h.set a { ca with replies := children }) a := by
        intro c1 hb
        rw [List.getElem?_set] at hb
        simp only [hlt, if_true] at hb
        rw [← Option.some.inj hb]
        simp [indexed, hpc]
      have hw0 := walk_transport hw hsk0 hsg0
      have hch : ∀ x ∈ children, x ∈ (pc ca.id).getD [] ∧ rank x < n := by
        intro x hx
        have hx1 : x ∈ (pc ca.id).getD [] := by rw [hpc]; exact hx
        exact ⟨hx1, by have := hw.drops a ca hca x hx1; omega⟩
      obtain ⟨h3, hrun, hsk3, hsg3, hrest⟩ :=
        attachChildren_loop pc p ids rank n ih children ca.id _ hw0 hch
      refine ⟨h3, hrun, hsk3.trans hsk0, sameOrGood_trans hsg0 hsg3,
        goodAt_of_sameOrGood hg0 hsg3, ?_⟩
      intro x hx b hb
      exact hrest x hx b hb

theorem filed_eq_repliesTo (s : InMemoryStorage) (p k : String) (hk : k ≠ rootKey) :
    filed s.heap p k = repliesTo s p k := by
  unfold filed repliesTo
  apply List.filter_congr
  intro a _
  cases s.heap[a]? with
  | none => rfl
  | some c =>
    simp only [Comment.parentKey]
    cases hpar : c.parentID with
    | none =>
      have h1 : (rootKey == k) = false := by simpa using Ne.symm hk
      simp [h1]
    | some x => simp

theorem filed_root_eq_topLevel (s : InMemoryStorage) (p : String)
    (hno : ∀ c ∈ s.heap, c.parentID ≠ some rootKey) :
    filed s.heap p rootKey = topLevel s p := by
  unfold filed topLevel
  apply List.filter_congr
  intro a _
  cases hc : s.heap[a]? with
  | none => rfl
  | some c =>
    simp only [Comment.parentKey]
    cases hpar : c.parentID with
    | none => simp
    | some x =>
      have hx : x ≠ rootKey := by
        intro hx
        exact hno c (List.getElem?_mem hc) (by rw [hpar, hx])
      simp [hx]

/-- In a reachable state no stored comment has the root marker as its parent id. -/
theorem parent_ne_rootKey {s : InMemoryStorage} (hc : CommentsInv s) (ht : TreeInv s) :
    ∀ c ∈ s.heap, c.parentID ≠ some rootKey := by
  intro c hcm hpar
  obtain ⟨a, ha⟩ := List.getElem?_of_mem hcm
  obtain ⟨b, c0, _, hc0, hid⟩ := hc.parent a c rootKey ha hpar
  exact ht.notRoot c0 (List.getElem?_mem hc0) hid

/-- The heap of a reachable state supports the walk over the index of any post. -/
theorem walk_of_invariants {s : InMemoryStorage} (hc : CommentsInv s) (ht : TreeInv s)
    {postID : String} {pc : GoMap (List Nat)}
    (hpc : s.commentsByPostAndParent postID = some pc) :
    Walk pc postID (fun a => (s.heap[a]?).map (fun c => c.id))
      (fun b => s.heap.length - b) s.heap := by
  have hbucket : ∀ k, (pc k).getD [] = filed s.heap postID k := by
    intro k
    rw [← ht.buckets postID k]
    simp only [bucket, hpc]
  constructor
  · intro k x hx
    rw [hbucket k] at hx
    obtain ⟨cx, hcx, hp, _⟩ := mem_filed.1 hx
    exact ⟨cx, hcx, by simp [hcx], hp⟩
  · intro b cb hcb x hx
    rw [hbucket cb.id] at hx
    obtain ⟨cx, hcx, _, hkey⟩ := mem_filed.1 hx
    have hxl : x < s.heap.length := (List.getElem?_eq_some.1 hcx).1
    have hnr : cb.id ≠ rootKey := ht.notRoot cb (List.getElem?_mem hcb)
    have hpar : cx.parentID = some cb.id := by
      unfold Comment.parentKey at hkey
      cases hp : cx.parentID with
      | none => rw [hp] at hkey; exact absurd hkey.symm hnr
      | some y => rw [hp] at hkey; simp at hkey; rw [hkey]
    obtain ⟨b1, c1, hlt, hc1, hid1⟩ := hc.parent x cx cb.id hcx hpar
    have hbb : b1 = b := ht.uniq b1 b c1 cb hc1 hcb hid1
    subst hbb
    show s.heap.length - x < s.heap.length - b1
    omega
  · intro b c hcb hp hnone
    apply ht.clean b c hcb
    rw [hp]
    simp only [bucket, hpc, hnone, Option.getD_none]

/-- The walk in the heap extended by the fresh copy of a root. -/
theorem walk_extend {pc : GoMap (List Nat)} {p : String} {ids : Nat → Option String}
    {h : List Comment} (hw : Walk pc p ids (fun b => h.length - b) h) (fresh : Comment)
    (hfresh : fresh.replies = []) :
    Walk pc p ids (fun b => if b < h.length then h.length - b else h.length + 1)
      (h ++ [fresh]) := by
  have hchild : ∀ k x, x ∈ (pc k).getD [] → x < h.length := by
    intro k x hx
    obtain ⟨cx, hcx, _⟩ := hw.agree k x hx
    exact (List.getElem?_eq_some.1 hcx).1
  constructor
  · intro k x hx
    obtain ⟨cx, hcx, hid, hp⟩ := hw.agree k x hx
    refine ⟨cx, ?_, hid, hp⟩
    rw [List.getElem?_append_left (hchild k x hx)]; exact hcx
  · intro b cb hcb x hx
    have hxl := hchild cb.id x hx
    simp only [hxl, if_true]
    rcases getElem?_append_singleton h fresh b cb hcb with hb | ⟨hb, _⟩
    · have hbl : b < h.length := (List.getElem?_eq_some.1 hb).1
      have := hw.drops b cb hb x hx
      simp only [hbl, if_true]
      exact this
    · subst hb
      simp only [Nat.lt_irrefl, if_false]
      omega
  · intro b c hcb hp hnone
    rcases getElem?_append_singleton h fresh b c hcb with hb | ⟨_, hc⟩
    · exact hw.clean b c hb hp hnone
    · rw [hc]; exact hfresh

/-- The result loop of `GetCommentsTree`: with enough fuel it returns a copy of every
selected root, each with the reply list the index prescribes, changes no stored
field, and leaves everything below the copies with the replies the index
prescribes. -/
theorem copyRoots_walk (pc : GoMap (List Nat)) (p : String) (ids : Nat → Option String)
    (fuel : Nat) :
    ∀ (roots : List Nat) (h : List Comment), Walk pc p ids (fun b => h.length - b) h →
      (∀ root ∈ roots, ∃ r, h[root]? = some r ∧ r.postID = p) → h.length + 2 ≤ fuel →
      ∃ result h2, copyRoots pc fuel roots h = some (result, h2) ∧
        h2.map Comment.skeleton = h.map Comment.skeleton ∧ SameOrGood pc h h2 ∧
        result.map Comment.skeleton
          = roots.filterMap (fun a => (h[a]?).map Comment.skeleton) ∧
        (∀ c ∈ result, c.replies = indexed pc c) ∧
        (∀ c ∈ result, ∀ x ∈ c.replies, ∀ b, Below pc ids x b → GoodAt pc h2 b) := by
  intro roots
  induction roots with
  | nil =>
    intro h _ _ _
    exact ⟨[], h, rfl, rfl, sameOrGood_refl pc h, rfl, by simp, by simp⟩
  | cons root rest ih =>
    intro h hw hroots hfuel
    obtain ⟨r, hr, hrp⟩ := hroots root (List.mem_cons_self _ _)
    have hwe := walk_extend hw ⟨r.id, r.postID, r.parentID, r.text, r.createdAt, []⟩ rfl
    have hget : (h ++ [(⟨r.id, r.postID, r.parentID, r.text, r.createdAt, []⟩ : Comment)])[h.length]?
        = some ⟨r.id, r.postID, r.parentID, r.text, r.createdAt, []⟩ := by
      simp
    obtain ⟨h1, hrun, hsk1, hsg1, hgood1, hbelow1⟩ :=
      attachChildren_walk pc p ids _ fuel _ h.length _ hwe hget hrp
        (by simp only [Nat.lt_irrefl, if_false]; omega)
    have hlen1 : h1.length = h.length + 1 := by
      have := skeleton_length hsk1
      simpa using this
    have hcopy : h1[h.length]? = some h1[h.length] :=
      List.getElem?_eq_getElem (by omega)
    have hcsk : (h1[h.length]).skeleton = r.skeleton := by
      obtain ⟨c0, hc0, hsk0⟩ := skeleton_getElem? hsk1 hcopy
      rw [hget] at hc0
      rw [← hsk0, ← Option.some.inj hc0]
      rfl
    have htake : ∀ (b : Nat) (c : Comment), (h1.take h.length)[b]? = some c →
        b < h.length ∧ h1[b]? = some c := by
      intro b c hb
      rw [List.getElem?_take] at hb
      split at hb
      · rename_i hlt; exact ⟨hlt, hb⟩
      · simp at hb
    have hskt : (h1.take h.length).map Comment.skeleton = h.map Comment.skeleton := by
      rw [List.map_take, hsk1]; simp
    have hsgt : SameOrGood pc h (h1.take h.length) := by
      intro b c hb
      obtain ⟨hlt, hb1⟩ := htake b c hb
      rcases hsg1 b c hb1 with hs | hg
      · rw [List.getElem?_append_left hlt] at hs; exact Or.inl hs
      · exact Or.inr hg
    have hwt : Walk pc p ids (fun b => (h1.take h.length).length - b) (h1.take h.length) := by
      have hl : (h1.take h.length).length = h.length := by simp [hlen1]
      rw [hl]
      exact walk_transport hw hskt hsgt
    have hrest : ∀ root ∈ rest, ∃ r, (h1.take h.length)[root]? = some r ∧ r.postID = p := by
      intro x hx
      obtain ⟨rx, hrx, hpx⟩ := hroots x (List.mem_cons_of_mem _ hx)
      obtain ⟨c1, hc1, hsk⟩ := skeleton_getElem? hskt.symm hrx
      simp only [Comment.skeleton, Prod.mk.injEq] at hsk
      exact ⟨c1, hc1, by rw [hsk.2.1]; exact hpx⟩
    obtain ⟨res, h2, hrun2, hsk2, hsg2, hres, hresgood, hresbelow⟩ :=
      ih (h1.take h.length) hwt hrest (by simp [hlen1]; omega)
    refine ⟨h1[h.length] :: res, h2, ?_, hsk2.trans hskt, sameOrGood_trans hsgt hsg2,
      ?_, ?_, ?_⟩
    · unfold copyRoots
      simp only [hr, hrun, hcopy, hrun2]
    · simp only [List.map_cons, List.filterMap_cons, hr, Option.map_some', hcsk]
      congr 1
      rw [hres]
      apply List.filterMap_congr
      intro x _
      cases hx : h[x]? with
      | none =>
        cases hx1 : (h1.take h.length)[x]? with
        | none => rfl
        | some c1 =>
          obtain ⟨c0, hc0, _⟩ := skeleton_getElem? hskt hx1
          rw [hx] at hc0; simp at hc0
      | some c0 =>
        obtain ⟨c1, hc1, hsk⟩ := skeleton_getElem? hskt.symm hx
        rw [hc1]
        simp [hsk]
    · intro c hc
      rcases List.mem_cons.1 hc with hc | hc
      · rw [hc]; exact hgood1 _ hcopy
      · exact hresgood c hc
    · intro c hc x hx b hb
      rcases List.mem_cons.1 hc with hc | hc
      · subst hc
        have hrep := hgood1 _ hcopy
        rw [hrep] at hx
        have hidc : (h1[h.length]).id = r.id := by
          have := congrArg Prod.fst hcsk
          simpa [Comment.skeleton] using this
        simp only [indexed, hidc] at hx
        have hg1 : GoodAt pc h1 b := hbelow1 x hx b hb
        have hgt : GoodAt pc (h1.take h.length) b := by
          intro c1 hc1
          exact hg1 c1 (htake b c1 hc1).2
        exact goodAt_of_sameOrGood hgt hsg2
      · exact hresbelow c hc x hx b hb

/-! ## GetCommentsTree when `offset + limit` fits in 32 bits -/

/-- For non-negative arguments whose sum fits in 32 bits `GetCommentsTree` runs the
result loop over the window `offset`, `limit` of the root bucket. -/
theorem GetCommentsTree_window (s : InMemoryStorage) (postID : String) (limit offset : Int)
    (fuel : Nat) {b : Bool} {pc : GoMap (List Nat)}
    (hflag : s.postsCommentsEnable postID = some b)
    (hpc : s.commentsByPostAndParent postID = some pc)
    (hl : 0 ≤ limit) (ho : 0 ≤ offset) (hsum : offset + limit ≤ 2147483647) :
    GetCommentsTree s postID limit offset fuel =
      match copyRoots pc fuel
          ((((pc rootKey).getD []).drop offset.toNat).take limit.toNat) s.heap with
      | none => none
      | some (result, heap1) => some (Outcome.ok result, { s with heap := heap1 }) := by
  obtain ⟨n, rfl⟩ := Int.eq_ofNat_of_zero_le hl
  obtain ⟨m, rfl⟩ := Int.eq_ofNat_of_zero_le ho
  simp only [Int.toNat_ofNat]
  unfold GetCommentsTree
  simp only [hflag, hpc]
  by_cases hge : (m : Int) ≥ (((pc rootKey).getD []).length : Int)
  · rw [if_pos hge]
    have : ((pc rootKey).getD []).length ≤ m := by omega
    rw [List.drop_of_length_le this]
    simp [copyRoots]
  · rw [if_neg hge]
    have hw : wrap32 ((m : Int) + (n : Int)) = (m : Int) + (n : Int) := by
      unfold wrap32; omega
    rw [hw]
    by_cases hgt : (m : Int) + (n : Int) > (((pc rootKey).getD []).length : Int)
    · rw [if_pos hgt]
      have hcond : 0 ≤ (m : Int) ∧ (m : Int) ≤ (((pc rootKey).getD []).length : Int) := by
        omega
      rw [if_pos hcond]
      simp only [Int.toNat_ofNat]
      have hlen : (((pc rootKey).getD []).drop m).length
          = ((pc rootKey).getD []).length - m := by simp
      rw [List.take_of_length_le (by omega), List.take_of_length_le (by omega)]
    · rw [if_neg hgt]
      have hcond : 0 ≤ (m : Int) ∧ (m : Int) ≤ (m : Int) + (n : Int) := by omega
      rw [if_pos hcond]
      have : ((m : Int) + (n : Int)).toNat - (m : Int).toNat = n := by omega
      rw [this, Int.toNat_ofNat]

theorem inForest_nil (heap : List Comment) : ∀ c, InForest heap [] c → False := by
  intro c h
  induction h with
  | root hc => simp at hc
  | reply _ _ _ ih => exact ih

/-- The root bucket of a stored post in a reachable state is the list of its stored
top-level comments, in creation order. -/
theorem bucket_root_eq_topLevel {s : InMemoryStorage} (hs : Reachable s) (postID : String) :
    bucket s postID rootKey = topLevel s postID := by
  obtain ⟨handles, hr⟩ := hs
  have ht := reachable_treeInv hr
  have hc := (reachable_invariants hr).2.1
  rw [ht.buckets postID rootKey]
  exact filed_root_eq_topLevel s postID (parent_ne_rootKey hc ht)

/-- Tree assembly on the arguments whose sum fits in 32 bits.  In a reachable state,
for a stored post and non-negative `limit` and `offset` with
`offset + limit ≤ 2147483647`, `GetCommentsTree` returns (any recursion bound above
the number of stored comments plus one suffices), changes no stored field of any
comment, returns copies of the top-level comments of the post at positions
`offset`, ..., in creation order, and every node of the returned forest, at every
depth, belongs to the post and has as replies exactly the stored comments of the
post whose parent is that node, in creation order. -/
theorem getCommentsTree_in_range {s : InMemoryStorage} (hs : Reachable s) (postID : String)
    (hp : ∃ p ∈ s.posts, p.id = postID) (limit offset : Int) (hl : 0 ≤ limit)
    (ho : 0 ≤ offset) (hsum : offset + limit ≤ 2147483647) (fuel : Nat)
    (hfuel : s.heap.length + 2 ≤ fuel) :
    ∃ result heap1,
      GetCommentsTree s postID limit offset fuel
        = some (Outcome.ok result, { s with heap := heap1 }) ∧
      heap1.map Comment.skeleton = s.heap.map Comment.skeleton ∧
      result.map Comment.skeleton
        = (((topLevel s postID).drop offset.toNat).take limit.toNat).filterMap
            (fun a => (s.heap[a]?).map Comment.skeleton) ∧
      ∀ c, InForest heap1 result c →
        c.postID = postID ∧ c.replies = repliesTo s postID c.id := by
  have htop := bucket_root_eq_topLevel hs postID
  obtain ⟨handles, hr⟩ := hs
  have ht := reachable_treeInv hr
  obtain ⟨hposts, hcomm, _⟩ := reachable_invariants hr
  obtain ⟨p, hpm, hpid⟩ := hp
  have hflag : s.postsCommentsEnable postID = some p.commentsEnabled := by
    rw [← hpid]; exact hposts.flag p hpm
  cases hpc : s.commentsByPostAndParent postID with
  | none =>
    refine ⟨[], s.heap, ?_, rfl, ?_, fun c hc => absurd hc (inForest_nil _ c)⟩
    · unfold GetCommentsTree
      simp only [hflag, hpc]
    · rw [← htop]
      simp [bucket, hpc]
  | some pc =>
    have hroot : (pc rootKey).getD [] = topLevel s postID := by
      rw [← htop]; simp only [bucket, hpc]
    have hw := walk_of_invariants hcomm ht hpc
    have hbucket : ∀ k, (pc k).getD [] = filed s.heap postID k := by
      intro k
      rw [← ht.buckets postID k]
      simp only [bucket, hpc]
    have hroots : ∀ root ∈ ((topLevel s postID).drop offset.toNat).take limit.toNat,
        ∃ r, s.heap[root]? = some r ∧ r.postID = postID := by
      intro root hroot1
      have h1 : root ∈ topLevel s postID :=
        List.mem_of_mem_drop (List.mem_of_mem_take hroot1)
      rw [← hroot, hbucket rootKey] at h1
      obtain ⟨r, hr1, hrp, _⟩ := mem_filed.1 h1
      exact ⟨r, hr1, hrp⟩
    obtain ⟨result, heap1, hrun, hsk, hsg, hres, hgood, hbelow⟩ :=
      copyRoots_walk pc postID _ fuel _ s.heap hw hroots hfuel
    refine ⟨result, heap1, ?_, hsk, hres, ?_⟩
    · rw [GetCommentsTree_window s postID limit offset fuel hflag hpc hl ho hsum, hroot, hrun]
    · -- ids of the nodes are ids of stored comments, so never the root marker
      have hw1 := walk_transport hw hsk hsg
      have hidx : ∀ c : Comment, c.id ≠ rootKey → indexed pc c = repliesTo s postID c.id := by
        intro c hne
        unfold indexed
        rw [hbucket c.id, filed_eq_repliesTo s postID c.id hne]
      have hstored : ∀ (a : Nat) (c : Comment), heap1[a]? = some c → c.id ≠ rootKey := by
        intro a c hc
        obtain ⟨c0, hc0, hsk0⟩ := skeleton_getElem? hsk hc
        have := congrArg Prod.fst hsk0
        simp only [Comment.skeleton] at this
        rw [← this]
        exact ht.notRoot c0 (List.getElem?_mem hc0)
      have hmain : ∀ c, InForest heap1 result c →
          c.postID = postID ∧ c.id ≠ rootKey ∧ c.replies = indexed pc c ∧
          ∀ x ∈ c.replies, ∀ b, Below pc (fun a => (s.heap[a]?).map (fun c => c.id)) x b →
            GoodAt pc heap1 b := by
        intro c hc
        induction hc with
        | @root c hcr =>
          have hcs : c.skeleton ∈ result.map Comment.skeleton := List.mem_map.2 ⟨c, hcr, rfl⟩
          rw [hres, List.mem_filterMap] at hcs
          obtain ⟨a, ha, hsa⟩ := hcs
          obtain ⟨r, hr1, hrp⟩ := hroots a ha
          rw [hr1] at hsa
          simp only [Option.map_some', Option.some.injEq, Comment.skeleton,
            Prod.mk.injEq] at hsa
          refine ⟨by rw [← hsa.2.1]; exact hrp, ?_, hgood c hcr, hbelow c hcr⟩
          rw [← hsa.1]
          exact ht.notRoot r (List.getElem?_mem hr1)
        | @reply c child a _ ha hchild ih =>
          obtain ⟨_, _, hrep, hbel⟩ := ih
          rw [hrep] at ha
          obtain ⟨cx, hcx, hidx1, hpx⟩ := hw1.agree c.id a ha
          rw [hchild] at hcx
          have hcc := Option.some.inj hcx
          subst hcc
          have hga : GoodAt pc heap1 a := hbel a (by rw [hrep]; exact ha) a (Below.here a)
          refine ⟨hpx, hstored a child hchild, hga child hchild, ?_⟩
          intro y hy b hb
          rw [hga child hchild] at hy
          exact hbel a (by rw [hrep]; exact ha) b (Below.step hidx1 hy hb)
      intro c hc
      obtain ⟨h1, h2, h3, _⟩ := hmain c hc
      exact ⟨h1, by rw [h3]; exact hidx c h2⟩

/-- C8: an offset at or beyond the end is answered with an empty sequence and no
error.  In every state `GetPosts` with `offset` at least the number of posts returns
`[]`; in every reachable state, for every stored post, `GetCommentsTree` with
`offset` at least the number of its top-level comments (zero when the post has no
comments) returns `[]` and leaves the state as it is, whatever `limit` is. -/
theorem pagination_past_the_end (s : InMemoryStorage) (limit offset : Int) :
    ((s.posts.length : Int) ≤ offset → GetPosts s limit offset = Outcome.ok []) ∧
    (Reachable s → ∀ postID, (∃ p ∈ s.posts, p.id = postID) →
      ((topLevel s postID).length : Int) ≤ offset →
      ∀ fuel, GetCommentsTree s postID limit offset fuel = some (Outcome.ok [], s)) := by
  constructor
  · intro h
    unfold GetPosts
    simp only
    rw [if_pos (by omega)]
  · intro hs postID hp hoff fuel
    have htop := bucket_root_eq_topLevel hs postID
    obtain ⟨handles, hr⟩ := hs
    obtain ⟨hposts, _, _⟩ := reachable_invariants hr
    obtain ⟨p, hpm, hpid⟩ := hp
    have hflag : s.postsCommentsEnable postID = some p.commentsEnabled := by
      rw [← hpid]; exact hposts.flag p hpm
    unfold GetCommentsTree
    simp only [hflag]
    cases hpc : s.commentsByPostAndParent postID with
    | none => rfl
    | some pc =>
      have hroot : (pc rootKey).getD [] = topLevel s postID := by
        rw [← htop]; simp only [bucket, hpc]
      simp only [hroot]
      rw [if_pos (by omega)]

theorem pagination_past_the_end_witness :
    ((twoRootsState.posts.length : Int) ≤ 1 ∧ GetPosts twoRootsState 5 1 = Outcome.ok []) ∧
    Reachable twoRootsState ∧ (∃ p ∈ twoRootsState.posts, p.id = "p1") ∧
    ((topLevel twoRootsState "p1").length : Int) ≤ 2 ∧
    ∀ fuel, GetCommentsTree twoRootsState "p1" 5 2 fuel
      = some (Outcome.ok [], twoRootsState) :=
  ⟨⟨by decide, (pagination_past_the_end twoRootsState 5 1).1 (by decide)⟩,
    twoRootsState_reachable, by decide, by decide,
    (pagination_past_the_end twoRootsState 5 2).2 twoRootsState_reachable "p1" (by decide)
      (by decide)⟩

/-! ## AddComment: what a failure and what a success return -/

/-- The second half of `AddComment` never ends in an error: it returns the comment
it built, or panics in the fan-out. -/
theorem storeComment_value (s : InMemoryStorage) (postID : String) (parentID : Option String)
    (parentKey text newID now : String) :
    (storeComment s postID parentID parentKey text newID now).1
      = Outcome.ok ⟨newID, postID, parentID, text, now, []⟩ ∨
    (storeComment s postID parentID parentKey text newID now).1 = Outcome.panic := by
  unfold storeComment
  simp only
  split
  · exact Or.inl rfl
  · split
    · exact Or.inl rfl
    · exact Or.inr rfl

/-- C12: `AddComment` is atomic.  In every state, whenever the call returns a
failure (post absent, comments disabled or parent absent) the whole state after the
call (posts, index, existence set, subscriber lists, queues) is the state before
it, so nothing was stored and nobody was notified. -/
theorem addComment_atomic (s : InMemoryStorage) (postID : String) (parentID : Option String)
    (text newID now : String) (e : Failure)
    (h : (AddComment s postID parentID text newID now).1 = Outcome.fail e) :
    (AddComment s postID parentID text newID now).2 = s := by
  rcases AddComment_cases s postID parentID text newID now with ⟨e1, he⟩ | ⟨k, _, _, hk⟩
  · rw [he]
  · rw [hk] at h
    rcases storeComment_value s postID parentID k text newID now with hv | hv
    · rw [hv] at h; simp at h
    · rw [hv] at h; simp at h

theorem addComment_atomic_witness :
    (AddComment twoPostsState "p1" (some "c9") "reply" "c2" "t3").1
      = Outcome.fail (Failure.parentNotFound "c9") ∧
    (AddComment twoPostsState "p1" (some "c9") "reply" "c2" "t3").2 = twoPostsState :=
  ⟨by decide,
    addComment_atomic twoPostsState "p1" (some "c9") "reply" "c2" "t3"
      (Failure.parentNotFound "c9") (by decide)⟩

/-- C13: in every state, the comment a successful `AddComment` returns has the post
id and the text of the call (an empty text included) and the parent id of the call
exactly, absent when it was absent and the same id when it was present; its id
and timestamp are the generated ones. -/
theorem addComment_returns (s : InMemoryStorage) (postID : String) (parentID : Option String)
    (text newID now : String) (c : Comment)
    (h : (AddComment s postID parentID text newID now).1 = Outcome.ok c) :
    c.postID = postID ∧ c.text = text ∧ c.parentID = parentID ∧
    c.id = newID ∧ c.createdAt = now := by
  rcases AddComment_cases s postID parentID text newID now with ⟨e1, he⟩ | ⟨k, _, _, hk⟩
  · rw [he] at h; simp at h
  · rw [hk] at h
    rcases storeComment_value s postID parentID k text newID now with hv | hv
    · rw [hv] at h
      have hc := Outcome.ok.inj h
      subst hc
      exact ⟨rfl, rfl, rfl, rfl, rfl⟩
    · rw [hv] at h; simp at h

theorem addComment_returns_witness :
    (AddComment twoPostsState "p1" none "" "c2" "t3").1
      = Outcome.ok ⟨"c2", "p1", none, "", "t3", []⟩ ∧
    (AddComment twoPostsState "p1" (some "c1") "" "c2" "t3").1
      = Outcome.ok ⟨"c2", "p1", some "c1", "", "t3", []⟩ ∧
    (⟨"c2", "p1", some "c1", "", "t3", []⟩ : Comment).parentID = some "c1" :=
  ⟨by decide, by decide,
    (addComment_returns twoPostsState "p1" (some "c1") "" "c2" "t3"
      ⟨"c2", "p1", some "c1", "", "t3", []⟩ (by decide)).2.2.1⟩

/-! ## Lookup map and queues -/

theorem searchInv_newPost {s : InMemoryStorage} (h : SearchInv s) (hp : PostsInv s)
    (text : String) (commentsEnabled : Bool) (newID now : String)
    (hfresh : s.postsCommentsEnable newID = none) :
    SearchInv (NewPost s text commentsEnabled newID now).2 := by
  have hne : ∀ p ∈ s.posts, p.id ≠ newID := by
    intro p hpm heq
    have := hp.flag p hpm
    rw [heq, hfresh] at this
    simp at this
  constructor
  · intro i p hi
    simp only [NewPost] at hi ⊢
    rcases getElem?_append_singleton s.posts _ i p hi with hold | ⟨hlen, hnew⟩
    · rw [goMap_insert_other _ _ (hne p (List.getElem?_mem hold))]
      exact h.found i p hold
    · subst hnew; subst hlen; simp
  · intro id i hi
    simp only [NewPost] at hi ⊢
    by_cases hid : id = newID
    · subst hid
      simp only [goMap_insert_same, Option.some.injEq] at hi
      subst hi
      exact ⟨⟨id, text, commentsEnabled, now⟩, by simp, rfl⟩
    · rw [goMap_insert_other _ _ hid] at hi
      obtain ⟨p, hpi, hpid⟩ := h.valid id i hi
      refine ⟨p, ?_, hpid⟩
      rw [List.getElem?_append_left (List.getElem?_eq_some.1 hpi).1]; exact hpi

/-- The state after `SetCommentsEnabled` on a post found at index `i`. -/
theorem SetCommentsEnabled_found (s : InMemoryStorage) (postID : String) (enabled : Bool)
    {i : Nat} {post : Post} (hf : s.posts.findIdx? (fun post => post.id == postID) = some i)
    (hi : s.posts[i]? = some post) :
    SetCommentsEnabled s postID enabled =
      (Outcome.ok { post with commentsEnabled := enabled },
        { s with
          posts := s.posts.set i { post with commentsEnabled := enabled }
          postsCommentsEnable := s.postsCommentsEnable.insert postID enabled }) := by
  unfold SetCommentsEnabled
  simp only [hf, hi]

/-- The loop of `SetCommentsEnabled` finds a post exactly when one has the id. -/
theorem findIdx_post (posts : List Post) (postID : String) :
    (posts.findIdx? (fun post => post.id == postID) = none ∧ ¬ ∃ p ∈ posts, p.id = postID) ∨
    (∃ i post, posts.findIdx? (fun post => post.id == postID) = some i ∧
      posts[i]? = some post ∧ post.id = postID) := by
  cases hf : posts.findIdx? (fun post => post.id == postID) with
  | none =>
    refine Or.inl ⟨rfl, ?_⟩
    rintro ⟨p, hp, hid⟩
    rw [List.findIdx?_eq_none_iff] at hf
    have := hf p hp
    simp [hid] at this
  | some i =>
    have h1 := List.findIdx?_of_eq_some hf
    cases hi : posts[i]? with
    | none => rw [hi] at h1; simp at h1
    | some post =>
      rw [hi] at h1
      exact Or.inr ⟨i, post, rfl, hi, by simpa using h1⟩

theorem searchInv_setCommentsEnabled {s : InMemoryStorage} (h : SearchInv s) (postID : String)
    (enabled : Bool) : SearchInv (SetCommentsEnabled s postID enabled).2 := by
  rcases findIdx_post s.posts postID with ⟨hnone, _⟩ | ⟨i, post, hf, hi, hid⟩
  · unfold SetCommentsEnabled
    rw [hnone]; exact h
  · rw [SetCommentsEnabled_found s postID enabled hf hi]
    have hlt : i < s.posts.length := (List.getElem?_eq_some.1 hi).1
    constructor
    · intro j p hj
      simp only at hj ⊢
      rw [List.getElem?_set] at hj
      by_cases hij : i = j
      · subst hij
        simp only [hlt, if_true] at hj
        rw [← Option.some.inj hj]
        exact h.found i post hi
      · rw [if_neg hij] at hj
        exact h.found j p hj
    · intro id j hj
      simp only at hj ⊢
      obtain ⟨p, hpj, hpid⟩ := h.valid id j hj
      rw [List.getElem?_set]
      by_cases hij : i = j
      · subst hij
        simp only [hlt, if_true]
        rw [hi] at hpj
        rw [← Option.some.inj hpj] at hpid
        exact ⟨_, rfl, hpid⟩
      · rw [if_neg hij]
        exact ⟨p, hpj, hpid⟩

theorem searchInv_of_eq {s s1 : InMemoryStorage} (h : SearchInv s) (hp : s1.posts = s.posts)
    (hs : s1.postSearch = s.postSearch) : SearchInv s1 := by
  constructor
  · rw [hp, hs]; exact h.found
  · rw [hp, hs]; exact h.valid

theorem notify_queue (comment : Nat) :
    ∀ (subs : List Nat) (cs : List Chan),
      (∀ (ch : Nat) (c : Chan), cs[ch]? = some c → c.cap = 1 ∧ c.buf.length ≤ 1) →
      ∀ (ch : Nat) (c : Chan), (notify comment subs cs).2[ch]? = some c →
        c.cap = 1 ∧ c.buf.length ≤ 1 := by
  intro subs
  induction subs with
  | nil => intro cs h; exact h
  | cons x rest ih =>
    intro cs h
    unfold notify
    cases hx : cs[x]? with
    | none => exact h
    | some q =>
      simp only
      split
      · exact h
      · split
        · rename_i hlt
          apply ih
          intro ch c hc
          rw [List.getElem?_set] at hc
          by_cases hxc : x = ch
          · subst hxc
            have hltx : x < cs.length := (List.getElem?_eq_some.1 hx).1
            simp only [hltx, if_true] at hc
            rw [← Option.some.inj hc]
            have := h x q hx
            simp only [List.length_append, List.length_singleton]
            omega
          · rw [if_neg hxc] at hc
            exact h ch c hc
        · exact ih cs h

/-- The channels after the second half of `AddComment`: the fan-out over the
subscribers of the post, if it has any. -/
theorem storeComment_chans (s : InMemoryStorage) (postID : String) (parentID : Option String)
    (parentKey text newID now : String) :
    (storeComment s postID parentID parentKey text newID now).2.chans =
      match s.subscribers postID with
      | none => s.chans
      | some subs => (notify s.heap.length subs s.chans).2 := by
  unfold storeComment
  simp only
  split
  · rfl
  · split
    · rename_i cs hn; simp only [hn]
    · rename_i cs hn; simp only [hn]

theorem queueInv_init : QueueInv New [] := by
  constructor
  · intro ch c h; simp [New] at h
  · intro p subs ch h; simp [New] at h

theorem queueInv_of_eq {s s1 : InMemoryStorage} {handles : List (String × Nat)}
    (h : QueueInv s handles) (hs : s1.subscribers = s.subscribers)
    (hc : s1.chans = s.chans) : QueueInv s1 handles := by
  constructor
  · rw [hc]; exact h.cap
  · rw [hs]; exact h.handle

theorem queueInv_addComment {s : InMemoryStorage} {handles : List (String × Nat)}
    (h : QueueInv s handles) (postID : String) (parentID : Option String)
    (text newID now : String) :
    QueueInv (AddComment s postID parentID text newID now).2 handles := by
  have hf := AddComment_frame s postID parentID text newID now
  constructor
  · rcases AddComment_cases s postID parentID text newID now with ⟨e, he⟩ | ⟨k, _, _, hk⟩
    · rw [he]; exact h.cap
    · rw [hk, storeComment_chans]
      cases s.subscribers postID with
      | none => exact h.cap
      | some subs => exact notify_queue _ subs s.chans h.cap
  · rw [hf.2.2.2.1]; exact h.handle

theorem queueInv_subscribe {s : InMemoryStorage} {handles : List (String × Nat)}
    (h : QueueInv s handles) (postID : String) :
    QueueInv (SubscribeToComments s postID).2
      (issued (SubscribeToComments s postID).1 handles) := by
  unfold SubscribeToComments
  cases hp : s.postsCommentsEnable postID with
  | none => exact h
  | some b =>
    simp only [issued]
    constructor
    · intro ch c hc
      simp only at hc
      rcases getElem?_append_singleton s.chans _ ch c hc with hold | ⟨_, hnew⟩
      · exact h.cap ch c hold
      · subst hnew; simp
    · intro p subs ch hps hch
      simp only at hps
      by_cases hpp : p = postID
      · subst hpp
        simp only [goMap_insert_same, Option.some.injEq] at hps
        subst hps
        rcases List.mem_append.1 hch with hch | hch
        · cases hsp : s.subscribers p with
          | none => rw [hsp] at hch; simp at hch
          | some subs0 =>
            rw [hsp] at hch
            exact List.mem_cons_of_mem _ (h.handle p subs0 ch hsp hch)
        · simp only [List.mem_singleton] at hch
          subst hch
          exact List.mem_cons_self _ _
      · rw [goMap_insert_other _ _ hpp] at hps
        exact List.mem_cons_of_mem _ (h.handle p subs ch hps hch)

/-- The channel of the handle after `rmSubscription`: closed, its queue as before. -/
theorem rmSubscription_chan_self (s : InMemoryStorage) (postID : String) (ch : Nat) :
    (rmSubscription s postID ch).2.chans[ch]?
      = (s.chans[ch]?).map (fun c => { c with closed := true }) := by
  unfold rmSubscription
  simp only
  by_cases hmem : ch ∈ (s.subscribers postID).getD []
  · simp only [if_pos hmem]
    cases hq : s.chans[ch]? with
    | none => simp [hq]
    | some q =>
      simp only [Option.map_some']
      by_cases hcl : q.closed = true
      · rw [if_pos hcl]
        simp only
        rw [hq]
        cases q
        simp only at hcl
        subst hcl
        rfl
      · rw [if_neg hcl]
        have hlt : ch < s.chans.length := (List.getElem?_eq_some.1 hq).1
        simp [hlt]
  · simp only [if_neg hmem]
    cases hq : s.chans[ch]? with
    | none => simp [hq]
    | some q =>
      simp only [Option.map_some']
      by_cases hcl : q.closed = true
      · rw [if_pos hcl]
        simp only
        rw [hq]
        cases q
        simp only at hcl
        subst hcl
        rfl
      · rw [if_neg hcl]
        have hlt : ch < s.chans.length := (List.getElem?_eq_some.1 hq).1
        simp [hlt]

theorem queueInv_cancel {s : InMemoryStorage} {handles : List (String × Nat)}
    (h : QueueInv s handles) (postID : String) (ch : Nat) :
    QueueInv (rmSubscription s postID ch).2 handles := by
  constructor
  · intro x c hc
    by_cases hx : x = ch
    · subst hx
      rw [rmSubscription_chan_self] at hc
      cases hq : s.chans[x]? with
      | none => rw [hq] at hc; simp at hc
      | some q =>
        rw [hq] at hc
        simp only [Option.map_some', Option.some.injEq] at hc
        rw [← hc]
        exact h.cap x q hq
    · rw [rmSubscription_chans s postID ch x hx] at hc
      exact h.cap x c hc
  · intro p subs x hps hx
    rw [rmSubscription_subscribers] at hps
    by_cases hmem : ch ∈ (s.subscribers postID).getD []
    · rw [if_pos hmem] at hps
      by_cases hpp : p = postID
      · subst hpp
        simp only [goMap_insert_same, Option.some.injEq] at hps
        cases hsp : s.subscribers p with
        | none => rw [hsp] at hmem; simp at hmem
        | some subs0 =>
          rw [hsp] at hps
          simp only [Option.getD_some] at hps
          subst hps
          exact h.handle p subs0 x hsp (List.mem_of_mem_erase hx)
      · rw [goMap_insert_other _ _ hpp] at hps
        exact h.handle p subs x hps hx
    · rw [if_neg hmem] at hps
      exact h.handle p subs x hps hx

theorem queueInv_receive {s : InMemoryStorage} {handles : List (String × Nat)}
    (h : QueueInv s handles) (ch : Nat) : QueueInv (receive s ch) handles := by
  have hf := receive_frame s ch
  constructor
  · intro x c hc
    unfold receive at hc
    cases hq : s.chans[ch]? with
    | none => rw [hq] at hc; exact h.cap x c hc
    | some q =>
      rw [hq] at hc
      simp only at hc
      rw [List.getElem?_set] at hc
      by_cases hx : ch = x
      · subst hx
        have hlt : ch < s.chans.length := (List.getElem?_eq_some.1 hq).1
        simp only [hlt, if_true] at hc
        rw [← Option.some.inj hc]
        have := h.cap ch q hq
        simp only [List.length_tail]
        omega
      · rw [if_neg hx] at hc
        exact h.cap x c hc
  · rw [hf.2.2.2.2.2.1]; exact h.handle

/-- The lookup map and the queues are well formed in every reachable state. -/
theorem reachable_more {s : InMemoryStorage} {handles : List (String × Nat)}
    (h : ReachableWith s handles) : SearchInv s ∧ QueueInv s handles := by
  induction h with
  | init =>
    refine ⟨⟨?_, ?_⟩, queueInv_init⟩
    · intro i p hi; simp [New] at hi
    · intro id i hi; simp [New] at hi
  | @newPost s0 _ text commentsEnabled newID now hr hfresh ih =>
    exact ⟨searchInv_newPost ih.1 (reachable_invariants hr).1 text commentsEnabled newID now
      hfresh, queueInv_of_eq ih.2 rfl rfl⟩
  | @addComment s0 _ postID parentID text newID now _ _ _ ih =>
    have hf := AddComment_frame s0 postID parentID text newID now
    exact ⟨searchInv_of_eq ih.1 hf.1 hf.2.2.1,
      queueInv_addComment ih.2 postID parentID text newID now⟩
  | @setCommentsEnabled s0 _ postID enabled _ ih =>
    have hf := SetCommentsEnabled_frame s0 postID enabled
    exact ⟨searchInv_setCommentsEnabled ih.1 postID enabled,
      queueInv_of_eq ih.2 hf.2.2.2.1 hf.2.2.2.2.2⟩
  | @subscribe s0 _ postID _ ih =>
    have hf := SubscribeToComments_frame s0 postID
    exact ⟨searchInv_of_eq ih.1 hf.1 hf.2.2.1, queueInv_subscribe ih.2 postID⟩
  | @cancel s0 _ postID ch _ _ ih =>
    have hf := rmSubscription_frame s0 postID ch
    exact ⟨searchInv_of_eq ih.1 hf.1 hf.2.2.1, queueInv_cancel ih.2 postID ch⟩
  | getCommentsTree postID limit offset fuel r _ _ _ hg ih =>
    obtain ⟨heap1, hs1, _⟩ := GetCommentsTree_state hg
    subst hs1
    exact ⟨searchInv_of_eq ih.1 rfl rfl, queueInv_of_eq ih.2 rfl rfl⟩
  | @receive s0 _ ch _ ih =>
    have hf := receive_frame s0 ch
    exact ⟨searchInv_of_eq ih.1 hf.1 hf.2.2.1, queueInv_receive ih.2 ch⟩

/-! ## Posts: lookup, creation, the comments flag -/

/-- In a reachable state a post id is stored exactly when the comments-enabled map
has it, and exactly when the lookup map has it. -/
theorem stored_iff_maps {s : InMemoryStorage} (hs : Reachable s) (postID : String) :
    ((∃ p ∈ s.posts, p.id = postID) ↔ s.postsCommentsEnable postID ≠ none) ∧
    ((∃ p ∈ s.posts, p.id = postID) ↔ s.postSearch postID ≠ none) := by
  obtain ⟨handles, hr⟩ := hs
  obtain ⟨hposts, _, _⟩ := reachable_invariants hr
  obtain ⟨hsearch, _⟩ := reachable_more hr
  constructor
  · constructor
    · rintro ⟨p, hp, hid⟩
      rw [← hid, hposts.flag p hp]; simp
    · intro hne
      cases hb : s.postsCommentsEnable postID with
      | none => exact absurd hb hne
      | some b => exact hposts.known postID b hb
  · constructor
    · rintro ⟨p, hp, hid⟩
      obtain ⟨i, hi⟩ := List.getElem?_of_mem hp
      rw [← hid, hsearch.found i p hi]; simp
    · intro hne
      cases hb : s.postSearch postID with
      | none => exact absurd hb hne
      | some i =>
        obtain ⟨p, hp, hid⟩ := hsearch.valid postID i hb
        exact ⟨p, List.getElem?_mem hp, hid⟩

/-- `GetCommentsTree` on a post the comments-enabled map knows never returns an
error. -/
theorem GetCommentsTree_no_error (s : InMemoryStorage) (postID : String) (limit offset : Int)
    (fuel : Nat) (hne : s.postsCommentsEnable postID ≠ none) (e : Failure)
    (s1 : InMemoryStorage) :
    GetCommentsTree s postID limit offset fuel ≠ some (Outcome.fail e, s1) := by
  intro h
  unfold GetCommentsTree at h
  split at h
  · rename_i hnone; exact hne hnone
  · split at h
    · simp at h
    · simp only at h
      split at h
      · simp at h
      · split at h <;>
        · split at h
          · split at h
            · simp at h
            · simp at h
          · simp at h

/-- C16: in a reachable state, for a post id that names no stored post each of
`GetPost`, `SetCommentsEnabled`, `GetCommentsTree` and `SubscribeToComments` fails
with `NotFound` and returns the state as it was (so no subscriber is registered);
for a post id that names a stored post the first, second and fourth succeed and
`GetCommentsTree` never returns an error. -/
theorem post_not_found {s : InMemoryStorage} (hs : Reachable s) (postID : String) :
    ((¬ ∃ p ∈ s.posts, p.id = postID) →
      GetPost s postID = Outcome.fail (Failure.postNotFound postID) ∧
      (∀ enabled, SetCommentsEnabled s postID enabled
        = (Outcome.fail (Failure.postNotFound postID), s)) ∧
      (∀ limit offset fuel, GetCommentsTree s postID limit offset fuel
        = some (Outcome.fail (Failure.postNotFound postID), s)) ∧
      SubscribeToComments s postID = (Outcome.fail (Failure.postNotFound postID), s)) ∧
    ((∃ p ∈ s.posts, p.id = postID) →
      (∃ p, GetPost s postID = Outcome.ok p) ∧
      (∀ enabled, ∃ p, (SetCommentsEnabled s postID enabled).1 = Outcome.ok p) ∧
      (∀ limit offset fuel e s1,
        GetCommentsTree s postID limit offset fuel ≠ some (Outcome.fail e, s1)) ∧
      (∃ v, (SubscribeToComments s postID).1 = Outcome.ok v)) := by
  obtain ⟨hflag, hsearch⟩ := stored_iff_maps hs postID
  obtain ⟨handles, hr⟩ := hs
  obtain ⟨hsinv, _⟩ := reachable_more hr
  constructor
  · intro hno
    have hf : s.postsCommentsEnable postID = none := by
      by_contra hne; exact hno (hflag.2 hne)
    have hse : s.postSearch postID = none := by
      by_contra hne; exact hno (hsearch.2 hne)
    refine ⟨?_, ?_, ?_, ?_⟩
    · unfold GetPost; rw [hse]
    · intro enabled
      rcases findIdx_post s.posts postID with ⟨hnone, _⟩ | ⟨i, post, _, hi, hid⟩
      · unfold SetCommentsEnabled; rw [hnone]
      · exact absurd ⟨post, List.getElem?_mem hi, hid⟩ hno
    · intro limit offset fuel
      unfold GetCommentsTree; rw [hf]
    · unfold SubscribeToComments; rw [hf]
  · intro hyes
    have hf := hflag.1 hyes
    have hse := hsearch.1 hyes
    refine ⟨?_, ?_, ?_, ?_⟩
    · unfold GetPost
      cases hi : s.postSearch postID with
      | none => exact absurd hi hse
      | some i =>
        obtain ⟨p, hp, _⟩ := hsinv.valid postID i hi
        simp only [hp]
        exact ⟨p, rfl⟩
    · intro enabled
      rcases findIdx_post s.posts postID with ⟨_, hno⟩ | ⟨i, post, hfi, hi, _⟩
      · exact absurd hyes hno
      · rw [SetCommentsEnabled_found s postID enabled hfi hi]
        exact ⟨_, rfl⟩
    · intro limit offset fuel e s1
      exact GetCommentsTree_no_error s postID limit offset fuel hf e s1
    · unfold SubscribeToComments
      cases hb : s.postsCommentsEnable postID with
      | none => exact absurd hb hf
      | some b => exact ⟨_, rfl⟩

theorem post_not_found_witness :
    Reachable twoPostsState ∧ (¬ ∃ p ∈ twoPostsState.posts, p.id = "aboba") ∧
    GetPost twoPostsState "aboba" = Outcome.fail (Failure.postNotFound "aboba") ∧
    (∃ p ∈ twoPostsState.posts, p.id = "p2") ∧
    (∃ p, GetPost twoPostsState "p2" = Outcome.ok p) :=
  ⟨twoPostsState_reachable, by decide,
    ((post_not_found twoPostsState_reachable "aboba").1 (by decide)).1, by decide,
    ((post_not_found twoPostsState_reachable "p2").2 (by decide)).1⟩

/-- C17: `NewPost` and `GetPost` round trip.  In a reachable state, with a generated
id that is fresh and not empty, `NewPost` succeeds and returns a post with the
given text (an empty one included) and flag and with that non-empty id; `GetPost` on
the returned id in the state after the call returns the same post; and every post
stored before is still returned, unchanged, by `GetPost`. -/
theorem newPost_round_trip {s : InMemoryStorage} (hs : Reachable s) (text : String)
    (commentsEnabled : Bool) (newID now : String)
    (hfresh : s.postsCommentsEnable newID = none) (hid : newID ≠ "") :
    ∃ post, (NewPost s text commentsEnabled newID now).1 = Outcome.ok post ∧
      post.text = text ∧ post.commentsEnabled = commentsEnabled ∧ post.id ≠ "" ∧
      GetPost (NewPost s text commentsEnabled newID now).2 post.id = Outcome.ok post ∧
      ∀ p ∈ s.posts, GetPost s p.id = Outcome.ok p ∧
        GetPost (NewPost s text commentsEnabled newID now).2 p.id = Outcome.ok p := by
  obtain ⟨handles, hr⟩ := hs
  have hr1 := ReachableWith.newPost text commentsEnabled newID now hr hfresh
  obtain ⟨hs0, _⟩ := reachable_more hr
  obtain ⟨hs1, _⟩ := reachable_more hr1
  have hget : ∀ (t : InMemoryStorage), SearchInv t → ∀ p ∈ t.posts,
      GetPost t p.id = Outcome.ok p := by
    intro t ht p hp
    obtain ⟨i, hi⟩ := List.getElem?_of_mem hp
    unfold GetPost
    rw [ht.found i p hi]
    simp only [hi]
  refine ⟨⟨newID, text, commentsEnabled, now⟩, rfl, rfl, rfl, hid, ?_, ?_⟩
  · exact hget _ hs1 _ (by simp [NewPost])
  · intro p hp
    exact ⟨hget s hs0 p hp, hget _ hs1 p (by simp [NewPost, hp])⟩

theorem newPost_round_trip_witness :
    Reachable twoPostsState ∧ twoPostsState.postsCommentsEnable "p3" = none ∧
    ("p3" : String) ≠ "" ∧
    ∃ post, (NewPost twoPostsState "" false "p3" "t5").1 = Outcome.ok post ∧
      post.text = "" ∧ post.commentsEnabled = false ∧ post.id ≠ "" ∧
      GetPost (NewPost twoPostsState "" false "p3" "t5").2 post.id = Outcome.ok post ∧
      ∀ p ∈ twoPostsState.posts, GetPost twoPostsState p.id = Outcome.ok p ∧
        GetPost (NewPost twoPostsState "" false "p3" "t5").2 p.id = Outcome.ok p :=
  ⟨twoPostsState_reachable, rfl, by decide,
    newPost_round_trip twoPostsState_reachable "" false "p3" "t5" rfl (by decide)⟩

/-- Two posts of a reachable state with the same id are the same object. -/
theorem post_index_unique {s : InMemoryStorage} (hp : SearchInv s) {i j : Nat} {p q : Post}
    (hi : s.posts[i]? = some p) (hj : s.posts[j]? = some q) (hid : p.id = q.id) : i = j := by
  have h1 := hp.found i p hi
  have h2 := hp.found j q hj
  rw [hid, h2] at h1
  exact (Option.some.inj h1).symm

/-- C18: in a reachable state, `SetCommentsEnabled` on a stored post returns that
post with the flag set as asked and id, text and createdAt as they were; `GetPost`
then reports the new flag; `AddComment` with no parent then succeeds exactly when
the flag is true; every other post is stored and returned as before, and the
comments, the index, the existence set, the subscriber lists and the queues are
unchanged. -/
theorem setCommentsEnabled_effect {s : InMemoryStorage} (hs : Reachable s) (p : Post)
    (hp : p ∈ s.posts) (enabled : Bool) :
    (SetCommentsEnabled s p.id enabled).1
      = Outcome.ok ⟨p.id, p.text, enabled, p.createdAt⟩ ∧
    GetPost (SetCommentsEnabled s p.id enabled).2 p.id
      = Outcome.ok ⟨p.id, p.text, enabled, p.createdAt⟩ ∧
    (∀ text newID now,
      (∃ c, (AddComment (SetCommentsEnabled s p.id enabled).2 p.id none text newID now).1
        = Outcome.ok c) ↔ enabled = true) ∧
    (∀ q ∈ s.posts, q.id ≠ p.id → q ∈ (SetCommentsEnabled s p.id enabled).2.posts ∧
      GetPost (SetCommentsEnabled s p.id enabled).2 q.id = Outcome.ok q) ∧
    (SetCommentsEnabled s p.id enabled).2.heap = s.heap ∧
    (SetCommentsEnabled s p.id enabled).2.commentsByPostAndParent
      = s.commentsByPostAndParent ∧
    (SetCommentsEnabled s p.id enabled).2.commentsAvaliability = s.commentsAvaliability ∧
    (SetCommentsEnabled s p.id enabled).2.subscribers = s.subscribers ∧
    (SetCommentsEnabled s p.id enabled).2.chans = s.chans := by
  obtain ⟨handles, hr⟩ := hs
  have hr1 := ReachableWith.setCommentsEnabled p.id enabled hr
  obtain ⟨hs0, _⟩ := reachable_more hr
  obtain ⟨hs1, _⟩ := reachable_more hr1
  obtain ⟨_, _, hch1⟩ := reachable_invariants hr1
  have hf := SetCommentsEnabled_frame s p.id enabled
  obtain ⟨j, hj⟩ := List.getElem?_of_mem hp
  rcases findIdx_post s.posts p.id with ⟨_, hno⟩ | ⟨i, post, hfi, hi, hid⟩
  · exact absurd ⟨p, hp, rfl⟩ hno
  · have hij : i = j := post_index_unique hs0 hi hj hid
    subst hij
    rw [hj] at hi
    have hpp : post = p := (Option.some.inj hi).symm
    subst hpp
    have hst := SetCommentsEnabled_found s post.id enabled hfi hj
    have hlt : i < s.posts.length := (List.getElem?_eq_some.1 hj).1
    have hnew : (SetCommentsEnabled s post.id enabled).2.posts[i]?
        = some ⟨post.id, post.text, enabled, post.createdAt⟩ := by
      rw [hst]; simp [hlt]
    have hget : ∀ (k : Nat) (q : Post), (SetCommentsEnabled s post.id enabled).2.posts[k]?
        = some q → GetPost (SetCommentsEnabled s post.id enabled).2 q.id = Outcome.ok q := by
      intro k q hk
      unfold GetPost
      rw [hs1.found k q hk]
      simp only [hk]
    refine ⟨by rw [hst], hget i _ hnew, ?_, ?_, hf.2.2.2.2.1, hf.2.2.1, hf.2.1, hf.2.2.2.1,
      hf.2.2.2.2.2⟩
    · intro text newID now
      have hflag : (SetCommentsEnabled s post.id enabled).2.postsCommentsEnable post.id
          = some enabled := by
        rw [hst]; simp
      unfold AddComment
      rw [hflag]
      cases enabled with
      | false => simp
      | true =>
        simp only [Bool.not_true, Bool.false_eq_true, if_false, iff_true]
        exact ⟨_, storeComment_ok hch1 post.id none rootKey text newID now⟩
    · intro q hq hne
      obtain ⟨k, hk⟩ := List.getElem?_of_mem hq
      have hki : i ≠ k := by
        intro hik
        subst hik
        rw [hj] at hk
        exact hne (by rw [Option.some.inj hk])
      have hk1 : (SetCommentsEnabled s post.id enabled).2.posts[k]? = some q := by
        rw [hst]
        simp only
        rw [List.getElem?_set, if_neg hki]
        exact hk
      exact ⟨List.getElem?_mem hk1, hget k q hk1⟩

theorem setCommentsEnabled_effect_witness :
    Reachable twoPostsState ∧
    (⟨"p1", "first", true, "t0"⟩ : Post) ∈ twoPostsState.posts ∧
    (SetCommentsEnabled twoPostsState "p1" false).1
      = Outcome.ok ⟨"p1", "first", false, "t0"⟩ :=
  ⟨twoPostsState_reachable, by decide,
    (setCommentsEnabled_effect twoPostsState_reachable ⟨"p1", "first", true, "t0"⟩
      (by decide) false).1⟩

/-! ## Notification fan-out and cancellation -/

/-- The fan-out over a duplicate-free list of open channels sends once to each
channel of the list and touches no other channel. -/
theorem notify_spec (comment : Nat) :
    ∀ (subs : List Nat) (cs : List Chan), subs.Nodup →
      (∀ ch ∈ subs, ∃ c, cs[ch]? = some c ∧ c.closed = false) →
      ∀ ch, (notify comment subs cs).2[ch]?
        = if ch ∈ subs then (cs[ch]?).map (trySend comment) else cs[ch]? := by
  intro subs
  induction subs with
  | nil => intro cs _ _ ch; simp [notify]
  | cons x rest ih =>
    intro cs hnd hopen ch
    obtain ⟨q, hq, hcl⟩ := hopen x (List.mem_cons_self _ _)
    have hxr : x ∉ rest := (List.nodup_cons.1 hnd).1
    have hrnd : rest.Nodup := (List.nodup_cons.1 hnd).2
    have hlt : x < cs.length := (List.getElem?_eq_some.1 hq).1
    -- one step of the loop
    have hstep : notify comment (x :: rest) cs
        = notify comment rest (cs.set x (trySend comment q)) := by
      conv => lhs; unfold notify
      simp only [hq, hcl]
      unfold trySend
      by_cases hroom : q.buf.length < q.cap
      · simp [hroom, hcl]
      · simp only [hroom, if_false, Bool.false_eq_true]
        have : cs.set x q = cs := by
          apply List.ext_getElem?
          intro i
          rw [List.getElem?_set]
          by_cases hxi : x = i
          · subst hxi; simp [hlt, hq]
          · simp [hxi]
        rw [this]
    have hset : ∀ y, y ≠ x → (cs.set x (trySend comment q))[y]? = cs[y]? := by
      intro y hy
      rw [List.getElem?_set_ne (Ne.symm hy)]
    have hopen1 : ∀ y ∈ rest, ∃ c, (cs.set x (trySend comment q))[y]? = some c ∧
        c.closed = false := by
      intro y hy
      have hyx : y ≠ x := fun h => hxr (h ▸ hy)
      rw [hset y hyx]
      exact hopen y (List.mem_cons_of_mem _ hy)
    rw [hstep, ih _ hrnd hopen1 ch]
    by_cases hcx : ch = x
    · subst hcx
      simp only [hxr, if_false, List.mem_cons, true_or, if_true]
      rw [hq]
      simp [hlt]
    · rw [hset ch hcx]
      simp only [List.mem_cons, hcx, false_or]

/-- The queues after a successful `AddComment` in a state whose subscribed channels
are open: one send of the new comment to every subscriber of the post. -/
theorem addComment_chans {s : InMemoryStorage} {handles : List (String × Nat)}
    (hc : ChanInv s handles) (postID : String) (parentID : Option String)
    (text newID now : String) (c : Comment)
    (hok : (AddComment s postID parentID text newID now).1 = Outcome.ok c) :
    ∀ ch, (AddComment s postID parentID text newID now).2.chans[ch]?
      = if ch ∈ (s.subscribers postID).getD [] then
          (s.chans[ch]?).map (trySend s.heap.length)
        else s.chans[ch]? := by
  intro ch
  rcases AddComment_cases s postID parentID text newID now with ⟨e, he⟩ | ⟨k, _, _, hk⟩
  · rw [he] at hok; simp at hok
  · rw [hk, storeComment_chans]
    cases hs : s.subscribers postID with
    | none => simp
    | some subs =>
      simp only [Option.getD_some]
      exact notify_spec s.heap.length subs s.chans (hc.nodup postID subs hs)
        (fun x hx => hc.isOpen postID subs x hs hx) ch

/-- What the fan-out does to one subscriber of the post, by the state of its queue. -/
theorem addComment_delivers {s : InMemoryStorage} {handles : List (String × Nat)}
    (hc : ChanInv s handles) (hq : QueueInv s handles) (postID : String)
    (parentID : Option String) (text newID now : String) (c : Comment)
    (hok : (AddComment s postID parentID text newID now).1 = Outcome.ok c)
    (subs : List Nat) (ch : Nat) (q : Chan) (hs : s.subscribers postID = some subs)
    (hch : ch ∈ subs) (hqc : s.chans[ch]? = some q) :
    (q.buf = [] → (AddComment s postID parentID text newID now).2.chans[ch]?
      = some ⟨q.cap, [s.heap.length], q.closed⟩) ∧
    (q.buf ≠ [] → (AddComment s postID parentID text newID now).2.chans[ch]? = some q) := by
  have h1 := addComment_chans hc postID parentID text newID now c hok ch
  rw [hs] at h1
  simp only [Option.getD_some, hch, if_true, hqc, Option.map_some'] at h1
  rw [h1]
  have hcap := (hq.cap ch q hqc).1
  constructor
  · intro hempty
    unfold trySend
    simp [hempty, hcap]
  · intro hfull
    unfold trySend
    have : ¬ q.buf.length < q.cap := by
      rw [hcap]
      have : q.buf.length ≠ 0 := fun h => hfull (List.length_eq_zero.1 h)
      omega
    rw [if_neg this]

/-- The heap after a successful `AddComment`: the returned comment, allocated at the
first free address. -/
theorem addComment_heap (s : InMemoryStorage) (postID : String) (parentID : Option String)
    (text newID now : String) (c : Comment)
    (hok : (AddComment s postID parentID text newID now).1 = Outcome.ok c) :
    (AddComment s postID parentID text newID now).2.heap = s.heap ++ [c] := by
  rcases AddComment_cases s postID parentID text newID now with ⟨e, he⟩ | ⟨k, _, _, hk⟩
  · rw [he] at hok; simp at hok
  · obtain ⟨cs, _, hst⟩ := storeComment_state s postID parentID k text newID now
    rw [hk] at hok ⊢
    rcases storeComment_value s postID parentID k text newID now with hv | hv
    · rw [hv] at hok
      rw [hst, ← Outcome.ok.inj hok]
    · rw [hv] at hok; simp at hok

/-- In a reachable state `AddComment` never panics. -/
theorem addComment_no_panic {s : InMemoryStorage} {handles : List (String × Nat)}
    (hc : ChanInv s handles) (postID : String) (parentID : Option String)
    (text newID now : String) :
    (AddComment s postID parentID text newID now).1 ≠ Outcome.panic := by
  rcases AddComment_cases s postID parentID text newID now with ⟨e, he⟩ | ⟨k, _, _, hk⟩
  · rw [he]; simp
  · rw [hk, storeComment_ok hc]; simp

/-- C11: notification fan-out.  In a reachable state `AddComment` never panics (it
completes however many queues are full); after a successful call the new comment is
stored at the first free address, every subscriber of the post whose queue was
empty holds exactly that comment, every subscriber of the post whose queue was not
empty has its queue unchanged, and the queues of the subscribers of other posts and
every other channel are unchanged, as are the subscriber lists. -/
theorem addComment_fan_out {s : InMemoryStorage} (hs : Reachable s) (postID : String)
    (parentID : Option String) (text newID now : String) :
    (AddComment s postID parentID text newID now).1 ≠ Outcome.panic ∧
    ∀ c, (AddComment s postID parentID text newID now).1 = Outcome.ok c →
      (AddComment s postID parentID text newID now).2.heap[s.heap.length]? = some c ∧
      (AddComment s postID parentID text newID now).2.subscribers = s.subscribers ∧
      (∀ subs ch q, s.subscribers postID = some subs → ch ∈ subs → s.chans[ch]? = some q →
        (q.buf = [] → (AddComment s postID parentID text newID now).2.chans[ch]?
          = some ⟨q.cap, [s.heap.length], q.closed⟩) ∧
        (q.buf ≠ [] →
          (AddComment s postID parentID text newID now).2.chans[ch]? = some q)) ∧
      (∀ p subs ch, p ≠ postID → s.subscribers p = some subs → ch ∈ subs →
        (AddComment s postID parentID text newID now).2.chans[ch]? = s.chans[ch]?) ∧
      (∀ ch, ch ∉ (s.subscribers postID).getD [] →
        (AddComment s postID parentID text newID now).2.chans[ch]? = s.chans[ch]?) := by
  obtain ⟨handles, hr⟩ := hs
  obtain ⟨_, _, hc⟩ := reachable_invariants hr
  obtain ⟨_, hq⟩ := reachable_more hr
  refine ⟨addComment_no_panic hc postID parentID text newID now, ?_⟩
  intro c hok
  have hchans := addComment_chans hc postID parentID text newID now c hok
  refine ⟨?_, (AddComment_frame s postID parentID text newID now).2.2.2.1, ?_, ?_, ?_⟩
  · rw [addComment_heap s postID parentID text newID now c hok]
    simp
  · intro subs ch q hsub hch hqc
    exact addComment_delivers hc hq postID parentID text newID now c hok subs ch q hsub hch hqc
  · intro p subs ch hp hsub hch
    rw [hchans ch]
    have hnot : ch ∉ (s.subscribers postID).getD [] := by
      intro hmem
      cases hsp : s.subscribers postID with
      | none => rw [hsp] at hmem; simp at hmem
      | some subs1 =>
        rw [hsp] at hmem
        exact hp (hc.owner postID subs1 ch p hsp hmem (hq.handle p subs ch hsub hch))
    rw [if_neg hnot]
  · intro ch hnot
    rw [hchans ch, if_neg hnot]

theorem addComment_fan_out_witness :
    Reachable subscribedState ∧
    (AddComment subscribedState "p1" none "New comment" "c1" "t1").1
      = Outcome.ok ⟨"c1", "p1", none, "New comment", "t1", []⟩ ∧
    subscribedState.subscribers "p1" = some [0] ∧
    subscribedState.chans[0]? = some ⟨1, [], false⟩ ∧
    (AddComment subscribedState "p1" none "New comment" "c1" "t1").2.chans[0]?
      = some ⟨1, [subscribedState.heap.length], false⟩ :=
  ⟨⟨_, subscribedState_reachable⟩, by decide, by decide, by decide,
    (((addComment_fan_out ⟨_, subscribedState_reachable⟩ "p1" none "New comment" "c1"
      "t1").2 ⟨"c1", "p1", none, "New comment", "t1", []⟩ (by decide)).2.2.1
      [0] 0 ⟨1, [], false⟩ (by decide) (by decide) (by decide)).1 rfl⟩

/-- C19: cancelling one subscription leaves the others alone.  In a reachable state,
the call of the handle of a registered subscriber `ch` of post `postID` succeeds,
takes exactly `ch` out of the post's list (the others stay, in the same order),
leaves every other list as it was, closes `ch` with its queue contents kept, and
changes no other channel: every remaining subscriber is registered with an open
queue, and after a following successful `AddComment` on its post a remaining
subscriber whose queue is empty holds the new comment. -/
theorem cancel_leaves_others {s : InMemoryStorage} {handles : List (String × Nat)}
    (hr : ReachableWith s handles) (postID : String) (ch : Nat)
    (hh : (postID, ch) ∈ handles) (subs : List Nat)
    (hs : s.subscribers postID = some subs) (hm : ch ∈ subs) :
    (rmSubscription s postID ch).1 = Outcome.ok () ∧
    (rmSubscription s postID ch).2.subscribers postID
      = some (subs.filter (fun x => x != ch)) ∧
    (∀ p, p ≠ postID → (rmSubscription s postID ch).2.subscribers p = s.subscribers p) ∧
    (∃ q, s.chans[ch]? = some q ∧ q.closed = false ∧
      (rmSubscription s postID ch).2.chans[ch]? = some ⟨q.cap, q.buf, true⟩) ∧
    (∀ x, x ≠ ch → (rmSubscription s postID ch).2.chans[x]? = s.chans[x]?) ∧
    (∀ p subs1 x, (rmSubscription s postID ch).2.subscribers p = some subs1 → x ∈ subs1 →
      x ≠ ch ∧ ∃ q, (rmSubscription s postID ch).2.chans[x]? = some q ∧ q.closed = false) ∧
    (∀ p parentID text newID now c,
      (AddComment (rmSubscription s postID ch).2 p parentID text newID now).1
        = Outcome.ok c →
      ∀ subs1 x q, (rmSubscription s postID ch).2.subscribers p = some subs1 → x ∈ subs1 →
        (rmSubscription s postID ch).2.chans[x]? = some q → q.buf = [] →
        (AddComment (rmSubscription s postID ch).2 p parentID text newID now).2.chans[x]?
          = some ⟨q.cap, [(rmSubscription s postID ch).2.heap.length], q.closed⟩) := by
  obtain ⟨_, _, hc⟩ := reachable_invariants hr
  have hr1 := ReachableWith.cancel postID ch hr hh
  obtain ⟨_, _, hc1⟩ := reachable_invariants hr1
  obtain ⟨_, hq1⟩ := reachable_more hr1
  obtain ⟨q, hqc, hopen⟩ := hc.isOpen postID subs ch hs hm
  have hnd := hc.nodup postID subs hs
  have hsubs := rmSubscription_subscribers s postID ch
  have hmem : ch ∈ (s.subscribers postID).getD [] := by rw [hs]; exact hm
  rw [if_pos hmem, hs] at hsubs
  simp only [Option.getD_some] at hsubs
  have hself := rmSubscription_chan_self s postID ch
  rw [hqc] at hself
  simp only [Option.map_some'] at hself
  refine ⟨?_, ?_, ?_, ⟨q, hqc, hopen, hself⟩, rmSubscription_chans s postID ch, ?_, ?_⟩
  · unfold rmSubscription
    simp only [hs, Option.getD_some, hm, if_true, hqc, hopen, Bool.false_eq_true, if_false]
  · rw [hsubs, goMap_insert_same, hnd.erase_eq_filter]
  · intro p hp
    rw [hsubs, goMap_insert_other _ _ hp]
  · intro p subs1 x hp hx
    obtain ⟨c1, hc1q, hc1o⟩ := hc1.isOpen p subs1 x hp hx
    refine ⟨?_, c1, hc1q, hc1o⟩
    intro hxc
    subst hxc
    rw [hself] at hc1q
    rw [← Option.some.inj hc1q] at hc1o
    simp at hc1o
  · intro p parentID text newID now c hok subs1 x q1 hp hx hq1c hempty
    exact (addComment_delivers hc1 hq1 p parentID text newID now c hok subs1 x q1 hp hx
      hq1c).1 hempty

theorem threeSubscribersState_reachable :
    ReachableWith threeSubscribersState [("p2", 2), ("p1", 1), ("p1", 0)] :=
  ReachableWith.subscribe "p2"
    (ReachableWith.subscribe "p1"
      (ReachableWith.subscribe "p1"
        (ReachableWith.newPost "second" true "p2" "t1"
          (ReachableWith.newPost "first" true "p1" "t0" ReachableWith.init rfl) rfl)))

theorem cancel_leaves_others_witness :
    ReachableWith threeSubscribersState [("p2", 2), ("p1", 1), ("p1", 0)] ∧
    threeSubscribersState.subscribers "p1" = some [0, 1] ∧
    threeSubscribersState.subscribers "p2" = some [2] ∧
    (rmSubscription threeSubscribersState "p1" 0).1 = Outcome.ok () ∧
    (rmSubscription threeSubscribersState "p1" 0).2.subscribers "p1" = some [1] ∧
    (rmSubscription threeSubscribersState "p1" 0).2.subscribers "p2" = some [2] ∧
    (rmSubscription threeSubscribersState "p1" 0).2.chans[0]? = some ⟨1, [], true⟩ ∧
    (rmSubscription threeSubscribersState "p1" 0).2.chans[1]? = some ⟨1, [], false⟩ ∧
    (rmSubscription threeSubscribersState "p1" 0).2.chans[2]? = some ⟨1, [], false⟩ ∧
    (AddComment (rmSubscription threeSubscribersState "p1" 0).2 "p1" none "hello" "c1"
      "t2").2.chans[1]? = some ⟨1, [0], false⟩ ∧
    (AddComment (rmSubscription threeSubscribersState "p1" 0).2 "p2" none "hello" "c1"
      "t2").2.chans[2]? = some ⟨1, [0], false⟩ := by
  have h := cancel_leaves_others threeSubscribersState_reachable "p1" 0 (by decide) [0, 1]
    (by decide) (by decide)
  obtain ⟨hok, hsubs, hother, _, hchans, _, hdeliver⟩ := h
  refine ⟨threeSubscribersState_reachable, by decide, by decide, hok, ?_, ?_, by decide, ?_, ?_,
    ?_, ?_⟩
  · rw [hsubs]; decide
  · rw [hother "p2" (by decide)]; decide
  · rw [hchans 1 (by decide)]; decide
  · rw [hchans 2 (by decide)]; decide
  · exact hdeliver "p1" none "hello" "c1" "t2" ⟨"c1", "p1", none, "hello", "t2", []⟩
      (by decide) [1] 1 ⟨1, [], false⟩ (by rw [hsubs]; decide) (by decide)
      (by rw [hchans 1 (by decide)]; decide) rfl
  · exact hdeliver "p2" none "hello" "c1" "t2" ⟨"c1", "p2", none, "hello", "t2", []⟩
      (by decide) [2] 2 ⟨1, [], false⟩ (by rw [hother "p2" (by decide)]; decide) (by decide)
      (by rw [hchans 2 (by decide)]; decide) rfl

/-! ## The comments form a forest; tree assembly terminates -/

/-- In a reachable state the parent link of a reply leads to a comment stored
before it that carries the parent id. -/
theorem parentAddr_lt {s : InMemoryStorage} (hc : CommentsInv s) (ht : TreeInv s)
    {a : Nat} {c : Comment} {pid : String} (ha : s.heap[a]? = some c)
    (hp : c.parentID = some pid) :
    ∃ b cb, parentAddr s a = some b ∧ b < a ∧ s.heap[b]? = some cb ∧ cb.id = pid := by
  obtain ⟨b, cb, hlt, hb, hid⟩ := hc.parent a c pid ha hp
  have hex : ∃ x, x ∈ s.heap ∧ (fun c0 : Comment => c0.id == pid) x = true :=
    ⟨cb, List.getElem?_mem hb, by simp [hid]⟩
  cases hf : s.heap.findIdx? (fun c0 => c0.id == pid) with
  | none =>
    rw [List.findIdx?_eq_none_iff] at hf
    obtain ⟨x, hx, hpx⟩ := hex
    exact absurd hpx (by simpa using hf x hx)
  | some i =>
    have h1 := List.findIdx?_of_eq_some hf
    cases hi : s.heap[i]? with
    | none => rw [hi] at h1; simp at h1
    | some ci =>
      rw [hi] at h1
      have hcid : ci.id = pid := by simpa using h1
      have hib : i = b := ht.uniq i b ci cb hi hb (by rw [hcid, hid])
      subst hib
      refine ⟨i, ci, ?_, hlt, hi, hcid⟩
      unfold parentAddr
      simp only [ha, hp, hf]

/-- From every stored comment of a reachable state the parent links reach a
top-level comment, in at most as many steps as the address of the comment. -/
theorem climb_reaches_top {s : InMemoryStorage} (hc : CommentsInv s) (ht : TreeInv s) :
    ∀ (a : Nat) (c : Comment), s.heap[a]? = some c →
      ∃ n b r, n ≤ a ∧ climb s n a = some b ∧ s.heap[b]? = some r ∧ r.parentID = none := by
  intro a
  induction a using Nat.strong_induction_on with
  | _ a ih =>
    intro c ha
    cases hp : c.parentID with
    | none => exact ⟨0, a, c, Nat.zero_le a, rfl, ha, hp⟩
    | some pid =>
      obtain ⟨b, cb, hpa, hlt, hb, _⟩ := parentAddr_lt hc ht ha hp
      obtain ⟨n, t, r, hn, hcl, hr, htop⟩ := ih b hlt cb hb
      refine ⟨n + 1, t, r, by omega, ?_, hr, htop⟩
      simp only [climb, hpa]
      exact hcl

/-- In a reachable state `GetCommentsTree` returns (a value, an error or a panic)
for every post id, limit and offset, once the recursion bound exceeds the number of
stored comments by two. -/
theorem GetCommentsTree_returns {s : InMemoryStorage} (hs : Reachable s) (postID : String)
    (limit offset : Int) (fuel : Nat) (hfuel : s.heap.length + 2 ≤ fuel) :
    ∃ r s1, GetCommentsTree s postID limit offset fuel = some (r, s1) := by
  obtain ⟨handles, hr⟩ := hs
  have ht := reachable_treeInv hr
  obtain ⟨_, hcomm, _⟩ := reachable_invariants hr
  unfold GetCommentsTree
  cases hflag : s.postsCommentsEnable postID with
  | none => exact ⟨_, _, rfl⟩
  | some b =>
    simp only
    cases hpc : s.commentsByPostAndParent postID with
    | none => exact ⟨_, _, rfl⟩
    | some pc =>
      simp only
      have hw := walk_of_invariants hcomm ht hpc
      have hroots : ∀ (m n : Nat), ∀ root ∈ (((pc rootKey).getD []).drop m).take n,
          ∃ r, s.heap[root]? = some r ∧ r.postID = postID := by
        intro m n root hroot
        have h1 : root ∈ (pc rootKey).getD [] :=
          List.mem_of_mem_drop (List.mem_of_mem_take hroot)
        obtain ⟨cx, hcx, _, hp⟩ := hw.agree rootKey root h1
        exact ⟨cx, hcx, hp⟩
      split
      · exact ⟨_, _, rfl⟩
      · split <;>
        · split
          · rename_i hcond
            obtain ⟨result, heap1, hrun, _⟩ :=
              copyRoots_walk pc postID _ fuel _ s.heap hw (hroots _ _) hfuel
            rw [hrun]
            exact ⟨_, _, rfl⟩
          · exact ⟨_, _, rfl⟩

/-- C15: the comments form a forest and tree assembly terminates.  In every
reachable state, following the parent links from any stored comment reaches a
top-level comment in finitely many steps (at most the address of the comment, as
each parent was stored earlier), and `GetCommentsTree` returns for every post id,
limit and offset once the recursion bound exceeds the number of stored comments
by two. -/
theorem comments_form_forest {s : InMemoryStorage} (hs : Reachable s) :
    (∀ (a : Nat) (c : Comment), s.heap[a]? = some c →
      ∃ n b r, n ≤ a ∧ climb s n a = some b ∧ s.heap[b]? = some r ∧ r.parentID = none) ∧
    (∀ (postID : String) (limit offset : Int) (fuel : Nat), s.heap.length + 2 ≤ fuel →
      ∃ r s1, GetCommentsTree s postID limit offset fuel = some (r, s1)) := by
  refine ⟨?_, fun postID limit offset fuel hfuel =>
    GetCommentsTree_returns hs postID limit offset fuel hfuel⟩
  obtain ⟨handles, hr⟩ := hs
  exact climb_reaches_top (reachable_invariants hr).2.1 (reachable_treeInv hr)

theorem comments_form_forest_witness :
    Reachable chainState ∧
    climb chainState 2 2 = some 0 ∧
    ∃ r s1, GetCommentsTree chainState "p1" 10 0 5 = some (r, s1) :=
  ⟨chainState_reachable, by decide,
    (comments_form_forest chainState_reachable).2 "p1" 10 0 5 (by decide)⟩

/-! ## The forest of a post, level by level -/

theorem mem_topLevel {s : InMemoryStorage} {p : String} {a : Nat} :
    a ∈ topLevel s p ↔ ∃ c, s.heap[a]? = some c ∧ c.postID = p ∧ c.parentID = none := by
  unfold topLevel
  rw [List.mem_filter, List.mem_range]
  constructor
  · rintro ⟨_, h⟩
    cases hc : s.heap[a]? with
    | none => rw [hc] at h; simp at h
    | some c =>
      rw [hc] at h
      simp only [Bool.and_eq_true, beq_iff_eq] at h
      exact ⟨c, rfl, h⟩
  · rintro ⟨c, hc, hp, hk⟩
    refine ⟨(List.getElem?_eq_some.1 hc).1, ?_⟩
    rw [hc]
    simp [hp, hk]

theorem mem_repliesTo {s : InMemoryStorage} {p id : String} {a : Nat} :
    a ∈ repliesTo s p id ↔
      ∃ c, s.heap[a]? = some c ∧ c.postID = p ∧ c.parentID = some id := by
  unfold repliesTo
  rw [List.mem_filter, List.mem_range]
  constructor
  · rintro ⟨_, h⟩
    cases hc : s.heap[a]? with
    | none => rw [hc] at h; simp at h
    | some c =>
      rw [hc] at h
      simp only [Bool.and_eq_true, beq_iff_eq] at h
      exact ⟨c, rfl, h⟩
  · rintro ⟨c, hc, hp, hk⟩
    refine ⟨(List.getElem?_eq_some.1 hc).1, ?_⟩
    rw [hc]
    simp [hp, hk]

theorem mem_kids {s : InMemoryStorage} {p : String} {a x : Nat} :
    a ∈ kids s p x ↔ ∃ cx c, s.heap[x]? = some cx ∧ s.heap[a]? = some c ∧ c.postID = p ∧
      c.parentID = some cx.id := by
  unfold kids
  cases hx : s.heap[x]? with
  | none => simp
  | some cx =>
    simp only [mem_repliesTo, Option.some.injEq]
    constructor
    · rintro ⟨c, h⟩; exact ⟨cx, c, rfl, h⟩
    · rintro ⟨cx1, c, h1, h⟩; subst h1; exact ⟨c, h⟩

theorem topLevel_sorted (s : InMemoryStorage) (p : String) :
    (topLevel s p).Pairwise (fun a b => a < b) :=
  (List.pairwise_lt_range _).filter _

theorem kids_sorted (s : InMemoryStorage) (p : String) (x : Nat) :
    (kids s p x).Pairwise (fun a b => a < b) := by
  unfold kids
  cases s.heap[x]? with
  | none => simp
  | some cx => exact (List.pairwise_lt_range _).filter _

theorem kids_nodup (s : InMemoryStorage) (p : String) (x : Nat) : (kids s p x).Nodup := by
  unfold kids
  cases s.heap[x]? with
  | none => simp
  | some cx => exact (List.nodup_range _).filter _

/-- In a reachable state a reply has one parent, stored before it. -/
theorem kids_parent {s : InMemoryStorage} (hc : CommentsInv s) (ht : TreeInv s) {p : String}
    {a x : Nat} (h : a ∈ kids s p x) : parentAddr s a = some x ∧ x < a := by
  obtain ⟨cx, c, hx, ha, _, hpar⟩ := mem_kids.1 h
  obtain ⟨b, cb, hpa, hlt, hb, hid⟩ := parentAddr_lt hc ht ha hpar
  have hbx : b = x := ht.uniq b x cb cx hb hx hid
  subst hbx
  exact ⟨hpa, hlt⟩

theorem level_bound {s : InMemoryStorage} (hc : CommentsInv s) (ht : TreeInv s) (p : String) :
    ∀ (k a : Nat), a ∈ level s p k → k ≤ a ∧ a < s.heap.length := by
  intro k
  induction k with
  | zero =>
    intro a ha
    obtain ⟨c, hca, _⟩ := mem_topLevel.1 ha
    exact ⟨Nat.zero_le _, (List.getElem?_eq_some.1 hca).1⟩
  | succ k ih =>
    intro a ha
    simp only [level, List.mem_flatMap] at ha
    obtain ⟨x, hx, hax⟩ := ha
    have h1 := (ih x hx).1
    have h2 := (kids_parent hc ht hax).2
    obtain ⟨_, c, _, hca, _⟩ := mem_kids.1 hax
    exact ⟨by omega, (List.getElem?_eq_some.1 hca).1⟩

theorem level_parent {s : InMemoryStorage} (hc : CommentsInv s) (ht : TreeInv s) (p : String) :
    (∀ a, a ∈ level s p 0 → parentAddr s a = none) ∧
    (∀ k a, a ∈ level s p (k + 1) → ∃ x, parentAddr s a = some x ∧ x ∈ level s p k) := by
  constructor
  · intro a ha
    obtain ⟨c, hca, _, hpar⟩ := mem_topLevel.1 ha
    unfold parentAddr
    simp only [hca, hpar]
  · intro k a ha
    simp only [level, List.mem_flatMap] at ha
    obtain ⟨x, hx, hax⟩ := ha
    exact ⟨x, (kids_parent hc ht hax).1, hx⟩

/-- A comment sits at one depth only. -/
theorem level_unique {s : InMemoryStorage} (hc : CommentsInv s) (ht : TreeInv s) (p : String) :
    ∀ (k j a : Nat), a ∈ level s p k → a ∈ level s p j → k = j := by
  obtain ⟨h0, h1⟩ := level_parent hc ht p
  intro k
  induction k with
  | zero =>
    intro j a ha hj
    cases j with
    | zero => rfl
    | succ j =>
      obtain ⟨x, hx, _⟩ := h1 j a hj
      rw [h0 a ha] at hx
      simp at hx
  | succ k ih =>
    intro j a ha hj
    obtain ⟨x, hx, hxl⟩ := h1 k a ha
    cases j with
    | zero =>
      rw [h0 a hj] at hx
      simp at hx
    | succ j =>
      obtain ⟨y, hy, hyl⟩ := h1 j a hj
      rw [hx] at hy
      rw [← Option.some.inj hy] at hyl
      rw [ih j x hxl hyl]

theorem level_nodup {s : InMemoryStorage} (hc : CommentsInv s) (ht : TreeInv s) (p : String) :
    ∀ k, (level s p k).Nodup := by
  intro k
  induction k with
  | zero => exact (List.nodup_range _).filter _
  | succ k ih =>
    simp only [level]
    rw [List.nodup_flatMap]
    refine ⟨fun x _ => kids_nodup s p x, ?_⟩
    apply ih.pairwise_of_forall_ne
    intro x _ y _ hxy
    simp only [Function.onFun]
    rw [List.disjoint_left]
    intro a hax hay
    have h1 := (kids_parent hc ht hax).1
    have h2 := (kids_parent hc ht hay).1
    rw [h1] at h2
    exact hxy (Option.some.inj h2)

theorem forestNodes_nodup {s : InMemoryStorage} (hc : CommentsInv s) (ht : TreeInv s)
    (p : String) : (forestNodes s p).Nodup := by
  unfold forestNodes
  rw [List.nodup_flatMap]
  refine ⟨fun k _ => level_nodup hc ht p k, ?_⟩
  apply (List.nodup_range _).pairwise_of_forall_ne
  intro k _ j _ hkj
  simp only [Function.onFun]
  rw [List.disjoint_left]
  intro a hak haj
  exact hkj (level_unique hc ht p k j a hak haj)

theorem mem_forestNodes {s : InMemoryStorage} (hc : CommentsInv s) (ht : TreeInv s)
    (p : String) (a : Nat) : a ∈ forestNodes s p ↔ ∃ k, a ∈ level s p k := by
  unfold forestNodes
  rw [List.mem_flatMap]
  constructor
  · rintro ⟨k, _, hk⟩; exact ⟨k, hk⟩
  · rintro ⟨k, hk⟩
    have := level_bound hc ht p k a hk
    exact ⟨k, List.mem_range.2 (by omega), hk⟩

theorem anchored_iff_level {s : InMemoryStorage} (p : String) (a : Nat) :
    Anchored s p a ↔ ∃ k, a ∈ level s p k := by
  constructor
  · intro h
    induction h with
    | top ha hp hpar => exact ⟨0, mem_topLevel.2 ⟨_, ha, hp, hpar⟩⟩
    | @reply a b c cb _ hb ha hp hpar ih =>
      obtain ⟨k, hk⟩ := ih
      refine ⟨k + 1, ?_⟩
      simp only [level, List.mem_flatMap]
      exact ⟨b, hk, mem_kids.2 ⟨cb, c, hb, ha, hp, hpar⟩⟩
  · rintro ⟨k, hk⟩
    induction k generalizing a with
    | zero =>
      obtain ⟨c, hca, hp, hpar⟩ := mem_topLevel.1 hk
      exact Anchored.top hca hp hpar
    | succ k ih =>
      simp only [level, List.mem_flatMap] at hk
      obtain ⟨x, hx, hax⟩ := hk
      obtain ⟨cx, c, hcx, hca, hp, hpar⟩ := mem_kids.1 hax
      exact Anchored.reply (ih x hx) hcx hca hp hpar

/-- When no reply on the post names a comment of another post, every comment of the
post is anchored. -/
theorem anchored_of_no_cross {s : InMemoryStorage} (hc : CommentsInv s) (p : String)
    (hno : ∀ (a b : Nat) (c cb : Comment), s.heap[a]? = some c → c.postID = p →
      s.heap[b]? = some cb → c.parentID = some cb.id → cb.postID = p) :
    ∀ (a : Nat) (c : Comment), s.heap[a]? = some c → c.postID = p → Anchored s p a := by
  intro a
  induction a using Nat.strong_induction_on with
  | _ a ih =>
    intro c ha hp
    cases hpar : c.parentID with
    | none => exact Anchored.top ha hp hpar
    | some pid =>
      obtain ⟨b, cb, hlt, hb, hid⟩ := hc.parent a c pid ha hpar
      have hpb : cb.postID = p := hno a b c cb ha hp hb (by rw [hpar, hid])
      exact Anchored.reply (ih b hlt cb hb hpb) hb ha hp (by rw [hpar, hid])

theorem flatMap_kids_skeleton (s : InMemoryStorage) (p : String) :
    ∀ l : List Nat,
      (l.filterMap (fun a => (s.heap[a]?).map Comment.skeleton)).flatMap
          (fun sk => repliesTo s p sk.1)
        = l.flatMap (kids s p) := by
  intro l
  induction l with
  | nil => rfl
  | cons a l ih =>
    rw [List.flatMap_cons, ← ih]
    unfold kids
    cases ha : s.heap[a]? with
    | none => simp [List.filterMap_cons, ha]
    | some c => simp [List.filterMap_cons, ha, Comment.skeleton]

/-- The forest returned for a whole post, read depth by depth.  In a reachable state,
for a stored post, `offset = 0` and a `limit` of at least the number of top-level
comments, the returned roots are copies of the comments of depth 0 and the
addresses reached from them by following `replies` `k + 1` times are the comments
of depth `k + 1`, in the same order. -/
theorem getCommentsTree_levels {s : InMemoryStorage} (hs : Reachable s) (postID : String)
    (hp : ∃ p ∈ s.posts, p.id = postID) (limit : Int)
    (hN : ((topLevel s postID).length : Int) ≤ limit) (h32 : limit ≤ 2147483647)
    (fuel : Nat) (hfuel : s.heap.length + 2 ≤ fuel) :
    ∃ result heap1,
      GetCommentsTree s postID limit 0 fuel
        = some (Outcome.ok result, { s with heap := heap1 }) ∧
      result.map Comment.skeleton
        = (level s postID 0).filterMap (fun a => (s.heap[a]?).map Comment.skeleton) ∧
      ∀ k, depthNodes heap1 k (result.flatMap (fun c => c.replies))
        = level s postID (k + 1) := by
  have hl : (0 : Int) ≤ limit := by omega
  obtain ⟨result, heap1, hrun, hsk, hres, hforest⟩ :=
    getCommentsTree_in_range hs postID hp limit 0 hl (Int.le_refl 0) (by omega) fuel hfuel
  have hwin : ((topLevel s postID).drop (0 : Int).toNat).take limit.toNat
      = topLevel s postID := by
    simp only [Int.toNat_zero, List.drop_zero]
    exact List.take_of_length_le (by omega)
  rw [hwin] at hres
  refine ⟨result, heap1, hrun, hres, ?_⟩
  -- the replies of the roots are the comments of depth 1
  have hroots : result.flatMap (fun c => c.replies) = level s postID 1 := by
    have h1 : result.flatMap (fun c => c.replies)
        = result.flatMap (fun c => repliesTo s postID c.id) :=
      List.flatMap_congr (fun c hc => (hforest c (InForest.root hc)).2)
    have h2 : result.flatMap (fun c => repliesTo s postID c.id)
        = (result.map Comment.skeleton).flatMap (fun sk => repliesTo s postID sk.1) := by
      rw [List.flatMap_map]
      rfl
    rw [h1, h2, hres, flatMap_kids_skeleton]
    rfl
  -- the object at an address has the id of the stored comment
  have hcell : ∀ (a : Nat) (c : Comment), s.heap[a]? = some c →
      ∃ c1 : Comment, heap1[a]? = some c1 ∧ c1.id = c.id := by
    intro a c hc
    obtain ⟨c1, hc1, hsk1⟩ := skeleton_getElem? hsk.symm hc
    have := congrArg Prod.fst hsk1
    simp only [Comment.skeleton] at this
    exact ⟨c1, hc1, this⟩
  -- every comment below depth 0 is a node of the returned forest
  have hnode : ∀ k a, a ∈ level s postID (k + 1) →
      ∃ c1, heap1[a]? = some c1 ∧ InForest heap1 result c1 := by
    intro k
    induction k with
    | zero =>
      intro a ha
      simp only [level, List.mem_flatMap] at ha
      obtain ⟨x, hx, hax⟩ := ha
      obtain ⟨cx, c, hcx, hca, _, hpar⟩ := mem_kids.1 hax
      have hskx : cx.skeleton ∈ result.map Comment.skeleton := by
        rw [hres, List.mem_filterMap]
        exact ⟨x, hx, by rw [hcx]; rfl⟩
      obtain ⟨r, hr, hrsk⟩ := List.mem_map.1 hskx
      have hrid : r.id = cx.id := by
        have := congrArg Prod.fst hrsk
        simpa [Comment.skeleton] using this
      obtain ⟨c1, hc1, _⟩ := hcell a c hca
      refine ⟨c1, hc1, InForest.reply (InForest.root hr) ?_ hc1⟩
      rw [(hforest r (InForest.root hr)).2, hrid]
      exact mem_repliesTo.2 ⟨c, hca, by
        obtain ⟨_, _, _, hca2, hp2, _⟩ := mem_kids.1 hax
        rw [hca] at hca2
        rw [Option.some.inj hca2]; exact hp2, hpar⟩
    | succ k ih =>
      intro a ha
      have ha1 := ha
      simp only [level, List.mem_flatMap] at ha1
      obtain ⟨x, hx, hax⟩ := ha1
      have hx1 : x ∈ level s postID (k + 1) := by
        simp only [level, List.mem_flatMap]; exact hx
      obtain ⟨cx1, hcx1, hin⟩ := ih x hx1
      obtain ⟨cx, c, hcx, hca, hpc, hpar⟩ := mem_kids.1 hax
      obtain ⟨cx2, hcx2, hid2⟩ := hcell x cx hcx
      rw [hcx1] at hcx2
      have hidx : cx1.id = cx.id := by rw [Option.some.inj hcx2]; exact hid2
      obtain ⟨c1, hc1, _⟩ := hcell a c hca
      refine ⟨c1, hc1, InForest.reply hin ?_ hc1⟩
      rw [(hforest cx1 hin).2, hidx]
      exact mem_repliesTo.2 ⟨c, hca, hpc, hpar⟩
  have hrep : ∀ k a, a ∈ level s postID (k + 1) → repliesAt heap1 a = kids s postID a := by
    intro k a ha
    obtain ⟨c1, hc1, hin⟩ := hnode k a ha
    obtain ⟨handles, hr⟩ := hs
    have hb := level_bound (reachable_invariants hr).2.1 (reachable_treeInv hr) postID _ a ha
    have hget : s.heap[a]? = some s.heap[a] := List.getElem?_eq_getElem hb.2
    obtain ⟨c2, hc2, hid2⟩ := hcell a _ hget
    rw [hc1] at hc2
    unfold repliesAt kids
    rw [hc1, hget]
    simp only
    rw [(hforest c1 hin).2, Option.some.inj hc2, hid2]
  have hdepth : ∀ k j, depthNodes heap1 k (level s postID (j + 1))
      = level s postID (k + (j + 1)) := by
    intro k
    induction k with
    | zero => intro j; simp [depthNodes]
    | succ k ih =>
      intro j
      simp only [depthNodes]
      have : (level s postID (j + 1)).flatMap (repliesAt heap1)
          = level s postID (j + 1 + 1) := by
        show _ = (level s postID (j + 1)).flatMap (kids s postID)
        exact List.flatMap_congr (fun a ha => hrep j a ha)
      rw [this, ih (j + 1)]
      congr 1
      omega
  intro k
  rw [hroots]
  exact hdepth k 0

/-- C14, as the store behaves: no write within the post is lost.  In a reachable
state, for a stored post, `GetCommentsTree` with `offset = 0` and a `limit` of at
least the number of its top-level comments returns a forest whose roots are copies
of the comments of depth 0 and whose nodes at depth `k + 1` are the comments of
depth `k + 1`, in creation order.  Over all depths these nodes are pairwise
distinct, with pairwise distinct ids, and they are exactly the anchored comments
of the post: the top-level ones and the replies, direct or through a chain within
the post, to them.  So when no reply stored on the post names a comment of another
post, the forest has exactly as many nodes as there are stored comments of the
post, each once.  Siblings and top-level comments are in increasing address, that
is in the order the `AddComment` calls completed. -/
theorem no_lost_writes {s : InMemoryStorage} (hs : Reachable s) (postID : String)
    (hp : ∃ p ∈ s.posts, p.id = postID) (limit : Int)
    (hN : ((topLevel s postID).length : Int) ≤ limit) (h32 : limit ≤ 2147483647)
    (fuel : Nat) (hfuel : s.heap.length + 2 ≤ fuel) :
    (∃ result heap1,
      GetCommentsTree s postID limit 0 fuel
        = some (Outcome.ok result, { s with heap := heap1 }) ∧
      result.map Comment.skeleton
        = (level s postID 0).filterMap (fun a => (s.heap[a]?).map Comment.skeleton) ∧
      ∀ k, depthNodes heap1 k (result.flatMap (fun c => c.replies))
        = level s postID (k + 1)) ∧
    (∀ k, s.heap.length ≤ k → level s postID k = []) ∧
    (forestNodes s postID).Nodup ∧
    ((forestNodes s postID).filterMap (fun a => (s.heap[a]?).map (fun c => c.id))).Nodup ∧
    (∀ a, a ∈ forestNodes s postID ↔ Anchored s postID a) ∧
    ((∀ (a b : Nat) (c cb : Comment), s.heap[a]? = some c → c.postID = postID →
        s.heap[b]? = some cb → c.parentID = some cb.id → cb.postID = postID) →
      (forestNodes s postID).length
        = ((List.range s.heap.length).filter (fun a =>
            match s.heap[a]? with
            | some c => c.postID == postID
            | none => false)).length) ∧
    (topLevel s postID).Pairwise (fun a b => a < b) ∧
    (∀ x, (kids s postID x).Pairwise (fun a b => a < b)) := by
  have hlev := getCommentsTree_levels hs postID hp limit hN h32 fuel hfuel
  obtain ⟨handles, hr⟩ := hs
  have ht := reachable_treeInv hr
  have hc := (reachable_invariants hr).2.1
  have hnd := forestNodes_nodup hc ht postID
  refine ⟨hlev, ?_, hnd, ?_, ?_, ?_, topLevel_sorted s postID, kids_sorted s postID⟩
  · intro k hk
    apply List.eq_nil_iff_forall_not_mem.2
    intro a ha
    have := level_bound hc ht postID k a ha
    omega
  · apply hnd.filterMap
    intro a b id ha hb
    simp only [Option.mem_def, Option.map_eq_some'] at ha hb
    obtain ⟨ca, hca, hida⟩ := ha
    obtain ⟨cb, hcb, hidb⟩ := hb
    exact ht.uniq a b ca cb hca hcb (by rw [hida, hidb])
  · intro a
    rw [mem_forestNodes hc ht, anchored_iff_level]
  · intro hno
    apply List.Perm.length_eq
    apply (List.perm_ext_iff_of_nodup hnd ((List.nodup_range _).filter _)).2
    intro a
    rw [mem_forestNodes hc ht, ← anchored_iff_level, List.mem_filter, List.mem_range]
    constructor
    · intro ha
      obtain ⟨k, hk⟩ := (anchored_iff_level postID a).1 ha
      have hb := level_bound hc ht postID k a hk
      refine ⟨hb.2, ?_⟩
      cases ha with
      | top hca hpc _ => rw [hca]; simp [hpc]
      | reply _ _ hca hpc _ => rw [hca]; simp [hpc]
    · rintro ⟨_, hpa⟩
      cases hca : s.heap[a]? with
      | none => rw [hca] at hpa; simp at hpa
      | some c =>
        rw [hca] at hpa
        exact anchored_of_no_cross hc postID hno a c hca (by simpa using hpa)

theorem crossPostState_reachable : Reachable crossPostState :=
  ⟨[], ReachableWith.addComment "p2" (some "c1") "reply" "c2" "t3"
    (ReachableWith.addComment "p1" none "on the first post" "c1" "t2"
      (ReachableWith.newPost "second" true "p2" "t1"
        (ReachableWith.newPost "first" true "p1" "t0" ReachableWith.init rfl) rfl)
      (by decide) rfl)
    (by decide) (by decide)⟩

theorem no_lost_writes_witness :
    Reachable threadState ∧ (∃ p ∈ threadState.posts, p.id = "p1") ∧
    ((topLevel threadState "p1").length : Int) ≤ 10 ∧ (10 : Int) ≤ 2147483647 ∧
    threadState.heap.length + 2 ≤ 6 ∧
    forestNodes threadState "p1" = [0, 1, 2, 3] ∧
    (forestNodes threadState "p1").Nodup :=
  ⟨threadState_reachable, by decide, by decide, by decide, by decide, by decide,
    (no_lost_writes threadState_reachable "p1" (by decide) 10 (by decide) (by decide) 6
      (by decide)).2.2.1⟩

/-- C14 fails as stated: one `AddComment` on post `p2` succeeded (its parent is a
comment of post `p1`), the comment is stored, yet `GetCommentsTree "p2" 10 0`
returns the empty forest. -/
theorem cross_post_reply_is_lost :
    Reachable crossPostState ∧
    (AddComment twoPostsState "p2" (some "c1") "reply" "c2" "t3").1
      = Outcome.ok ⟨"c2", "p2", some "c1", "reply", "t3", []⟩ ∧
    crossPostState.heap.filter (fun c => c.postID == "p2")
      = [⟨"c2", "p2", some "c1", "reply", "t3", []⟩] ∧
    ∀ fuel, GetCommentsTree crossPostState "p2" 10 0 fuel
      = some (Outcome.ok [], crossPostState) :=
  ⟨crossPostState_reachable, by decide, by decide, fun _ => rfl⟩
/-! ## Durable store: tree assembly -/

theorem mapM_option_map {α β : Type} (f : α → Option β) (g : α → β) :
    ∀ l : List α, (∀ x ∈ l, f x = some (g x)) → l.mapM f = some (l.map g) := by
  intro l
  induction l with
  | nil => intro _; rfl
  | cons a l ih =>
    intro h
    rw [List.mapM_cons, h a (List.mem_cons_self _ _),
      ih (fun x hx => h x (List.mem_cons_of_mem _ hx))]
    rfl

theorem filterMap_eq_map {α β : Type} (f : α → Option β) (g : α → β) :
    ∀ l : List α, (∀ x ∈ l, f x = some (g x)) → l.filterMap f = l.map g := by
  intro l
  induction l with
  | nil => intro _; rfl
  | cons a l ih =>
    intro h
    rw [List.filterMap_cons, h a (List.mem_cons_self _ _), List.map_cons,
      ih (fun x hx => h x (List.mem_cons_of_mem _ hx))]

/-- Selecting addresses by a test on the object and reading the objects is filtering
the heap. -/
theorem map_filter_range {β : Type} (q : Comment → Bool) (f : Comment → β) (d : Comment) :
    ∀ h : List Comment,
      ((List.range h.length).filter (fun a =>
          match h[a]? with
          | some c => q c
          | none => false)).map (fun a => f ((h[a]?).getD d))
        = (h.filter q).map f := by
  intro h
  induction h using List.reverseRecOn with
  | nil => rfl
  | append_singleton l c ih =>
    rw [List.length_append, List.length_singleton, List.range_succ, List.filter_append,
      List.map_append, List.filter_append, List.map_append]
    congr 1
    · rw [← ih]
      have hfil : (List.range l.length).filter (fun a =>
            match (l ++ [c])[a]? with
            | some c => q c
            | none => false)
          = (List.range l.length).filter (fun a =>
            match l[a]? with
            | some c => q c
            | none => false) := by
        apply List.filter_congr
        intro a ha
        rw [List.getElem?_append_left (List.mem_range.1 ha)]
      rw [hfil]
      apply List.map_congr_left
      intro a ha
      have hlt : a < l.length := List.mem_range.1 (List.mem_filter.1 ha).1
      rw [List.getElem?_append_left hlt]
    · have hget : (l ++ [c])[l.length]? = some c := by
        rw [List.getElem?_append_right (Nat.le_refl _)]; simp
      cases hq : q c <;> simp [hget, hq]

theorem rowAt_of_getElem? {heap : List Comment} {a : Nat} {c : Comment}
    (h : heap[a]? = some c) : rowAt heap a = c.row := by
  simp [rowAt, h]

theorem row_of_skeleton {c c0 : Comment} (h : c0.skeleton = c.skeleton) : c0.row = c.row := by
  simp only [Comment.skeleton, Prod.mk.injEq] at h
  simp only [Comment.row, h.1, h.2.1, h.2.2.1, h.2.2.2.1, h.2.2.2.2]

theorem rowAt_of_skeleton {h h0 : List Comment}
    (hs : h.map Comment.skeleton = h0.map Comment.skeleton) (a : Nat) :
    rowAt h a = rowAt h0 a := by
  cases ha : h[a]? with
  | some c =>
    obtain ⟨c0, hc0, hsk0⟩ := skeleton_getElem? hs ha
    rw [rowAt_of_getElem? ha, rowAt_of_getElem? hc0, row_of_skeleton hsk0]
  | none =>
    have hlen : h.length = h0.length := by
      have := congrArg List.length hs
      simpa using this
    have h0a : h0[a]? = none := by
      rw [List.getElem?_eq_none_iff] at ha ⊢
      omega
    simp [rowAt, ha, h0a]

@[simp] theorem row_scan (r : Row) : r.scan.row = r := rfl

namespace Postgres

theorem scanRows_append (r : Row) :
    ∀ (l : List Row) (addr : Nat) (m : GoMap (List Nat)) (roots : List Nat),
      scanRows (l ++ [r]) addr m roots =
        match r.parentID with
        | some parent =>
          ((scanRows l addr m roots).1.insert parent
              (((scanRows l addr m roots).1 parent).getD [] ++ [addr + l.length]),
            (scanRows l addr m roots).2)
        | none => ((scanRows l addr m roots).1, (scanRows l addr m roots).2 ++ [addr + l.length]) := by
  intro l
  induction l with
  | nil =>
    intro addr m roots
    cases hp : r.parentID <;> simp [scanRows, hp]
  | cons x l ih =>
    intro addr m roots
    have hlen : addr + (x :: l).length = addr + 1 + l.length := by
      simp only [List.length_cons]; omega
    rw [hlen]
    cases hx : x.parentID with
    | none =>
      simp only [List.cons_append, scanRows, hx]
      exact ih (addr + 1) m (roots ++ [addr])
    | some parent =>
      simp only [List.cons_append, scanRows, hx]
      exact ih (addr + 1) _ roots

/-- What the loop over the rows builds: the root list holds the addresses of the rows
without parent, the bucket of `k` the addresses of the rows with parent `k`, both in
the order of the rows. -/
theorem scanRows_spec :
    ∀ rows : List Row,
      (scanRows rows 0 GoMap.empty []).2
          = (List.range rows.length).filter (fun a =>
              match (rows.map Row.scan)[a]? with
              | some c => c.parentID == none
              | none => false) ∧
      ∀ k, ((scanRows rows 0 GoMap.empty []).1 k).getD []
          = (List.range rows.length).filter (fun a =>
              match (rows.map Row.scan)[a]? with
              | some c => c.parentID == some k
              | none => false) := by
  intro rows
  induction rows using List.reverseRecOn with
  | nil => exact ⟨rfl, fun _ => rfl⟩
  | append_singleton l r ih =>
    obtain ⟨ih2, ih1⟩ := ih
    have hold : ∀ (q : Comment → Bool), (List.range l.length).filter (fun a =>
          match ((l ++ [r]).map Row.scan)[a]? with
          | some c => q c
          | none => false)
        = (List.range l.length).filter (fun a =>
          match (l.map Row.scan)[a]? with
          | some c => q c
          | none => false) := by
      intro q
      apply List.filter_congr
      intro a ha
      rw [List.map_append, List.getElem?_append_left (by simpa using List.mem_range.1 ha)]
    have hget : ((l ++ [r]).map Row.scan)[l.length]? = some r.scan := by
      rw [List.map_append, List.getElem?_append_right (by simp)]; simp
    rw [scanRows_append, List.length_append, List.length_singleton, List.range_succ]
    simp only [List.filter_append, hold, Nat.zero_add]
    cases hp : r.parentID with
    | none =>
      refine ⟨?_, ?_⟩
      · simp [hget, Row.scan, hp, ih2]
      · intro k
        simp [hget, Row.scan, hp, ih1 k]
    | some parent =>
      refine ⟨?_, ?_⟩
      · simp [hget, Row.scan, hp, ih2]
      · intro k
        by_cases hk : k = parent
        · subst hk
          simp [hget, Row.scan, hp, ih1 k]
        · have : ¬ parent = k := fun h => hk h.symm
          simp only []
          rw [goMap_insert_other _ _ hk, ih1 k]
          simp [hget, Row.scan, hp, this]

end Postgres

/-- The rows of a post in a reachable state: parents come before their replies. -/
theorem rowsOf_inv {s : InMemoryStorage} (hs : Reachable s) (postID : String) :
    RowsInv postID (rowsOf s postID) := by
  obtain ⟨handles, hr⟩ := hs
  have ht := reachable_treeInv hr
  have hc := (reachable_invariants hr).2.1
  have hheap : s.heap.Pairwise (fun earlier later => earlier.parentID ≠ some later.id) := by
    rw [List.pairwise_iff_getElem]
    intro i j hi hj hij hpar
    obtain ⟨b, c0, hb, hc0, hid⟩ := hc.parent i s.heap[i] s.heap[j].id
      (List.getElem?_eq_getElem hi) hpar
    have := ht.uniq b j c0 s.heap[j] hc0 (List.getElem?_eq_getElem hj) hid
    omega
  have hself : ∀ c ∈ s.heap, c.parentID ≠ some c.id := by
    intro c hcm hpar
    obtain ⟨a, ha⟩ := List.getElem?_of_mem hcm
    obtain ⟨b, c0, hb, hc0, hid⟩ := hc.parent a c c.id ha hpar
    have := ht.uniq b a c0 c hc0 ha hid
    omega
  constructor
  · intro r hrm
    simp only [rowsOf, List.mem_map, List.mem_filter] at hrm
    obtain ⟨c, ⟨_, hcp⟩, rfl⟩ := hrm
    simpa [Comment.row] using hcp
  · unfold rowsOf
    rw [List.pairwise_map]
    exact (hheap.filter _)
  · intro r hrm
    simp only [rowsOf, List.mem_map, List.mem_filter] at hrm
    obtain ⟨c, ⟨hcm, _⟩, rfl⟩ := hrm
    exact hself c hcm

theorem scan_getElem? {rows : List Row} {a : Nat} {c : Comment}
    (h : (rows.map Row.scan)[a]? = some c) : ∃ r, rows[a]? = some r ∧ c = r.scan := by
  rw [List.getElem?_map] at h
  cases hr : rows[a]? with
  | none => rw [hr] at h; simp at h
  | some r =>
    rw [hr] at h
    exact ⟨r, rfl, (Option.some.inj h).symm⟩

namespace Postgres

theorem mem_bucket {rows : List Row} {k : String} {x : Nat} :
    x ∈ ((scanRows rows 0 GoMap.empty []).1 k).getD [] ↔
      ∃ r, rows[x]? = some r ∧ r.parentID = some k := by
  rw [(scanRows_spec rows).2 k, List.mem_filter, List.mem_range]
  constructor
  · rintro ⟨_, h⟩
    cases hc : (rows.map Row.scan)[x]? with
    | none => rw [hc] at h; simp at h
    | some c =>
      rw [hc] at h
      obtain ⟨r, hr, rfl⟩ := scan_getElem? hc
      exact ⟨r, hr, by simpa [Row.scan] using h⟩
  · rintro ⟨r, hr, hp⟩
    refine ⟨(List.getElem?_eq_some.1 hr).1, ?_⟩
    simp [List.getElem?_map, hr, Row.scan, hp]

/-- The heap of the scanned rows supports the walk over the by-parent buckets. -/
theorem walk_of_rows {postID : String} {rows : List Row} (hinv : RowsInv postID rows) :
    Walk (scanRows rows 0 GoMap.empty []).1 postID
      (fun a => ((rows.map Row.scan)[a]?).map (fun c => c.id))
      (fun b => rows.length - b) (rows.map Row.scan) := by
  constructor
  · intro k x hx
    obtain ⟨r, hr, _⟩ := mem_bucket.1 hx
    refine ⟨r.scan, by simp [List.getElem?_map, hr], by simp [List.getElem?_map, hr], ?_⟩
    exact hinv.post r (List.getElem?_mem hr)
  · intro b cb hcb x hx
    obtain ⟨rb, hrb, rfl⟩ := scan_getElem? hcb
    obtain ⟨rx, hrx, hpar⟩ := mem_bucket.1 hx
    have hb := (List.getElem?_eq_some.1 hrb)
    have hx1 := (List.getElem?_eq_some.1 hrx)
    obtain ⟨hbl, hbe⟩ := hb
    obtain ⟨hxl, hxe⟩ := hx1
    have hlt : b < x := by
      by_contra hge
      rcases Nat.lt_or_ge x b with hxb | hxb
      · have := (List.pairwise_iff_getElem.1 hinv.order) x b hxl hbl hxb
        rw [hxe, hbe] at this
        exact this hpar
      · have hbx : b = x := by omega
        subst hbx
        rw [hrb] at hrx
        have hrr := Option.some.inj hrx
        subst hrr
        exact hinv.self rb (List.getElem?_mem hrb) hpar
    have : x < rows.length := hxl
    show rows.length - x < rows.length - b
    omega
  · intro b c hc _ _
    obtain ⟨r, _, rfl⟩ := scan_getElem? hc
    rfl

end Postgres

/-- The loop over selected roots that are objects of the heap. -/
theorem attachRoots_walk (pc : GoMap (List Nat)) (p : String) (ids : Nat → Option String)
    (rank : Nat → Nat) (fuel : Nat) :
    ∀ (l : List Nat) (h2 : List Comment), Walk pc p ids rank h2 →
      (∀ x ∈ l, ∃ cx, h2[x]? = some cx ∧ ids x = some cx.id ∧ cx.postID = p ∧ rank x < fuel) →
      ∃ h3, l.foldlM (fun h root => attachChildren pc fuel h root) h2 = some h3 ∧
        h3.map Comment.skeleton = h2.map Comment.skeleton ∧ SameOrGood pc h2 h3 ∧
        ∀ x ∈ l, ∀ b, Below pc ids x b → GoodAt pc h3 b := by
  intro l
  induction l with
  | nil =>
    intro h2 _ _
    exact ⟨h2, rfl, rfl, sameOrGood_refl pc h2, by simp⟩
  | cons x l ih =>
    intro h2 hw hl
    obtain ⟨cx, hcx, hidx, hpx, hxr⟩ := hl x (List.mem_cons_self _ _)
    obtain ⟨h2a, hrun, hsk, hsg, hgx, hbelow⟩ :=
      attachChildren_walk pc p ids rank fuel h2 x cx hw hcx hpx hxr
    have hw2 := walk_transport hw hsk hsg
    obtain ⟨h3, hrun3, hsk3, hsg3, hrest⟩ := ih h2a hw2 (by
      intro y hy
      obtain ⟨cy, hcy, hidy, hpy, hyr⟩ := hl y (List.mem_cons_of_mem _ hy)
      obtain ⟨c1, hc1, hsk1⟩ := skeleton_getElem? hsk.symm hcy
      simp only [Comment.skeleton, Prod.mk.injEq] at hsk1
      exact ⟨c1, hc1, by rw [hsk1.1]; exact hidy, by rw [hsk1.2.1]; exact hpy, hyr⟩)
    refine ⟨h3, ?_, hsk3.trans hsk, sameOrGood_trans hsg hsg3, ?_⟩
    · rw [List.foldlM_cons, hrun]; exact hrun3
    · intro y hy b hb
      rcases List.mem_cons.1 hy with hyx | hyl
      · subst hyx
        exact goodAt_of_sameOrGood (below_of_children hidx hgx hbelow b hb) hsg3
      · exact hrest y hyl b hb

/-- Reading a node whose replies, and the replies of everything below, are the ones
the index prescribes gives the tree the flat list of rows prescribes. -/
theorem readTree_rowTree {pc : GoMap (List Nat)} {p : String} {ids : Nat → Option String}
    {rank : Nat → Nat} {h : List Comment} {rows : List Row} (hw : Walk pc p ids rank h)
    (hids : ∀ a i, ids a = some i → ∃ c, h[a]? = some c ∧ c.id = i)
    (hcorr : ∀ a i, ids a = some i →
      ((pc i).getD []).map (rowAt h) = rows.filter (fun r => r.parentID == some i)) :
    ∀ (n a : Nat) (c : Comment), ids a = some c.id → rank a ≤ n →
      c.replies = indexed pc c →
      (∀ x ∈ c.replies, ∀ b, Below pc ids x b → GoodAt pc h b) →
      readTree h (n + 1) c = some (rowTree rows n c.row) := by
  intro n
  induction n with
  | zero =>
    intro a c hid hrank hrep _
    obtain ⟨cb, hcb, hcbid⟩ := hids a c.id hid
    have hempty : c.replies = [] := by
      rw [hrep, indexed, List.eq_nil_iff_forall_not_mem]
      intro x hx
      rw [← hcbid] at hx
      have := hw.drops a cb hcb x hx
      omega
    unfold readTree
    rw [hempty, List.mapM_nil]
    rfl
  | succ n ih =>
    intro a c hid hrank hrep hbelow
    obtain ⟨cb, hcb, hcbid⟩ := hids a c.id hid
    have hkids : c.replies.mapM (fun x =>
          match h[x]? with
          | none => none
          | some child => readTree h (n + 1) child)
        = some (c.replies.map (fun x => rowTree rows n (rowAt h x))) := by
      apply mapM_option_map
      intro x hx
      have hx1 : x ∈ (pc c.id).getD [] := by rw [hrep] at hx; exact hx
      obtain ⟨cx, hcx, hidx, _⟩ := hw.agree c.id x hx1
      have hrx : rank x < rank a := by
        rw [← hcbid] at hx1
        exact hw.drops a cb hcb x hx1
      have hgx : GoodAt pc h x := hbelow x hx x (Below.here x)
      simp only [hcx, rowAt_of_getElem? hcx]
      apply ih x cx hidx (by omega) (hgx cx hcx)
      intro y hy b hb
      rw [hgx cx hcx] at hy
      exact hbelow x hx b (Below.step hidx hy hb)
    have hspec : rowTree rows (n + 1) c.row
        = Tree.node c.id c.postID c.parentID c.text c.createdAt
            ((rows.filter (fun x => x.parentID == some c.id)).map (rowTree rows n)) := rfl
    unfold readTree
    simp only [hkids]
    rw [hspec, ← hcorr a c.id hid, List.map_map, hrep]
    rfl

/-- The rows of the comments of a post selected by their parent. -/
theorem rows_filter (heap : List Comment) (p : String) (q : Option String → Bool) :
    ((List.range heap.length).filter (fun a =>
        match heap[a]? with
        | some c => c.postID == p && q c.parentID
        | none => false)).map (rowAt heap)
      = ((heap.filter (fun c => c.postID == p)).map Comment.row).filter
          (fun r => q r.parentID) := by
  have h1 := map_filter_range (fun c => c.postID == p && q c.parentID) Comment.row
    ⟨"", "", none, "", "", []⟩ heap
  have h2 : (fun a => Comment.row ((heap[a]?).getD ⟨"", "", none, "", "", []⟩)) = rowAt heap := rfl
  rw [h2] at h1
  rw [h1, List.filter_map, List.filter_filter]
  congr 1
  apply List.filter_congr
  intro c _
  simp [Comment.row, Bool.and_comm]

/-- The scanned rows selected by their parent. -/
theorem scan_filter (rows : List Row) (q : Option String → Bool) :
    ((List.range rows.length).filter (fun a =>
        match (rows.map Row.scan)[a]? with
        | some c => q c.parentID
        | none => false)).map (rowAt (rows.map Row.scan))
      = rows.filter (fun r => q r.parentID) := by
  have h1 := map_filter_range (fun c => q c.parentID) Comment.row
    ⟨"", "", none, "", "", []⟩ (rows.map Row.scan)
  have h2 : (fun a => Comment.row (((rows.map Row.scan)[a]?).getD ⟨"", "", none, "", "", []⟩))
      = rowAt (rows.map Row.scan) := rfl
  rw [h2, List.length_map] at h1
  rw [h1, List.filter_map, List.map_map]
  have h3 : Comment.row ∘ Row.scan = id := by funext r; rfl
  rw [h3, List.map_id]
  apply List.filter_congr
  intro r _
  rfl

theorem map_row_of_skeleton {result : List Comment} {heap : List Comment} {window : List Nat}
    (hres : result.map Comment.skeleton
      = window.filterMap (fun a => (heap[a]?).map Comment.skeleton))
    (hvalid : ∀ a ∈ window, ∃ r, heap[a]? = some r) :
    result.map Comment.row = window.map (rowAt heap) := by
  have hrow : Comment.row
      = (fun t : String × String × Option String × String × String =>
          (⟨t.1, t.2.1, t.2.2.1, t.2.2.2.1, t.2.2.2.2⟩ : Row)) ∘ Comment.skeleton := by
    funext c; rfl
  rw [hrow, ← List.map_map, hres,
    filterMap_eq_map _ (fun a => ((heap[a]?).getD ⟨"", "", none, "", "", []⟩).skeleton) window
      (by
        intro a ha
        obtain ⟨r, hr⟩ := hvalid a ha
        simp [hr]),
    List.map_map]
  rfl

theorem readForest_nil (heap : List Comment) (fuel : Nat) : readForest heap fuel [] = some [] := rfl

/-- The forest `GetCommentsTree` returns, read out: on arguments whose sum fits in 32
bits it is the forest the rows of the post prescribe below the selected top-level
rows. -/
theorem getCommentsTree_rowForest {s : InMemoryStorage} (hs : Reachable s) (postID : String)
    (hp : ∃ p ∈ s.posts, p.id = postID) (limit offset : Int) (hl : 0 ≤ limit)
    (ho : 0 ≤ offset) (hsum : offset + limit ≤ 2147483647) (fuel : Nat)
    (hfuel : s.heap.length + 2 ≤ fuel) :
    ∃ result heap1,
      GetCommentsTree s postID limit offset fuel
        = some (Outcome.ok result, { s with heap := heap1 }) ∧
      readForest heap1 fuel result
        = some (((((rowsOf s postID).filter (fun r => r.parentID == none)).drop
            offset.toNat).take limit.toNat).map (rowTree (rowsOf s postID) (fuel - 1))) := by
  have htop := bucket_root_eq_topLevel hs postID
  have htoprows : (topLevel s postID).map (rowAt s.heap)
      = (rowsOf s postID).filter (fun r => r.parentID == none) :=
    rows_filter s.heap postID (fun x => x == none)
  obtain ⟨handles, hr⟩ := hs
  have ht := reachable_treeInv hr
  obtain ⟨hposts, hcomm, _⟩ := reachable_invariants hr
  obtain ⟨p, hpm, hpid⟩ := hp
  have hflag : s.postsCommentsEnable postID = some p.commentsEnabled := by
    rw [← hpid]; exact hposts.flag p hpm
  cases hpc : s.commentsByPostAndParent postID with
  | none =>
    refine ⟨[], s.heap, ?_, ?_⟩
    · unfold GetCommentsTree
      simp only [hflag, hpc]
    · have hnil : topLevel s postID = [] := by
        rw [← htop]; simp [bucket, hpc]
      rw [← htoprows, hnil]
      simp only [List.map_nil, List.drop_nil, List.take_nil]
      rfl
  | some pc =>
    have hroot : (pc rootKey).getD [] = topLevel s postID := by
      rw [← htop]; simp only [bucket, hpc]
    have hw := walk_of_invariants hcomm ht hpc
    have hbucket : ∀ k, (pc k).getD [] = filed s.heap postID k := by
      intro k
      rw [← ht.buckets postID k]
      simp only [bucket, hpc]
    have hroots : ∀ root ∈ ((topLevel s postID).drop offset.toNat).take limit.toNat,
        ∃ r, s.heap[root]? = some r ∧ r.postID = postID := by
      intro root hroot1
      have h1 : root ∈ topLevel s postID :=
        List.mem_of_mem_drop (List.mem_of_mem_take hroot1)
      rw [← hroot, hbucket rootKey] at h1
      obtain ⟨r, hr1, hrp, _⟩ := mem_filed.1 h1
      exact ⟨r, hr1, hrp⟩
    obtain ⟨result, heap1, hrun, hsk, hsg, hres, hgood, hbelow⟩ :=
      copyRoots_walk pc postID _ fuel _ s.heap hw hroots hfuel
    refine ⟨result, heap1, ?_, ?_⟩
    · rw [GetCommentsTree_window s postID limit offset fuel hflag hpc hl ho hsum, hroot, hrun]
    · have hw1 := walk_transport hw hsk hsg
      have hids : ∀ (a : Nat) (i : String), (s.heap[a]?).map (fun c => c.id) = some i →
          ∃ c, heap1[a]? = some c ∧ c.id = i := by
        intro a i hai
        cases ha : s.heap[a]? with
        | none => rw [ha] at hai; simp at hai
        | some c0 =>
          rw [ha] at hai
          obtain ⟨c1, hc1, hsk1⟩ := skeleton_getElem? hsk.symm ha
          have hid1 := congrArg Prod.fst hsk1
          simp only [Comment.skeleton] at hid1
          refine ⟨c1, hc1, ?_⟩
          rw [hid1]
          simpa using hai
      have hcorr : ∀ (a : Nat) (i : String), (s.heap[a]?).map (fun c => c.id) = some i →
          ((pc i).getD []).map (rowAt heap1)
            = (rowsOf s postID).filter (fun r => r.parentID == some i) := by
        intro a i hai
        have hne : i ≠ rootKey := by
          cases ha : s.heap[a]? with
          | none => rw [ha] at hai; simp at hai
          | some c0 =>
            rw [ha] at hai
            have : c0.id = i := by simpa using hai
            rw [← this]
            exact ht.notRoot c0 (List.getElem?_mem ha)
        rw [hbucket i, filed_eq_repliesTo s postID i hne]
        have hfun : rowAt heap1 = rowAt s.heap := by
          funext a; exact rowAt_of_skeleton hsk a
        rw [hfun]
        exact rows_filter s.heap postID (fun x => x == some i)
      have hread : ∀ c ∈ result,
          readTree heap1 fuel c = some (rowTree (rowsOf s postID) (fuel - 1) c.row) := by
        intro c hcr
        have hcs : c.skeleton ∈ result.map Comment.skeleton := List.mem_map.2 ⟨c, hcr, rfl⟩
        rw [hres, List.mem_filterMap] at hcs
        obtain ⟨a, ha, hsa⟩ := hcs
        obtain ⟨r, hr1, _⟩ := hroots a ha
        rw [hr1] at hsa
        simp only [Option.map_some', Option.some.injEq, Comment.skeleton,
          Prod.mk.injEq] at hsa
        have hfu : fuel = (fuel - 1) + 1 := by omega
        rw [hfu]
        have halt : a < s.heap.length := (List.getElem?_eq_some.1 hr1).1
        refine readTree_rowTree hw1 hids hcorr (fuel - 1) a c ?_ ?_ (hgood c hcr) ?_
        · simp only [hr1, Option.map_some', hsa.1]
        · show s.heap.length - a ≤ fuel - 1
          omega
        · have := hbelow c hcr
          simpa using this
      have hcomp : (fun x : Comment => rowTree (rowsOf s postID) (fuel - 1) x.row)
          = rowTree (rowsOf s postID) (fuel - 1) ∘ Comment.row := rfl
      unfold readForest
      rw [mapM_option_map _ _ result hread, hcomp, ← List.map_map,
        map_row_of_skeleton hres (fun a ha => by
          obtain ⟨r, hr1, _⟩ := hroots a ha
          exact ⟨r, hr1⟩),
        List.map_take, List.map_drop, htoprows]

/-- An offset at or beyond the number of top-level comments gives the empty forest. -/
theorem getCommentsTree_past_end {s : InMemoryStorage} (hs : Reachable s) (postID : String)
    (hp : ∃ p ∈ s.posts, p.id = postID) (limit offset : Int)
    (hoff : ((topLevel s postID).length : Int) ≤ offset) (fuel : Nat) :
    GetCommentsTree s postID limit offset fuel = some (Outcome.ok [], s) := by
  have htop := bucket_root_eq_topLevel hs postID
  obtain ⟨handles, hr⟩ := hs
  obtain ⟨hposts, _, _⟩ := reachable_invariants hr
  obtain ⟨p, hpm, hpid⟩ := hp
  have hflag : s.postsCommentsEnable postID = some p.commentsEnabled := by
    rw [← hpid]; exact hposts.flag p hpm
  unfold GetCommentsTree
  simp only [hflag]
  cases hpc : s.commentsByPostAndParent postID with
  | none => rfl
  | some pc =>
    have hroot : (pc rootKey).getD [] = topLevel s postID := by
      rw [← htop]; simp only [bucket, hpc]
    simp only [hroot]
    rw [if_pos (by omega)]

/-- Inside the top-level comments, a sum `offset + limit` beyond 32 bits makes the
slice expression panic. -/
theorem getCommentsTree_overflow {s : InMemoryStorage} (hs : Reachable s) (postID : String)
    (hp : ∃ p ∈ s.posts, p.id = postID) (limit offset : Int)
    (ho : 0 ≤ offset) (hl32 : limit ≤ 2147483647) (ho32 : offset ≤ 2147483647)
    (hover : 2147483647 < offset + limit)
    (hoff : offset < ((topLevel s postID).length : Int)) (fuel : Nat) :
    GetCommentsTree s postID limit offset fuel = some (Outcome.panic, s) := by
  have htop := bucket_root_eq_topLevel hs postID
  obtain ⟨handles, hr⟩ := hs
  obtain ⟨hposts, _, _⟩ := reachable_invariants hr
  obtain ⟨p, hpm, hpid⟩ := hp
  have hflag : s.postsCommentsEnable postID = some p.commentsEnabled := by
    rw [← hpid]; exact hposts.flag p hpm
  have hwrap : wrap32 (offset + limit) = offset + limit - 4294967296 := by
    unfold wrap32; omega
  unfold GetCommentsTree
  simp only [hflag]
  cases hpc : s.commentsByPostAndParent postID with
  | none =>
    exfalso
    have : topLevel s postID = [] := by rw [← htop]; simp [bucket, hpc]
    rw [this] at hoff
    simp at hoff
    omega
  | some pc =>
    have hroot : (pc rootKey).getD [] = topLevel s postID := by
      rw [← htop]; simp only [bucket, hpc]
    simp only [hroot, hwrap]
    rw [if_neg (by omega), if_neg (by omega)]

namespace Postgres

theorem rootComments_rows (rows : List Row) :
    ((scanRows rows 0 GoMap.empty []).2).map (rowAt (rows.map Row.scan))
      = rows.filter (fun r => r.parentID == none) := by
  rw [(scanRows_spec rows).1]
  exact scan_filter rows (fun x => x == none)

theorem rootComments_length (rows : List Row) :
    (scanRows rows 0 GoMap.empty []).2.length
      = (rows.filter (fun r => r.parentID == none)).length := by
  rw [← rootComments_rows, List.length_map]

/-- The selection of the roots on arguments whose sum fits in 32 bits. -/
theorem GetCommentsTree_paginated (postID : String) (rows : List Row) (limit offset : Int)
    (fuel : Nat) (hl : 0 ≤ limit) (ho : 0 ≤ offset) (hsum : offset + limit ≤ 2147483647) :
    GetCommentsTree true postID rows limit offset fuel =
      match (((scanRows rows 0 GoMap.empty []).2.drop offset.toNat).take limit.toNat).foldlM
          (fun h root => attachChildren (scanRows rows 0 GoMap.empty []).1 fuel h root)
          (rows.map Row.scan) with
      | none => none
      | some heap1 =>
        some (Outcome.ok (((scanRows rows 0 GoMap.empty []).2.drop offset.toNat).take
          limit.toNat), heap1) := by
  obtain ⟨n, rfl⟩ := Int.eq_ofNat_of_zero_le hl
  obtain ⟨m, rfl⟩ := Int.eq_ofNat_of_zero_le ho
  simp only [Int.toNat_ofNat]
  unfold GetCommentsTree
  simp only [Bool.not_true, Bool.false_eq_true, if_false]
  by_cases hge : (m : Int) ≥ (((scanRows rows 0 GoMap.empty []).2).length : Int)
  · rw [if_pos hge]
    have : ((scanRows rows 0 GoMap.empty []).2).length ≤ m := by omega
    rw [List.drop_of_length_le this, List.take_nil]
    rfl
  · rw [if_neg hge]
    have hw : wrap32 ((m : Int) + (n : Int)) = (m : Int) + (n : Int) := by
      unfold wrap32; omega
    rw [hw]
    by_cases hgt : (m : Int) + (n : Int) > (((scanRows rows 0 GoMap.empty []).2).length : Int)
    · rw [if_pos hgt]
      have hcond : 0 ≤ (m : Int)
          ∧ (m : Int) ≤ (((scanRows rows 0 GoMap.empty []).2).length : Int) := by
        omega
      rw [if_pos hcond]
      simp only [Int.toNat_ofNat]
      have hlen : (((scanRows rows 0 GoMap.empty []).2).drop m).length
          = ((scanRows rows 0 GoMap.empty []).2).length - m := by simp
      rw [List.take_of_length_le (by omega), List.take_of_length_le (by omega)]
    · rw [if_neg hgt]
      have hcond : 0 ≤ (m : Int) ∧ (m : Int) ≤ (m : Int) + (n : Int) := by omega
      rw [if_pos hcond]
      have : ((m : Int) + (n : Int)).toNat - (m : Int).toNat = n := by omega
      rw [this, Int.toNat_ofNat]

/-- The forest the durable assembly returns, read out: on arguments whose sum fits
in 32 bits it is the forest the rows prescribe below the selected rows without
parent. -/
theorem getCommentsTree_rowForest_rows {postID : String} {rows : List Row}
    (hinv : RowsInv postID rows) (limit offset : Int) (hl : 0 ≤ limit) (ho : 0 ≤ offset)
    (hsum : offset + limit ≤ 2147483647) (fuel : Nat) (hfuel : rows.length + 1 ≤ fuel) :
    ∃ paginated heap2,
      GetCommentsTree true postID rows limit offset fuel
        = some (Outcome.ok paginated, heap2) ∧
      readForest heap2 fuel (paginated.filterMap (fun a => heap2[a]?))
        = some ((((rows.filter (fun r => r.parentID == none)).drop
            offset.toNat).take limit.toNat).map (rowTree rows (fuel - 1))) := by
  have hw := walk_of_rows hinv
  have hroots : ∀ x ∈ ((scanRows rows 0 GoMap.empty []).2.drop offset.toNat).take limit.toNat,
      ∃ cx, (rows.map Row.scan)[x]? = some cx ∧
        ((rows.map Row.scan)[x]?).map (fun c => c.id) = some cx.id ∧ cx.postID = postID ∧
        rows.length - x < fuel := by
    intro x hx
    have hx1 : x ∈ (scanRows rows 0 GoMap.empty []).2 :=
      List.mem_of_mem_drop (List.mem_of_mem_take hx)
    rw [(scanRows_spec rows).1, List.mem_filter, List.mem_range] at hx1
    have hlt : x < (rows.map Row.scan).length := by simpa using hx1.1
    refine ⟨(rows.map Row.scan)[x], List.getElem?_eq_getElem hlt, ?_, ?_, by omega⟩
    · rw [List.getElem?_eq_getElem hlt]; rfl
    · obtain ⟨r, hr, hc⟩ := scan_getElem? (List.getElem?_eq_getElem hlt)
      rw [hc]
      exact hinv.post r (List.getElem?_mem hr)
  obtain ⟨heap2, hrun, hsk, hsg, hgood⟩ :=
    attachRoots_walk _ postID _ _ fuel _ (rows.map Row.scan) hw hroots
  refine ⟨((scanRows rows 0 GoMap.empty []).2.drop offset.toNat).take limit.toNat, heap2,
    ?_, ?_⟩
  · rw [GetCommentsTree_paginated postID rows limit offset fuel hl ho hsum, hrun]
  · have hw2 := walk_transport hw hsk hsg
    have hids : ∀ (a : Nat) (i : String),
        ((rows.map Row.scan)[a]?).map (fun c => c.id) = some i →
        ∃ c, heap2[a]? = some c ∧ c.id = i := by
      intro a i hai
      cases ha : (rows.map Row.scan)[a]? with
      | none => rw [ha] at hai; simp at hai
      | some c0 =>
        rw [ha] at hai
        obtain ⟨c1, hc1, hsk1⟩ := skeleton_getElem? hsk.symm ha
        have hid1 := congrArg Prod.fst hsk1
        simp only [Comment.skeleton] at hid1
        refine ⟨c1, hc1, ?_⟩
        rw [hid1]
        simpa using hai
    have hfun : rowAt heap2 = rowAt (rows.map Row.scan) := by
      funext a; exact rowAt_of_skeleton hsk a
    have hcorr : ∀ (a : Nat) (i : String),
        ((rows.map Row.scan)[a]?).map (fun c => c.id) = some i →
        (((scanRows rows 0 GoMap.empty []).1 i).getD []).map (rowAt heap2)
          = rows.filter (fun r => r.parentID == some i) := by
      intro a i _
      rw [hfun, (scanRows_spec rows).2 i]
      exact scan_filter rows (fun x => x == some i)
    have hobj : ∀ a ∈ ((scanRows rows 0 GoMap.empty []).2.drop offset.toNat).take limit.toNat,
        heap2[a]? = some ((heap2[a]?).getD ⟨"", "", none, "", "", []⟩) := by
      intro a ha
      obtain ⟨cx, hcx, _⟩ := hroots a ha
      obtain ⟨c1, hc1, _⟩ := skeleton_getElem? hsk.symm hcx
      rw [hc1]; rfl
    have hread : ∀ c ∈ (((scanRows rows 0 GoMap.empty []).2.drop offset.toNat).take
          limit.toNat).map (fun a => (heap2[a]?).getD ⟨"", "", none, "", "", []⟩),
        readTree heap2 fuel c = some (rowTree rows (fuel - 1) c.row) := by
      intro c hc
      obtain ⟨a, ha, rfl⟩ := List.mem_map.1 hc
      obtain ⟨cx, hcx, hidx, _, hrank⟩ := hroots a ha
      obtain ⟨c1, hc1, hsk1⟩ := skeleton_getElem? hsk.symm hcx
      have hid1 := congrArg Prod.fst hsk1
      simp only [Comment.skeleton] at hid1
      have hfu : fuel = (fuel - 1) + 1 := by omega
      have hga : GoodAt _ heap2 a := hgood a ha a (Below.here a)
      simp only [hc1, Option.getD_some]
      rw [hfu]
      refine readTree_rowTree hw2 hids hcorr (fuel - 1) a c1 ?_ ?_ (hga c1 hc1) ?_
      · rw [hid1]; exact hidx
      · show rows.length - a ≤ fuel - 1
        omega
      · intro y hy b hb
        rw [hga c1 hc1] at hy
        exact hgood a ha b (Below.step (by rw [hid1]; exact hidx) hy hb)
    unfold readForest
    rw [filterMap_eq_map _ (fun a => (heap2[a]?).getD ⟨"", "", none, "", "", []⟩) _ hobj,
      mapM_option_map _ _ _ hread, List.map_map]
    have hcomp : ((fun c => rowTree rows (fuel - 1) c.row) ∘
        fun a => (heap2[a]?).getD ⟨"", "", none, "", "", []⟩)
        = rowTree rows (fuel - 1) ∘ rowAt heap2 := rfl
    rw [hcomp, ← List.map_map, hfun, List.map_take, List.map_drop, rootComments_rows]

/-- An offset at or beyond the number of rows without parent gives the empty forest. -/
theorem getCommentsTree_past_end_rows (postID : String) (rows : List Row) (limit offset : Int)
    (hoff : ((rows.filter (fun r => r.parentID == none)).length : Int) ≤ offset)
    (fuel : Nat) :
    GetCommentsTree true postID rows limit offset fuel
      = some (Outcome.ok [], rows.map Row.scan) := by
  unfold GetCommentsTree
  simp only [Bool.not_true, Bool.false_eq_true, if_false, rootComments_length]
  rw [if_pos (by omega)]

/-- Inside the rows without parent, a sum `offset + limit` beyond 32 bits makes the
slice expression panic. -/
theorem getCommentsTree_overflow_rows (postID : String) (rows : List Row) (limit offset : Int)
    (ho : 0 ≤ offset) (hl32 : limit ≤ 2147483647) (ho32 : offset ≤ 2147483647)
    (hover : 2147483647 < offset + limit)
    (hoff : offset < ((rows.filter (fun r => r.parentID == none)).length : Int))
    (fuel : Nat) :
    GetCommentsTree true postID rows limit offset fuel
      = some (Outcome.panic, rows.map Row.scan) := by
  have hwrap : wrap32 (offset + limit) = offset + limit - 4294967296 := by
    unfold wrap32; omega
  unfold GetCommentsTree
  simp only [Bool.not_true, Bool.false_eq_true, if_false, rootComments_length, hwrap]
  rw [if_neg (by omega), if_neg (by omega)]

end Postgres

theorem rowsOf_length (s : InMemoryStorage) (postID : String) :
    (rowsOf s postID).length ≤ s.heap.length := by
  unfold rowsOf
  rw [List.length_map]
  exact List.length_filter_le _ _

theorem topLevel_length_rows (s : InMemoryStorage) (postID : String) :
    (topLevel s postID).length
      = ((rowsOf s postID).filter (fun r => r.parentID == none)).length := by
  have h : (topLevel s postID).map (rowAt s.heap)
      = (rowsOf s postID).filter (fun r => r.parentID == none) :=
    rows_filter s.heap postID (fun x => x == none)
  rw [← h, List.length_map]

/-- C20: tree assembly is the same in both stores.  Let `s` be a reachable state of
the in-process store, `postID` a stored post, and `rowsOf s postID` the comments of
the post in creation order, which is what the comment query of the durable store
delivers after the same successful `AddComment` calls.  For all non-negative 32-bit
`limit` and `offset` (any recursion bound above the number of stored comments plus
one): when `offset + limit` fits in 32 bits, or `offset` is at or beyond the number
of top-level comments, both `GetCommentsTree` return, and the forest read from the
objects returned by the in-process store equals the forest read from the objects
returned by the durable assembly, node by node, nesting and order included: it is the
forest the flat list prescribes below the top-level rows at positions `offset`, ...,
at most `limit` of them, the replies of a node being the rows that name it as parent,
in the order of the list.  In the remaining case (`offset` inside the top-level
comments and `offset + limit` beyond 32 bits) the slice expression panics in both. -/
theorem same_forest_in_both_stores {s : InMemoryStorage} (hs : Reachable s)
    (postID : String) (hp : ∃ p ∈ s.posts, p.id = postID) (limit offset : Int)
    (hl : 0 ≤ limit) (ho : 0 ≤ offset) (hl32 : limit ≤ 2147483647)
    (ho32 : offset ≤ 2147483647) (fuel : Nat) (hfuel : s.heap.length + 2 ≤ fuel) :
    ((offset + limit ≤ 2147483647 ∨
        (((rowsOf s postID).filter (fun r => r.parentID == none)).length : Int) ≤ offset) →
      ∃ result heap1 paginatedRoots heap2,
        GetCommentsTree s postID limit offset fuel
          = some (Outcome.ok result, { s with heap := heap1 }) ∧
        Postgres.GetCommentsTree true postID (rowsOf s postID) limit offset fuel
          = some (Outcome.ok paginatedRoots, heap2) ∧
        readForest heap1 fuel result
          = some (((((rowsOf s postID).filter (fun r => r.parentID == none)).drop
              offset.toNat).take limit.toNat).map (rowTree (rowsOf s postID) (fuel - 1))) ∧
        readForest heap2 fuel (paginatedRoots.filterMap (fun a => heap2[a]?))
          = readForest heap1 fuel result) ∧
    (2147483647 < offset + limit →
      offset < (((rowsOf s postID).filter (fun r => r.parentID == none)).length : Int) →
      GetCommentsTree s postID limit offset fuel = some (Outcome.panic, s) ∧
      Postgres.GetCommentsTree true postID (rowsOf s postID) limit offset fuel
        = some (Outcome.panic, (rowsOf s postID).map Row.scan)) := by
  have hinv := rowsOf_inv hs postID
  have hlen := rowsOf_length s postID
  have htl := topLevel_length_rows s postID
  constructor
  · intro hcase
    by_cases hsum : offset + limit ≤ 2147483647
    · obtain ⟨result, heap1, hrun1, hread1⟩ :=
        getCommentsTree_rowForest hs postID hp limit offset hl ho hsum fuel hfuel
      obtain ⟨roots, heap2, hrun2, hread2⟩ :=
        Postgres.getCommentsTree_rowForest_rows hinv limit offset hl ho hsum fuel (by omega)
      exact ⟨result, heap1, roots, heap2, hrun1, hrun2, hread1, by rw [hread1, hread2]⟩
    · have hoff : (((rowsOf s postID).filter (fun r => r.parentID == none)).length : Int)
          ≤ offset := by
        rcases hcase with h | h
        · exact absurd h hsum
        · exact h
      refine ⟨[], s.heap, [], (rowsOf s postID).map Row.scan,
        getCommentsTree_past_end hs postID hp limit offset (by rw [htl]; exact hoff) fuel,
        Postgres.getCommentsTree_past_end_rows postID _ limit offset hoff fuel, ?_, rfl⟩
      have hdrop : ((rowsOf s postID).filter (fun r => r.parentID == none)).drop offset.toNat
          = [] := by
        apply List.drop_of_length_le
        omega
      rw [hdrop, List.take_nil]
      rfl
  · intro hover hoff
    exact ⟨getCommentsTree_overflow hs postID hp limit offset ho hl32 ho32 hover
        (by rw [htl]; exact hoff) fuel,
      Postgres.getCommentsTree_overflow_rows postID _ limit offset ho hl32 ho32 hover hoff fuel⟩

theorem same_forest_in_both_stores_witness :
    Reachable threadState ∧ (∃ p ∈ threadState.posts, p.id = "p1") ∧
    threadState.heap.length + 2 ≤ 6 ∧
    rowsOf threadState "p1"
      = [⟨"A", "p1", none, "Comment 1", "t1"⟩, ⟨"B", "p1", none, "Comment 2", "t2"⟩,
          ⟨"R1", "p1", some "A", "Reply 1", "t3"⟩, ⟨"R2", "p1", some "A", "Reply 2", "t4"⟩] ∧
    ∃ result heap1 paginatedRoots heap2,
      GetCommentsTree threadState "p1" 10 0 6
        = some (Outcome.ok result, { threadState with heap := heap1 }) ∧
      Postgres.GetCommentsTree true "p1" (rowsOf threadState "p1") 10 0 6
        = some (Outcome.ok paginatedRoots, heap2) ∧
      readForest heap1 6 result
        = some (((((rowsOf threadState "p1").filter (fun r => r.parentID == none)).drop
            (0 : Int).toNat).take (10 : Int).toNat).map
              (rowTree (rowsOf threadState "p1") (6 - 1))) ∧
      readForest heap2 6 (paginatedRoots.filterMap (fun a => heap2[a]?))
        = readForest heap1 6 result :=
  ⟨threadState_reachable, by decide, by decide, by decide,
    (same_forest_in_both_stores threadState_reachable "p1" (by decide) 10 0 (by decide)
      (by decide) (by decide) (by decide) 6 (by decide)).1 (Or.inl (by decide))⟩
/-! ## Index consistency and the frame of `AddComment` -/

theorem filed_nodup (heap : List Comment) (p k : String) : (filed heap p k).Nodup :=
  (List.nodup_range heap.length).filter _

theorem getPost_stored {s : InMemoryStorage} (hp : SearchInv s) {p : Post} (hm : p ∈ s.posts) :
    GetPost s p.id = Outcome.ok p := by
  obtain ⟨i, hi⟩ := List.getElem?_of_mem hm
  unfold GetPost
  simp only [hp.found i p hi, hi]

/-- C27: index consistency of the in-process store.  In every reachable state a post
id occurs in the post list exactly when the lookup map has an entry for it and
exactly when the comments-enabled map has one; for every stored post the
comments-enabled map holds the post's `commentsEnabled` field and `GetPost` returns
the post with that field, so the check of `AddComment` and the answer of `GetPost`
agree; and a comment id is marked in the existence set exactly when a comment with
that id is stored, in which case it is stored once, lies in the bucket of its post
and parent key and in no other bucket, and occurs once in that bucket. -/
theorem index_consistency {s : InMemoryStorage} (hs : Reachable s) :
    (∀ id, ((∃ p ∈ s.posts, p.id = id) ↔ s.postSearch id ≠ none) ∧
      ((∃ p ∈ s.posts, p.id = id) ↔ s.postsCommentsEnable id ≠ none)) ∧
    (∀ p ∈ s.posts, s.postsCommentsEnable p.id = some p.commentsEnabled ∧
      GetPost s p.id = Outcome.ok p) ∧
    (∀ id, s.commentsAvaliability id ≠ none ↔
      ∃ a c, s.heap[a]? = some c ∧ c.id = id ∧
        (∀ b cb, s.heap[b]? = some cb → cb.id = id → b = a) ∧
        (∀ p k, a ∈ bucket s p k ↔ p = c.postID ∧ k = c.parentKey) ∧
        (bucket s c.postID c.parentKey).count a = 1) := by
  have hmaps := stored_iff_maps hs
  obtain ⟨handles, hr⟩ := hs
  obtain ⟨hposts, hcomm, _⟩ := reachable_invariants hr
  obtain ⟨hsearch, _⟩ := reachable_more hr
  have ht := reachable_treeInv hr
  refine ⟨fun id => ⟨(hmaps id).2, (hmaps id).1⟩,
    fun p hp => ⟨hposts.flag p hp, getPost_stored hsearch hp⟩, ?_⟩
  intro id
  constructor
  · intro hne
    obtain ⟨c, hcm, hid⟩ := (hcomm.avail id).1 hne
    obtain ⟨a, ha⟩ := List.getElem?_of_mem hcm
    have hmem : ∀ p k, a ∈ bucket s p k ↔ p = c.postID ∧ k = c.parentKey := by
      intro p k
      rw [ht.buckets p k, mem_filed]
      constructor
      · rintro ⟨c1, hc1, hp1, hk1⟩
        rw [ha] at hc1
        have := Option.some.inj hc1
        subst this
        exact ⟨hp1.symm, hk1.symm⟩
      · rintro ⟨rfl, rfl⟩
        exact ⟨c, ha, rfl, rfl⟩
    refine ⟨a, c, ha, hid, ?_, hmem, ?_⟩
    · intro b cb hb hcb
      exact ht.uniq b a cb c hb ha (by rw [hcb, hid])
    · apply List.count_eq_one_of_mem
      · rw [ht.buckets]; exact filed_nodup _ _ _
      · exact (hmem c.postID c.parentKey).2 ⟨rfl, rfl⟩
  · rintro ⟨a, c, ha, hid, _⟩
    exact (hcomm.avail id).2 ⟨c, List.getElem?_mem ha, hid⟩

theorem index_consistency_witness :
    Reachable threadState ∧
    (∀ p ∈ threadState.posts, threadState.postsCommentsEnable p.id = some p.commentsEnabled ∧
      GetPost threadState p.id = Outcome.ok p) ∧
    bucket threadState "p1" "A" = [2, 3] :=
  ⟨threadState_reachable, (index_consistency threadState_reachable).2.1, by decide⟩

/-- C28: the frame of a successful `AddComment`.  In every state, when
`AddComment postID parentID text` returns a comment, the comment is stored at the
first free address with the stored comments before it unchanged, its address is
appended at the end of the bucket `(postID, parentID)` (the root marker standing for
an absent parent) whose earlier entries keep their order, every other bucket is
unchanged, the id is marked in the existence set and no other mark changes, and the
post list, the comments-enabled map, the lookup map and the subscriber lists are
unchanged. -/
theorem addComment_one_bucket (s : InMemoryStorage) (postID : String)
    (parentID : Option String) (text newID now : String) (c : Comment)
    (hok : (AddComment s postID parentID text newID now).1 = Outcome.ok c) :
    c = ⟨newID, postID, parentID, text, now, []⟩ ∧
    (AddComment s postID parentID text newID now).2.heap = s.heap ++ [c] ∧
    (∀ p k, bucket (AddComment s postID parentID text newID now).2 p k
      = if p = postID ∧ k = parentID.getD rootKey then bucket s p k ++ [s.heap.length]
        else bucket s p k) ∧
    (AddComment s postID parentID text newID now).2.commentsAvaliability newID = some true ∧
    (∀ id, id ≠ newID →
      (AddComment s postID parentID text newID now).2.commentsAvaliability id
        = s.commentsAvaliability id) ∧
    (AddComment s postID parentID text newID now).2.posts = s.posts ∧
    (AddComment s postID parentID text newID now).2.postsCommentsEnable
      = s.postsCommentsEnable ∧
    (AddComment s postID parentID text newID now).2.postSearch = s.postSearch ∧
    (AddComment s postID parentID text newID now).2.subscribers = s.subscribers := by
  have hf := AddComment_frame s postID parentID text newID now
  have hheap := addComment_heap s postID parentID text newID now c hok
  rcases AddComment_cases s postID parentID text newID now with ⟨e, he⟩ | ⟨k, _, hpar, hk⟩
  · rw [he] at hok; simp at hok
  · have hkey : parentID.getD rootKey = k := by
      rcases hpar with ⟨h1, h2⟩ | ⟨h1, _⟩
      · rw [h1, h2]; rfl
      · rw [h1]; rfl
    obtain ⟨cs, _, hst⟩ := storeComment_state s postID parentID k text newID now
    have hc : c = ⟨newID, postID, parentID, text, now, []⟩ := by
      rw [hk] at hok
      rcases storeComment_value s postID parentID k text newID now with hv | hv
      · rw [hv] at hok; exact (Outcome.ok.inj hok).symm
      · rw [hv] at hok; simp at hok
    refine ⟨hc, hheap, ?_, ?_, ?_, hf.1, hf.2.1, hf.2.2.1, hf.2.2.2.1⟩
    · intro p k1
      rw [hk, bucket_storeComment, hkey]
      by_cases h : p = postID ∧ k1 = k
      · rw [if_pos h, if_pos ⟨h.1.symm, h.2.symm⟩]
      · rw [if_neg h, if_neg (fun h1 => h ⟨h1.1.symm, h1.2.symm⟩), List.append_nil]
    · rw [hk, hst]
      simp
    · intro id hid
      rw [hk, hst]
      simp only
      exact goMap_insert_other _ _ hid

theorem addComment_one_bucket_witness :
    (AddComment twoRootsState "p1" (some "c1") "reply" "c3" "t3").1
      = Outcome.ok ⟨"c3", "p1", some "c1", "reply", "t3", []⟩ ∧
    bucket (AddComment twoRootsState "p1" (some "c1") "reply" "c3" "t3").2 "p1" "c1" = [2] ∧
    bucket (AddComment twoRootsState "p1" (some "c1") "reply" "c3" "t3").2 "p1" rootKey
      = bucket twoRootsState "p1" rootKey :=
  ⟨by decide, by decide,
    by
      have h := (addComment_one_bucket twoRootsState "p1" (some "c1") "reply" "c3" "t3"
        ⟨"c3", "p1", some "c1", "reply", "t3", []⟩ (by decide)).2.2.1 "p1" rootKey
      rw [h]
      decide⟩

/-- C29: the root marker cannot be forged.  In every reachable state (generated
comment ids are never the root marker) no stored comment has the marker as its id
and the existence set has no entry for it, so `AddComment` with `parentID` present
and equal to the marker fails and stores nothing, with the parent-not-found failure
whenever the post is stored and accepts comments (for a post that is absent or
closed the earlier check of `AddComment` fails first).  Hence the top-level bucket
of every post holds exactly the stored comments of the post without a parent, in
creation order. -/
theorem root_marker_not_forged {s : InMemoryStorage} (hs : Reachable s) :
    s.commentsAvaliability rootKey = none ∧
    (∀ c ∈ s.heap, c.id ≠ rootKey ∧ c.parentID ≠ some rootKey) ∧
    (∀ postID text newID now,
      (∃ e, AddComment s postID (some rootKey) text newID now = (Outcome.fail e, s)) ∧
      (s.postsCommentsEnable postID = some true →
        AddComment s postID (some rootKey) text newID now
          = (Outcome.fail (Failure.parentNotFound rootKey), s))) ∧
    (∀ p, bucket s p rootKey = topLevel s p) ∧
    (∀ p a, a ∈ bucket s p rootKey
      ↔ ∃ c, s.heap[a]? = some c ∧ c.postID = p ∧ c.parentID = none) := by
  have htop := bucket_root_eq_topLevel hs
  obtain ⟨handles, hr⟩ := hs
  obtain ⟨_, hcomm, _⟩ := reachable_invariants hr
  have ht := reachable_treeInv hr
  have hnone : s.commentsAvaliability rootKey = none := by
    by_contra hne
    obtain ⟨c, hcm, hid⟩ := (hcomm.avail rootKey).1 hne
    exact ht.notRoot c hcm hid
  refine ⟨hnone, fun c hc => ⟨ht.notRoot c hc, parent_ne_rootKey hcomm ht c hc⟩, ?_, htop, ?_⟩
  · intro postID text newID now
    constructor
    · unfold AddComment
      cases hp : s.postsCommentsEnable postID with
      | none => exact ⟨_, rfl⟩
      | some b =>
        cases b with
        | false => exact ⟨_, rfl⟩
        | true => simp only [hnone]; exact ⟨_, rfl⟩
    · intro hp
      unfold AddComment
      simp only [hp, hnone]
      rfl
  · intro p a
    rw [htop p]
    exact mem_topLevel

theorem root_marker_not_forged_witness :
    Reachable threadState ∧
    AddComment threadState "p1" (some rootKey) "text" "c9" "t9"
      = (Outcome.fail (Failure.parentNotFound rootKey), threadState) ∧
    bucket threadState "p1" rootKey = [0, 1] :=
  ⟨threadState_reachable,
    (root_marker_not_forged threadState_reachable).2.2.1 "p1" "text" "c9" "t9" |>.2
      (by decide),
    by decide⟩
/-! ## Queues: what they hold and when they are closed -/

theorem trySend_buf (comment : Nat) (c : Chan) :
    ∀ a ∈ (trySend comment c).buf, a ∈ c.buf ∨ a = comment := by
  intro a ha
  unfold trySend at ha
  split at ha
  · simp only [List.mem_append, List.mem_singleton] at ha
    exact ha
  · exact Or.inl ha

theorem bufInv_of_eq {s s1 : InMemoryStorage} {handles : List (String × Nat)}
    (h : BufInv s handles) (hc : s1.chans = s.chans)
    (hh : s1.heap.map Comment.skeleton = s.heap.map Comment.skeleton) : BufInv s1 handles := by
  intro q ch hq c hcc a ha
  rw [hc] at hcc
  obtain ⟨cm, hcm, hp⟩ := h q ch hq c hcc a ha
  obtain ⟨c1, hc1, hsk1⟩ := skeleton_getElem? hh.symm hcm
  simp only [Comment.skeleton, Prod.mk.injEq] at hsk1
  exact ⟨c1, hc1, by rw [hsk1.2.1]; exact hp⟩

theorem bufInv_addComment {s : InMemoryStorage} {handles : List (String × Nat)}
    (h : BufInv s handles) (hc : ChanInv s handles) (postID : String)
    (parentID : Option String) (text newID now : String) :
    BufInv (AddComment s postID parentID text newID now).2 handles := by
  rcases AddComment_cases s postID parentID text newID now with ⟨e, he⟩ | ⟨k, _, _, hk⟩
  · rw [he]; exact h
  · obtain ⟨cs, _, hst⟩ := storeComment_state s postID parentID k text newID now
    have hchans := storeComment_chans s postID parentID k text newID now
    have hheap : (storeComment s postID parentID k text newID now).2.heap
        = s.heap ++ [⟨newID, postID, parentID, text, now, []⟩] := by rw [hst]
    rw [hk]
    intro q ch hq c hcc a ha
    rw [hchans] at hcc
    rw [hheap]
    have hold : ∀ c0, s.chans[ch]? = some c0 → a ∈ c0.buf →
        ∃ cm, (s.heap ++ [(⟨newID, postID, parentID, text, now, []⟩ : Comment)])[a]? = some cm
          ∧ cm.postID = q := by
      intro c0 hc0 ha0
      obtain ⟨cm, hcm, hp⟩ := h q ch hq c0 hc0 a ha0
      refine ⟨cm, ?_, hp⟩
      rw [List.getElem?_append_left (List.getElem?_eq_some.1 hcm).1]
      exact hcm
    cases hs : s.subscribers postID with
    | none =>
      rw [hs] at hcc
      exact hold c hcc ha
    | some subs =>
      rw [hs] at hcc
      simp only at hcc
      rw [notify_spec s.heap.length subs s.chans (hc.nodup postID subs hs)
        (fun x hx => hc.isOpen postID subs x hs hx) ch] at hcc
      by_cases hmem : ch ∈ subs
      · rw [if_pos hmem] at hcc
        cases hc0 : s.chans[ch]? with
        | none => rw [hc0] at hcc; simp at hcc
        | some c0 =>
          rw [hc0] at hcc
          simp only [Option.map_some', Option.some.injEq] at hcc
          rw [← hcc] at ha
          rcases trySend_buf _ _ a ha with hin | hnew
          · exact hold c0 hc0 hin
          · subst hnew
            have hqp : q = postID := hc.owner postID subs ch q hs hmem hq
            refine ⟨⟨newID, postID, parentID, text, now, []⟩, ?_, hqp.symm⟩
            rw [List.getElem?_append_right (Nat.le_refl _)]
            simp
      · rw [if_neg hmem] at hcc
        exact hold c hcc ha

theorem bufInv_subscribe {s : InMemoryStorage} {handles : List (String × Nat)}
    (h : BufInv s handles) (postID : String) :
    BufInv (SubscribeToComments s postID).2
      (issued (SubscribeToComments s postID).1 handles) := by
  unfold SubscribeToComments
  cases hp : s.postsCommentsEnable postID with
  | none => exact h
  | some b =>
    simp only [issued]
    intro q ch hq c hcc a ha
    simp only at hcc
    rcases getElem?_append_singleton s.chans _ ch c hcc with hold | ⟨_, hnew⟩
    · rcases List.mem_cons.1 hq with hq1 | hq1
      · have hlt := (List.getElem?_eq_some.1 hold).1
        have : ch = s.chans.length := (Prod.mk.inj hq1).2
        omega
      · exact h q ch hq1 c hold a ha
    · subst hnew
      simp at ha

theorem bufInv_cancel {s : InMemoryStorage} {handles : List (String × Nat)}
    (h : BufInv s handles) (postID : String) (ch : Nat) :
    BufInv (rmSubscription s postID ch).2 handles := by
  intro q x hq c hcc a ha
  rw [(rmSubscription_frame s postID ch).2.2.2.2.2]
  by_cases hx : x = ch
  · subst hx
    rw [rmSubscription_chan_self] at hcc
    cases hc0 : s.chans[x]? with
    | none => rw [hc0] at hcc; simp at hcc
    | some c0 =>
      rw [hc0] at hcc
      simp only [Option.map_some', Option.some.injEq] at hcc
      rw [← hcc] at ha
      exact h q x hq c0 hc0 a ha
  · rw [rmSubscription_chans s postID ch x hx] at hcc
    exact h q x hq c hcc a ha

theorem bufInv_receive {s : InMemoryStorage} {handles : List (String × Nat)}
    (h : BufInv s handles) (ch : Nat) : BufInv (receive s ch) handles := by
  unfold receive
  cases hc0 : s.chans[ch]? with
  | none => exact h
  | some c0 =>
    intro q x hq c hcc a ha
    simp only at hcc ⊢
    have hlt : ch < s.chans.length := (List.getElem?_eq_some.1 hc0).1
    by_cases hx : x = ch
    · subst hx
      rw [List.getElem?_set_self hlt] at hcc
      rw [← Option.some.inj hcc] at ha
      exact h q x hq c0 hc0 a (List.mem_of_mem_tail ha)
    · rw [List.getElem?_set_ne (fun e => hx e.symm)] at hcc
      exact h q x hq c hcc a ha

/-- In a reachable state every queued comment is a stored comment of the post the
queue's handle was made for. -/
theorem reachable_bufInv {s : InMemoryStorage} {handles : List (String × Nat)}
    (h : ReachableWith s handles) : BufInv s handles := by
  induction h with
  | init => intro q ch hq; simp at hq
  | @newPost s0 _ text commentsEnabled newID now _ _ ih => exact bufInv_of_eq ih rfl rfl
  | @addComment s0 _ postID parentID text newID now hr _ _ ih =>
    exact bufInv_addComment ih (reachable_invariants hr).2.2 postID parentID text newID now
  | @setCommentsEnabled s0 _ postID enabled _ ih =>
    have hf := SetCommentsEnabled_frame s0 postID enabled
    exact bufInv_of_eq ih hf.2.2.2.2.2 (by rw [hf.2.2.2.2.1])
  | @subscribe s0 _ postID _ ih =>
    exact bufInv_subscribe ih postID
  | @cancel s0 _ postID ch _ _ ih => exact bufInv_cancel ih postID ch
  | @getCommentsTree s0 s1 _ postID limit offset fuel r _ _ _ hrun ih =>
    obtain ⟨heap1, hs1, hsk⟩ := GetCommentsTree_state hrun
    subst hs1
    exact bufInv_of_eq ih rfl hsk
  | @receive s0 _ ch _ ih => exact bufInv_receive ih ch

/-- In a reachable state every stored comment belongs to a stored post. -/
theorem reachable_comment_post {s : InMemoryStorage} {handles : List (String × Nat)}
    (h : ReachableWith s handles) : ∀ c ∈ s.heap, s.postsCommentsEnable c.postID ≠ none := by
  induction h with
  | init => intro c hc; simp [New] at hc
  | @newPost s0 _ text commentsEnabled newID now _ _ ih =>
    intro c hc
    have := ih c hc
    simp only [NewPost, goMap_insert_apply]
    split
    · simp
    · exact this
  | @addComment s0 _ postID parentID text newID now _ _ _ ih =>
    have hf := AddComment_frame s0 postID parentID text newID now
    rw [hf.2.1]
    rcases AddComment_cases s0 postID parentID text newID now with ⟨e, he⟩ | ⟨k, hen, _, hk⟩
    · rw [he]; exact ih
    · obtain ⟨cs, _, hst⟩ := storeComment_state s0 postID parentID k text newID now
      rw [hk, hst]
      intro c hc
      simp only [List.mem_append, List.mem_singleton] at hc
      rcases hc with hc | hc
      · exact ih c hc
      · subst hc
        simp only [hen]
        simp
  | @setCommentsEnabled s0 _ postID enabled _ ih =>
    have hf := SetCommentsEnabled_frame s0 postID enabled
    rw [hf.2.2.2.2.1]
    intro c hc
    have := ih c hc
    unfold SetCommentsEnabled
    split
    · exact this
    · split
      · exact this
      · simp only [goMap_insert_apply]
        split
        · simp
        · exact this
  | @subscribe s0 _ postID _ ih =>
    have hf := SubscribeToComments_frame s0 postID
    rw [hf.2.2.2.2.2, hf.2.1]; exact ih
  | @cancel s0 _ postID ch _ _ ih =>
    have hf := rmSubscription_frame s0 postID ch
    rw [hf.2.2.2.2.2, hf.2.1]; exact ih
  | @getCommentsTree s0 s1 _ postID limit offset fuel r _ _ _ hrun ih =>
    obtain ⟨heap1, hs1, hsk⟩ := GetCommentsTree_state hrun
    subst hs1
    intro c hc
    obtain ⟨a, ha⟩ := List.getElem?_of_mem hc
    obtain ⟨c0, hc0, hsk0⟩ := skeleton_getElem? hsk ha
    simp only [Comment.skeleton, Prod.mk.injEq] at hsk0
    rw [← hsk0.2.1]
    exact ih c0 (List.getElem?_mem hc0)
  | @receive s0 _ ch _ ih =>
    have hf := receive_frame s0 ch
    rw [hf.2.2.2.2.2.2.1, hf.2.1]; exact ih

theorem crossNotifiedState_reachable : Reachable crossNotifiedState :=
  ⟨[("p2", 0)], ReachableWith.addComment "p2" (some "c1") "reply" "c2" "t3"
    (ReachableWith.subscribe "p2"
      (ReachableWith.addComment "p1" none "on the first post" "c1" "t2"
        (ReachableWith.newPost "second" true "p2" "t1"
          (ReachableWith.newPost "first" true "p1" "t0" ReachableWith.init rfl) rfl)
        (by decide) rfl))
    (by decide) (by decide)⟩

/-- C23, as the store behaves.  In every reachable state every comment held in a
queue of the subscriber list of post `p` is a stored comment with `postID = p`.  When
that comment is top-level or replies, directly or through a chain of replies on `p`,
to a top-level comment of `p` (which is every comment of `p` when no comment of `p`
replies to a comment of another post), `GetCommentsTree p limit 0` with `limit` at
least the number of top-level comments of `p` returns a forest that contains it: as
one of the roots, or at an address reached from the roots by following `replies`. -/
theorem notified_comment_is_stored {s : InMemoryStorage} (hs : Reachable s) (p : String)
    (subs : List Nat) (ch : Nat) (q : Chan) (a : Nat)
    (hsub : s.subscribers p = some subs) (hch : ch ∈ subs) (hq : s.chans[ch]? = some q)
    (ha : a ∈ q.buf) :
    ∃ c, s.heap[a]? = some c ∧ c.postID = p ∧
      ((∀ (x b : Nat) (cx cb : Comment), s.heap[x]? = some cx → cx.postID = p →
          s.heap[b]? = some cb → cx.parentID = some cb.id → cb.postID = p) →
        Anchored s p a) ∧
      (Anchored s p a → ∀ (limit : Int), ((topLevel s p).length : Int) ≤ limit →
        limit ≤ 2147483647 → ∀ (fuel : Nat), s.heap.length + 2 ≤ fuel →
        ∃ result heap1,
          GetCommentsTree s p limit 0 fuel
            = some (Outcome.ok result, { s with heap := heap1 }) ∧
          (c.skeleton ∈ result.map Comment.skeleton ∨
            ∃ k, a ∈ depthNodes heap1 k (result.flatMap (fun r => r.replies)))) := by
  have hs0 := hs
  obtain ⟨handles, hr⟩ := hs
  obtain ⟨hposts, hcomm, _⟩ := reachable_invariants hr
  obtain ⟨_, hqueue⟩ := reachable_more hr
  have hbuf := reachable_bufInv hr
  obtain ⟨c, hc, hcp⟩ := hbuf p ch (hqueue.handle p subs ch hsub hch) q hq a ha
  refine ⟨c, hc, hcp, fun hno => anchored_of_no_cross hcomm p hno a c hc hcp, ?_⟩
  intro hanch limit hN h32 fuel hfuel
  have hstored : ∃ p0 ∈ s.posts, p0.id = p := by
    have hne := reachable_comment_post hr c (List.getElem?_mem hc)
    rw [hcp] at hne
    cases hb : s.postsCommentsEnable p with
    | none => exact absurd hb hne
    | some b => exact hposts.known p b hb
  obtain ⟨result, heap1, hrun, hres, hlev⟩ :=
    getCommentsTree_levels hs0 p hstored limit hN h32 fuel hfuel
  refine ⟨result, heap1, hrun, ?_⟩
  obtain ⟨k, hk⟩ := (anchored_iff_level p a).1 hanch
  cases k with
  | zero =>
    left
    rw [hres, List.mem_filterMap]
    exact ⟨a, hk, by rw [hc]; rfl⟩
  | succ k =>
    right
    exact ⟨k, by rw [hlev k]; exact hk⟩

theorem notified_comment_is_stored_witness :
    Reachable crossNotifiedState ∧ crossNotifiedState.subscribers "p2" = some [0] ∧
    crossNotifiedState.chans[0]? = some ⟨1, [1], false⟩ ∧
    ∃ c, crossNotifiedState.heap[1]? = some c ∧ c.postID = "p2" :=
  ⟨crossNotifiedState_reachable, by decide, by decide,
    by
      obtain ⟨c, hc, hp, _⟩ := notified_comment_is_stored crossNotifiedState_reachable "p2"
        [0] 0 ⟨1, [1], false⟩ 1 (by decide) (by decide) (by decide) (by decide)
      exact ⟨c, hc, hp⟩⟩

/-- C23 fails as stated: the subscriber of post `p2` holds in its queue the comment
`c2` (stored, `postID = "p2"`, a reply to the comment `c1` of post `p1`), and
`GetCommentsTree "p2" 10 0`, which covers the whole post, returns the empty forest. -/
theorem notified_comment_not_in_tree :
    Reachable crossNotifiedState ∧
    crossNotifiedState.subscribers "p2" = some [0] ∧
    crossNotifiedState.chans[0]? = some ⟨1, [1], false⟩ ∧
    crossNotifiedState.heap[1]? = some ⟨"c2", "p2", some "c1", "reply", "t3", []⟩ ∧
    crossNotifiedState.heap.filter (fun c => c.postID == "p2")
      = [⟨"c2", "p2", some "c1", "reply", "t3", []⟩] ∧
    ∀ fuel, GetCommentsTree crossNotifiedState "p2" 10 0 fuel
      = some (Outcome.ok [], crossNotifiedState) :=
  ⟨crossNotifiedState_reachable, by decide, by decide, by decide, by decide, fun _ => rfl⟩

/-- C24: the in-process store never sends to a closed queue.  In every reachable
state (every cancellation handle called any number of times, so in particular at most
once) every queue in a subscriber list exists and is open, hence a closed queue is in
no list and `AddComment` never panics on a send.  Calling a handle whose queue is
still open (its first call) is one atomic step after which the queue is closed and in
no subscriber list, every other queue being as before.  `NewPost`, `AddComment`,
`SetCommentsEnabled`, `SubscribeToComments` and a receive close no queue. -/
theorem never_sends_to_closed {s : InMemoryStorage} {handles : List (String × Nat)}
    (hr : ReachableWith s handles) :
    (∀ (p : String) (subs : List Nat) (ch : Nat), s.subscribers p = some subs → ch ∈ subs →
      ∃ c, s.chans[ch]? = some c ∧ c.closed = false) ∧
    (∀ (ch : Nat) (c : Chan), s.chans[ch]? = some c → c.closed = true →
      ∀ (p : String) (subs : List Nat), s.subscribers p = some subs → ch ∉ subs) ∧
    (∀ postID parentID text newID now,
      (AddComment s postID parentID text newID now).1 ≠ Outcome.panic) ∧
    (∀ (postID : String) (ch : Nat) (c : Chan), (postID, ch) ∈ handles →
      s.chans[ch]? = some c → c.closed = false →
      (rmSubscription s postID ch).1 = Outcome.ok () ∧
      (rmSubscription s postID ch).2.chans[ch]? = some { c with closed := true } ∧
      (∀ (p : String) (subs : List Nat),
        (rmSubscription s postID ch).2.subscribers p = some subs → ch ∉ subs) ∧
      (∀ (i : Nat), i ≠ ch → (rmSubscription s postID ch).2.chans[i]? = s.chans[i]?)) ∧
    (∀ postID parentID text newID now,
      (AddComment s postID parentID text newID now).2.chans.map (fun c => c.closed)
        = s.chans.map (fun c => c.closed)) ∧
    (∀ (postID : String) (ch : Nat) (c : Chan), s.chans[ch]? = some c →
      (SubscribeToComments s postID).2.chans[ch]? = some c) ∧
    (∀ text commentsEnabled newID now,
      (NewPost s text commentsEnabled newID now).2.chans = s.chans) ∧
    (∀ postID enabled, (SetCommentsEnabled s postID enabled).2.chans = s.chans) ∧
    (∀ ch, (receive s ch).chans.map (fun c => c.closed) = s.chans.map (fun c => c.closed)) := by
  have hc := (reachable_invariants hr).2.2
  have hclosed : ∀ (cs cs0 : List Chan), cs.map Chan.frame = cs0.map Chan.frame →
      cs.map (fun c => c.closed) = cs0.map (fun c => c.closed) := by
    intro cs cs0 h
    have h1 : (fun c : Chan => c.closed) = Prod.snd ∘ Chan.frame := rfl
    rw [h1, ← List.map_map, h, List.map_map]
  refine ⟨hc.isOpen, ?_, fun postID parentID text newID now =>
    addComment_no_panic hc postID parentID text newID now, ?_, ?_, ?_, fun _ _ _ _ => rfl,
    fun postID enabled => (SetCommentsEnabled_frame s postID enabled).2.2.2.2.2, ?_⟩
  · intro ch c hch hcl p subs hp hmem
    obtain ⟨c0, hc0, hopen⟩ := hc.isOpen p subs ch hp hmem
    rw [hch] at hc0
    rw [Option.some.inj hc0, hopen] at hcl
    exact Bool.noConfusion hcl
  · intro postID ch c hh hch hopen
    have hself := rmSubscription_chan_self s postID ch
    rw [hch] at hself
    simp only [Option.map_some'] at hself
    have hc1 := chanInv_cancel hc postID ch hh
    refine ⟨?_, hself, ?_, rmSubscription_chans s postID ch⟩
    · unfold rmSubscription
      simp only
      by_cases hmem : ch ∈ (s.subscribers postID).getD []
      · simp only [if_pos hmem, hch, hopen]
        simp
      · simp only [if_neg hmem, hch, hopen]
        simp
    · intro p subs hp hmem
      obtain ⟨c0, hc0, hopen0⟩ := hc1.isOpen p subs ch hp hmem
      rw [hself] at hc0
      rw [← Option.some.inj hc0] at hopen0
      simp at hopen0
  · intro postID parentID text newID now
    exact hclosed _ _ (AddComment_frame s postID parentID text newID now).2.2.2.2
  · intro postID ch c hch
    unfold SubscribeToComments
    split
    · exact hch
    · simp only
      rw [List.getElem?_append_left (List.getElem?_eq_some.1 hch).1]
      exact hch
  · intro ch
    exact hclosed _ _ (receive_frame s ch).2.2.2.2.2.2.2

theorem never_sends_to_closed_witness :
    ReachableWith subscribedState [("p1", 0)] ∧
    subscribedState.chans[0]? = some ⟨1, [], false⟩ ∧
    (rmSubscription subscribedState "p1" 0).1 = Outcome.ok () ∧
    (rmSubscription subscribedState "p1" 0).2.chans[0]? = some ⟨1, [], true⟩ ∧
    (rmSubscription subscribedState "p1" 0).2.subscribers "p1" = some [] :=
  ⟨subscribedState_reachable, by decide,
    ((never_sends_to_closed subscribedState_reachable).2.2.2.1 "p1" 0 ⟨1, [], false⟩
      (by decide) (by decide) rfl).1,
    by decide, by decide⟩

/-! ## Durable store: `AddComment` and the change feed -/

namespace Postgres

theorem addComment_result (db : DB) (postID : String) (parentID : Option String)
    (text newID : String) (now : Nat) :
    (∃ e, AddComment db postID parentID text newID now = (Outcome.fail e, db)) ∨
    ((db.comments.any (fun r => r.id == newID)) = false ∧
      AddComment db postID parentID text newID now
        = (Outcome.ok ⟨newID, postID, parentID, text, second now⟩,
            { db with comments := db.comments ++ [⟨newID, postID, parentID, text, second now⟩] })) := by
  unfold AddComment
  split
  · exact Or.inl ⟨_, rfl⟩
  · simp only
    cases parentID with
    | none =>
      simp only
      cases hpk : db.comments.any (fun r => r.id == newID) with
      | true => exact Or.inl ⟨Failure.insertFailed, by simp⟩
      | false => exact Or.inr ⟨rfl, by simp⟩
    | some pid =>
      simp only
      split
      · exact Or.inl ⟨_, rfl⟩
      · cases hpk : db.comments.any (fun r => r.id == newID) with
        | true => exact Or.inl ⟨Failure.insertFailed, by simp⟩
        | false => exact Or.inr ⟨rfl, by simp⟩

/-- C21, as the durable store behaves: `AddComment` decides "post absent" and
"comments disabled" with one query and reports one failure for both.  For every state
of the tables, the call fails with the message "post with ID ... not found or comments
are disabled", leaving the tables as they are, exactly when no row of `posts` has the
id and accepts comments (so both when there is no row with the id and when the row
has `comments_enabled` false); it never fails with the not-found failure for a post
or with the comments-disabled failure of the in-process store. -/
theorem addComment_merged_failure (db : DB) (postID : String) (parentID : Option String)
    (text newID : String) (now : Nat) :
    ((∀ p ∈ db.posts, p.id = postID → p.commentsEnabled = false) ↔
      AddComment db postID parentID text newID now
        = (Outcome.fail (Failure.postNotFoundOrDisabled postID), db)) ∧
    (∀ x, (AddComment db postID parentID text newID now).1
      ≠ Outcome.fail (Failure.postNotFound x)) ∧
    (AddComment db postID parentID text newID now).1 ≠ Outcome.fail Failure.commentsDisabled := by
  have hany : (db.posts.any (fun p => p.id == postID && p.commentsEnabled)) = false ↔
      ∀ p ∈ db.posts, p.id = postID → p.commentsEnabled = false := by
    rw [List.any_eq_false]
    constructor
    · intro h p hp hid
      have := h p hp
      simp only [hid, beq_self_eq_true, Bool.true_and] at this
      simpa using this
    · intro h p hp
      by_cases hid : p.id = postID
      · simp [h p hp hid]
      · simp [hid]
  unfold AddComment
  cases hex : db.posts.any (fun p => p.id == postID && p.commentsEnabled) with
  | false =>
    simp only [Bool.not_false, if_true]
    exact ⟨⟨fun _ => trivial, fun _ => hany.1 hex⟩, fun x => by simp, by simp⟩
  | true =>
    have hno : ¬ ∀ p ∈ db.posts, p.id = postID → p.commentsEnabled = false := by
      intro h
      rw [hany.2 h] at hex
      exact Bool.noConfusion hex
    simp only [Bool.not_true, Bool.false_eq_true, if_false]
    cases parentID with
    | none =>
      simp only
      cases db.comments.any (fun r => r.id == newID) <;> simp [hno]
    | some pid =>
      simp only
      cases db.comments.any (fun r => r.id == pid) <;>
        cases db.comments.any (fun r => r.id == newID) <;> simp [hno]

/-- C21 fails as stated: the durable `AddComment` reports the same failure against a
post id with no row and against a post whose `comments_enabled` is false, where the
in-process store reports two different ones. -/
theorem durable_failures_merged :
    (AddComment noPostDB "p1" none "text" "c1" 0).1
      = Outcome.fail (Failure.postNotFoundOrDisabled "p1") ∧
    (AddComment closedPostDB "p1" none "text" "c1" 0).1
      = Outcome.fail (Failure.postNotFoundOrDisabled "p1") ∧
    (OzonTest.AddComment New "p1" none "text" "c1" "t1").1
      = Outcome.fail (Failure.postNotFound "p1") ∧
    (OzonTest.AddComment closedPostState "p1" none "text" "c1" "t1").1
      = Outcome.fail Failure.commentsDisabled := by
  decide

theorem second_le (t : Nat) : second t ≤ t := by
  unfold second; omega

theorem second_second (t : Nat) : second (second t) = second t := by
  unfold second; omega

theorem second_mono {a b : Nat} (h : a ≤ b) : second a ≤ second b := by
  unfold second; omega

theorem lt_of_second_lt {w c : Nat} (hc : second c = c) : second w < c ↔ w < c := by
  unfold second at *; omega

theorem valid_addComment {db : DB} (h : Valid db) (postID : String)
    (parentID : Option String) (text newID : String) (now : Nat) :
    Valid (AddComment db postID parentID text newID now).2 := by
  rcases addComment_result db postID parentID text newID now with ⟨e, he⟩ | ⟨hfresh, hok⟩
  · rw [he]; exact h
  · rw [hok]
    constructor
    · simp only [List.map_append, List.map_cons, List.map_nil]
      rw [List.nodup_append]
      refine ⟨h.1, List.nodup_singleton _, ?_⟩
      intro a ha hb
      simp only [List.mem_singleton] at hb
      subst hb
      rw [List.any_eq_false] at hfresh
      obtain ⟨r, hr, hid⟩ := List.mem_map.1 ha
      exact hfresh r hr (by simp [hid])
    · intro r hr
      simp only [List.mem_append, List.mem_singleton] at hr
      rcases hr with hr | hr
      · exact h.2 r hr
      · subst hr; exact second_second now

/-- The tables the operations build are valid. -/
theorem built_valid {db : DB} (h : Built db) : Valid db := by
  induction h with
  | empty => exact ⟨List.nodup_nil, fun r hr => by simp at hr⟩
  | posts ps _ ih => exact ih
  | addComment pid parentID text newID now _ ih =>
    exact valid_addComment ih pid parentID text newID now

end Postgres

namespace Postgres

theorem addComment_merged_failure_witness :
    AddComment closedPostDB "p1" none "text" "c1" 0
      = (Outcome.fail (Failure.postNotFoundOrDisabled "p1"), closedPostDB) :=
  (addComment_merged_failure closedPostDB "p1" none "text" "c1" 0).1.1 (by decide)

end Postgres

namespace Postgres

theorem pollRows_sublist (scanFails : CommentRow → Bool) :
    ∀ (rows : List CommentRow) (budget : Option Nat) (w : Nat),
      (pollRows scanFails budget rows w).1.Sublist rows := by
  intro rows
  induction rows with
  | nil => intro budget w; simp [pollRows]
  | cons r rest ih =>
    intro budget w
    unfold pollRows
    split
    · exact (ih budget w).cons r
    · split
      · exact List.nil_sublist _
      · exact (ih _ _).cons₂ r
      · exact (ih _ _).cons₂ r

/-- The watermark after the loop: unchanged when nothing was sent, otherwise the
`created_at` of a sent comment that is not before any other sent comment. -/
theorem pollRows_watermark (scanFails : CommentRow → Bool) :
    ∀ (rows : List CommentRow) (budget : Option Nat) (w : Nat),
      rows.Pairwise (fun a b => a.createdAt ≤ b.createdAt) →
      ((pollRows scanFails budget rows w).1 = [] ∧ (pollRows scanFails budget rows w).2 = w) ∨
      ∃ x ∈ (pollRows scanFails budget rows w).1,
        (pollRows scanFails budget rows w).2 = x.createdAt ∧
        ∀ r ∈ (pollRows scanFails budget rows w).1, r.createdAt ≤ x.createdAt := by
  intro rows
  induction rows with
  | nil => intro budget w _; exact Or.inl ⟨rfl, rfl⟩
  | cons r rest ih =>
    intro budget w hp
    obtain ⟨hr, hrest⟩ := List.pairwise_cons.1 hp
    have key : ∀ b : Option Nat,
        ∃ x ∈ r :: (pollRows scanFails b rest r.createdAt).1,
          (pollRows scanFails b rest r.createdAt).2 = x.createdAt ∧
          ∀ y ∈ r :: (pollRows scanFails b rest r.createdAt).1, y.createdAt ≤ x.createdAt := by
      intro b
      rcases ih b r.createdAt hrest with ⟨hnil, hw⟩ | ⟨x, hx, hw, hmax⟩
      · refine ⟨r, List.mem_cons_self _ _, hw, ?_⟩
        intro y hy
        rw [hnil] at hy
        simp only [List.mem_singleton] at hy
        rw [hy]
      · refine ⟨x, List.mem_cons_of_mem _ hx, hw, ?_⟩
        intro y hy
        rcases List.mem_cons.1 hy with hy | hy
        · rw [hy]
          exact hr x ((pollRows_sublist scanFails rest b r.createdAt).subset hx)
        · exact hmax y hy
    unfold pollRows
    split
    · exact ih budget w hrest
    · split
      · exact Or.inl ⟨rfl, rfl⟩
      · exact Or.inr (key _)
      · exact Or.inr (key _)

theorem tick_eq :
    ∀ (rows : List CommentRow) (w : Nat),
      tick rows w = (rows, ((rows.getLast?).map (fun r => r.createdAt)).getD w) := by
  intro rows
  induction rows with
  | nil => intro w; rfl
  | cons r rest ih =>
    intro w
    have h := ih r.createdAt
    unfold tick at h ⊢
    unfold pollRows
    simp only [Bool.false_eq_true, if_false, h]
    cases rest with
    | nil => rfl
    | cons a t =>
      rw [List.getLast?_cons_cons]
      cases hl : (a :: t).getLast? with
      | none => simp at hl
      | some x => rfl

theorem mem_selected {db : DB} {postID : String} {w : Nat} {r : CommentRow} :
    r ∈ selected db postID w ↔ r ∈ db.comments ∧ r.postID = postID ∧ second w < r.createdAt := by
  simp [selected, and_assoc]

theorem nodup_comments {db : DB} (h : Valid db) : db.comments.Nodup :=
  List.Nodup.of_map _ h.1

/-- What a run keeps true: the table is valid, the comments sent are rows of the
table, no comment was sent twice, and no sent comment is later than the second of the
watermark. -/
theorem run_invariant {postID : String} {f0 f : Feed} (hr : Run postID f0 f)
    (hv : Valid f0.db) (h0 : f0.pushed = []) :
    Valid f.db ∧ (∀ r ∈ f.pushed, r ∈ f.db.comments ∧ r.postID = postID) ∧ f.pushed.Nodup ∧
    (∀ r ∈ f.pushed, r.createdAt ≤ second f.lastCheck) ∧
    f0.lastCheck ≤ f.lastCheck ∧
    (∀ r ∈ f.pushed, second f0.lastCheck < r.createdAt) := by
  induction hr with
  | start =>
    rw [h0]
    exact ⟨hv, by simp, List.nodup_nil, by simp, Nat.le_refl _, by simp⟩
  | @step f f1 _ hstep ih =>
    obtain ⟨ihv, ihmem, ihnd, ihle, ihw, ihlater⟩ := ih
    cases hstep with
    | posts ps => exact ⟨ihv, ihmem, ihnd, ihle, ihw, ihlater⟩
    | addComment pid parentID text newID now =>
      refine ⟨valid_addComment ihv pid parentID text newID now, ?_, ihnd, ihle, ihw, ihlater⟩
      intro r hr
      refine ⟨?_, (ihmem r hr).2⟩
      rcases addComment_result f.db pid parentID text newID now with ⟨e, he⟩ | ⟨_, hok⟩
      · rw [he]; exact (ihmem r hr).1
      · rw [hok]
        exact List.mem_append_left _ (ihmem r hr).1
    | tick rows scanFails budget hans =>
      obtain ⟨hperm, hsorted⟩ := hans
      have hsub := pollRows_sublist scanFails rows budget f.lastCheck
      have hsel : ∀ r ∈ (pollRows scanFails budget rows f.lastCheck).1,
          r ∈ f.db.comments ∧ r.postID = postID ∧ second f.lastCheck < r.createdAt := by
        intro r hr
        exact mem_selected.1 (hperm.subset (hsub.subset hr))
      have hwhole : ∀ r ∈ (pollRows scanFails budget rows f.lastCheck).1,
          second r.createdAt = r.createdAt := fun r hr => ihv.2 r (hsel r hr).1
      have hrows : rows.Nodup :=
        (hperm.nodup_iff).2 ((nodup_comments ihv).filter _)
      refine ⟨ihv, ?_, ?_, ?_, ?_, ?_⟩
      · intro r hr
        rcases List.mem_append.1 hr with h | h
        · exact ihmem r h
        · exact ⟨(hsel r h).1, (hsel r h).2.1⟩
      · rw [List.nodup_append]
        refine ⟨ihnd, hrows.sublist hsub, ?_⟩
        intro r h1 h2
        have a := ihle r h1
        have b := (hsel r h2).2.2
        omega
      · intro r hr
        simp only
        rcases pollRows_watermark scanFails rows budget f.lastCheck hsorted with
          ⟨hnil, hw⟩ | ⟨x, hx, hw, hmax⟩
        · rw [hw]
          rcases List.mem_append.1 hr with h | h
          · exact ihle r h
          · rw [hnil] at h; simp at h
        · rw [hw, hwhole x hx]
          rcases List.mem_append.1 hr with h | h
          · have a := ihle r h
            have b := (hsel x hx).2.2
            omega
          · exact hmax r h
      · simp only
        rcases pollRows_watermark scanFails rows budget f.lastCheck hsorted with
          ⟨_, hw⟩ | ⟨x, hx, hw, _⟩
        · rw [hw]; exact ihw
        · rw [hw]
          have b := (lt_of_second_lt (hwhole x hx)).1 (hsel x hx).2.2
          omega
      · intro r hr
        rcases List.mem_append.1 hr with h | h
        · exact ihlater r h
        · have b := (hsel r h).2.2
          have c := second_mono ihw
          omega

end Postgres

namespace Postgres

theorem step_watermark {postID : String} {f f1 : Feed} (hv : Valid f.db)
    (hstep : Step postID f f1) : f.lastCheck ≤ f1.lastCheck ∧ Valid f1.db := by
  cases hstep with
  | posts ps => exact ⟨Nat.le_refl _, hv⟩
  | addComment pid parentID text newID now =>
    exact ⟨Nat.le_refl _, valid_addComment hv pid parentID text newID now⟩
  | tick rows scanFails budget hans =>
    refine ⟨?_, hv⟩
    obtain ⟨hperm, hsorted⟩ := hans
    simp only
    rcases pollRows_watermark scanFails rows budget f.lastCheck hsorted with
      ⟨_, hw⟩ | ⟨x, hx, hw, _⟩
    · rw [hw]
    · rw [hw]
      have hsel := mem_selected.1
        (hperm.subset ((pollRows_sublist scanFails rows budget f.lastCheck).subset hx))
      have b := (lt_of_second_lt (hv.2 x hsel.1)).1 hsel.2.2
      omega

theorem selected_eq_newer {db : DB} (hv : Valid db) (postID : String) (w : Nat) :
    selected db postID w
      = db.comments.filter (fun r => r.postID == postID && decide (w < r.createdAt)) := by
  unfold selected
  apply List.filter_congr
  intro r hr
  have h := lt_of_second_lt (w := w) (hv.2 r hr)
  by_cases hlt : w < r.createdAt
  · simp [hlt, h.2 hlt]
  · have : ¬ second w < r.createdAt := fun h1 => hlt (h.1 h1)
    simp [hlt, this]

/-- The polling query has an answer for every state of the tables. -/
theorem answer_exists (db : DB) (postID : String) (w : Nat) :
    ∃ rows, IsAnswer db postID w rows := by
  refine ⟨(selected db postID w).insertionSort (fun a b => a.createdAt ≤ b.createdAt), ?_, ?_⟩
  · exact List.perm_insertionSort _ _
  · exact @List.sorted_insertionSort CommentRow (fun a b => a.createdAt ≤ b.createdAt) _
      ⟨fun a b => Nat.le_total a.createdAt b.createdAt⟩
      ⟨fun a b c hab hbc => Nat.le_trans hab hbc⟩ _

/-- C25: one polling tick.  On tables built by the store's operations (every
`created_at` is a whole second), a tick without cancellation and without query or scan
failure, run with watermark `w` on any answer of the query, sends exactly the rows of
the answer: the comments of the subscribed post whose `createdAt` is strictly greater
than `w`, in non-decreasing `createdAt` order; it leaves the watermark at the
`createdAt` of the last comment sent, or at `w` when nothing was sent, so not below
`w`.  Over a sequence of ticks (with or without failures and cancellation, interleaved
with writes to the tables) the watermark never decreases. -/
theorem tick_pushes_newer {db : DB} (hv : Valid db) (postID : String) (w : Nat)
    (rows : List CommentRow) (ha : IsAnswer db postID w rows) :
    (tick rows w).1 = rows ∧
    rows.Perm (db.comments.filter (fun r => r.postID == postID && decide (w < r.createdAt))) ∧
    rows.Pairwise (fun a b => a.createdAt ≤ b.createdAt) ∧
    (tick rows w).2 = ((rows.getLast?).map (fun r => r.createdAt)).getD w ∧
    w ≤ (tick rows w).2 ∧
    (∀ f, Run postID ⟨db, w, []⟩ f → w ≤ f.lastCheck) ∧
    (∀ f f1, Run postID ⟨db, w, []⟩ f → Step postID f f1 → f.lastCheck ≤ f1.lastCheck) := by
  have hstep := step_watermark hv (Step.tick ⟨db, w, []⟩ rows (fun _ => false) none ha)
  refine ⟨by rw [tick_eq], ?_, ha.2, by rw [tick_eq], hstep.1, ?_, ?_⟩
  · rw [← selected_eq_newer hv]; exact ha.1
  · intro f hr
    exact (run_invariant hr hv rfl).2.2.2.2.1
  · intro f f1 hr hs
    exact (step_watermark (run_invariant hr hv rfl).1 hs).1

theorem twoCommentsDB_built : Built twoCommentsDB :=
  Built.addComment "p1" none "two" "c2" 7100000000
    (Built.addComment "p1" none "one" "c1" 6200000000
      (Built.posts [⟨"p1", "post", true, "t0"⟩] Built.empty))

theorem tick_pushes_newer_witness :
    Valid twoCommentsDB ∧
    IsAnswer twoCommentsDB "p1" 6300000000 [⟨"c2", "p1", none, "two", 7000000000⟩] ∧
    tick [⟨"c2", "p1", none, "two", 7000000000⟩] 6300000000
      = ([⟨"c2", "p1", none, "two", 7000000000⟩], 7000000000) ∧
    (6300000000 : Nat) ≤ (tick [⟨"c2", "p1", none, "two", 7000000000⟩] 6300000000).2 :=
  ⟨built_valid twoCommentsDB_built, by decide, by decide,
    (tick_pushes_newer (built_valid twoCommentsDB_built) "p1" 6300000000
      [⟨"c2", "p1", none, "two", 7000000000⟩] (by decide)).2.2.2.2.1⟩

/-- C26: a durable subscription never sends the same comment twice.  Over any run of
a subscription that starts with nothing sent on tables built by the store's operations
(ticks with any answer of the query, with or without scan failures and cancellation,
interleaved with `AddComment` calls and changes of table `posts`), the ids of the
comments sent are pairwise different; every comment sent is a row of the table of the
subscribed post, created in a second later than the second the subscription started
in. -/
theorem pushed_at_most_once {postID : String} {f0 f : Feed} (hv : Valid f0.db)
    (h0 : f0.pushed = []) (hr : Run postID f0 f) :
    (f.pushed.map (fun r => r.id)).Nodup ∧
    (∀ r ∈ f.pushed, r ∈ f.db.comments ∧ r.postID = postID ∧
      second f0.lastCheck < r.createdAt) := by
  obtain ⟨hvf, hmem, hnd, _, _, hlater⟩ := run_invariant hr hv h0
  constructor
  · apply List.Nodup.map_on _ hnd
    intro x hx y hy hxy
    exact List.inj_on_of_nodup_map hvf.1 (hmem x hx).1 (hmem y hy).1 hxy
  · intro r hr1
    exact ⟨(hmem r hr1).1, (hmem r hr1).2, hlater r hr1⟩

theorem pushed_at_most_once_witness :
    Valid twoCommentsDB ∧
    (([] : List CommentRow) ++
        (pollRows (fun _ => false) none (selected twoCommentsDB "p1" 5300000000) 5300000000).1)
      = [⟨"c1", "p1", none, "one", 6000000000⟩, ⟨"c2", "p1", none, "two", 7000000000⟩] ∧
    ((([] : List CommentRow) ++
        (pollRows (fun _ => false) none (selected twoCommentsDB "p1" 5300000000)
          5300000000).1).map (fun r => r.id)).Nodup :=
  ⟨built_valid twoCommentsDB_built, by decide,
    (@pushed_at_most_once "p1" ⟨twoCommentsDB, 5300000000, []⟩ _
      (built_valid twoCommentsDB_built) rfl
      (Run.step Run.start
        (Step.tick ⟨twoCommentsDB, 5300000000, []⟩ (selected twoCommentsDB "p1" 5300000000)
          (fun _ => false) none (by decide)))).1⟩

/-- Which rows a tick of the model sends.  On tables built by the store's operations
the query always has an answer; a comment of the subscribed post that is in the table
when a tick without failure and cancellation runs is sent by that tick if its
`createdAt` is later than the second of the watermark; a comment whose `createdAt` is
not later than the second of the watermark is sent neither by that tick nor in any run
from there. -/
theorem pushed_iff_later_second {db : DB} (hv : Valid db) (postID : String) (w : Nat)
    (r : CommentRow) (hr : r ∈ db.comments) (hp : r.postID = postID) :
    (∃ rows, IsAnswer db postID w rows) ∧
    (second w < r.createdAt →
      ∀ rows, IsAnswer db postID w rows → r ∈ (tick rows w).1) ∧
    (r.createdAt ≤ second w →
      (∀ rows, IsAnswer db postID w rows → r ∉ (tick rows w).1) ∧
      ∀ f, Run postID ⟨db, w, []⟩ f → r ∉ f.pushed) := by
  refine ⟨answer_exists db postID w, ?_, ?_⟩
  · intro hlt rows ha
    rw [tick_eq]
    exact ha.1.symm.subset (mem_selected.2 ⟨hr, hp, hlt⟩)
  · intro hle
    constructor
    · intro rows ha hmem
      rw [tick_eq] at hmem
      have := (mem_selected.1 (ha.1.subset hmem)).2.2
      omega
    · intro f hrun hmem
      have := (run_invariant hrun hv rfl).2.2.2.2.2 r hmem
      simp only at this
      omega

theorem pushed_iff_later_second_witness :
    Valid twoCommentsDB ∧
    (⟨"c2", "p1", none, "two", 7000000000⟩ : CommentRow) ∈ twoCommentsDB.comments ∧
    second 6300000000 < 7000000000 ∧
    ∀ rows, IsAnswer twoCommentsDB "p1" 6300000000 rows →
      (⟨"c2", "p1", none, "two", 7000000000⟩ : CommentRow) ∈ (tick rows 6300000000).1 :=
  ⟨built_valid twoCommentsDB_built, by decide, by decide,
    (pushed_iff_later_second (built_valid twoCommentsDB_built) "p1" 6300000000
      ⟨"c2", "p1", none, "two", 7000000000⟩ (by decide) rfl).2.1 (by decide)⟩

theorem sameSecondFeed_built : Built sameSecondFeed.db :=
  Built.addComment "p1" none "hello" "c1" 5700000000
    (Built.posts [⟨"p1", "post", true, "t0"⟩] Built.empty)

/-- C22 at a failing input: a subscription to `p1` starts 5.3 s after the epoch
(`lastCheck := time.Now()`), and a comment on `p1` is added 0.4 s later, so after the
subscription started.  `AddComment` stores it with `createdAt` 5 s (the RFC3339 string
has no fraction of a second) and the query compares with the RFC3339 string of the
watermark, also 5 s, by a strict `>`: the answer of the first tick after the commit
is empty, the tick sends nothing, and the comment is sent in no run from there. -/
theorem same_second_comment_never_pushed :
    SubscribeToComments openPostDB "p1" 5300000000
      = Outcome.ok ⟨openPostDB, 5300000000, []⟩ ∧
    (5300000000 : Nat) < 5700000000 ∧
    AddComment openPostDB "p1" none "hello" "c1" 5700000000
      = (Outcome.ok ⟨"c1", "p1", none, "hello", 5000000000⟩, sameSecondFeed.db) ∧
    Run "p1" ⟨openPostDB, 5300000000, []⟩ sameSecondFeed ∧
    (∀ rows, IsAnswer sameSecondFeed.db "p1" sameSecondFeed.lastCheck rows →
      tick rows sameSecondFeed.lastCheck = ([], 5300000000)) ∧
    ∀ f, Run "p1" sameSecondFeed f →
      (⟨"c1", "p1", none, "hello", 5000000000⟩ : CommentRow) ∉ f.pushed := by
  refine ⟨by decide, by decide, by decide,
    Run.step Run.start (Step.addComment ⟨openPostDB, 5300000000, []⟩ "p1" none "hello" "c1"
      5700000000), ?_, ?_⟩
  · intro rows ha
    have hsel : selected sameSecondFeed.db "p1" sameSecondFeed.lastCheck = [] := by decide
    have hnil : rows = [] := by
      have := ha.1
      rw [hsel] at this
      exact List.Perm.eq_nil this
    rw [hnil]
    rfl
  · intro f hrun hmem
    have h := (run_invariant hrun (built_valid sameSecondFeed_built) rfl).2.2.2.2.2 _ hmem
    revert h
    decide

end Postgres

end OzonTest
